import Mathlib

/-!
Pire `Partition<T, Eq>` (src/pire/partition.h)

A shallow embedding of the partition-refinement container of Pire and a
verification of its contract.

* `ymap<K, V>` (an ordered map, `std::map`) is a list of key/value pairs kept in
  strictly ascending key order; iteration order is list order.  Lookups walk the
  list the way an ordered search does (skip smaller keys, stop at the first key
  that is not smaller).
* `TVector<T>` is `List T`; `push_back` is `· ++ [t]`.
* `size_t` is `Nat`: the counter `m_maxidx` is incremented once per founded class
  and cannot reach `2^64` on a machine that stores the classes.
* `Eq` is a function `T → T → Bool`; `m_eq(a, b)` is `m_eq a b`.
* `std::partition` is the bidirectional-iterator algorithm of the standard
  library (`stdPartition`).
* `SplitSpec` is not taken from the source: it is the one-pass procedure the
  specification describes for `Split`, and is compared with `Partition.Split`.
-/

set_option linter.unusedSectionVars false
set_option linter.unusedVariables false

namespace Pire

/-! ## `ymap` : ordered map -/

namespace ymap

variable {K V : Type} [LinearOrder K]

/-- The representation invariant of an ordered map: keys strictly ascending. -/
def WF (m : List (K × V)) : Prop := m.Pairwise (fun a b => a.1 < b.1)

/-- Lookup `m.find(k)`: `none` stands for `m.end()`. -/
def find : List (K × V) → K → Option V
  | [], _ => none
  | (k', v) :: m, k =>
    if k' < k then find m k else if k' = k then some v else none

/-- Single-element `m.insert(e)`: an existing key is left as it is. -/
def insert : List (K × V) → K × V → List (K × V)
  | [], e => [e]
  | (k', v) :: m, e =>
    if k' < e.1 then (k', v) :: insert m e
    else if k' = e.1 then (k', v) :: m
    else e :: (k', v) :: m

/-- Range insert `m.insert(d.begin(), d.end())`. -/
def insertRange (m d : List (K × V)) : List (K × V) := d.foldl insert m

/-- Assignment `m[k] = v`: inserts the key or overwrites its value. -/
def assign : List (K × V) → K → V → List (K × V)
  | [], k, v => [(k, v)]
  | (k', v') :: m, k, v =>
    if k' < k then (k', v') :: assign m k v
    else if k' = k then (k', v) :: m
    else (k, v) :: (k', v') :: m

/-- In-place update of the value stored under `k` (writing through an iterator
that points at key `k`). -/
def update : List (K × V) → K → (V → V) → List (K × V)
  | [], _, _ => []
  | (k', v) :: m, k, f =>
    if k' < k then (k', v) :: update m k f
    else if k' = k then (k', f v) :: m
    else (k', v) :: m

/-- Key of `m.begin()`; `none` stands for `m.end()`. -/
def beginKey (m : List (K × V)) : Option K := m.head?.map Prod.fst

/-- Key of the iterator following the one at key `k` (`++it`): the first entry
whose key is greater than `k`. -/
def nextKey (m : List (K × V)) (k : K) : Option K :=
  (m.find? (fun e => decide (k < e.1))).map Prod.fst

end ymap

/-! ## `std::partition` -/

/-- The loop of `std::partition` for bidirectional iterators on the window
`[first, last)` given as a list.  Returns the elements left of the returned
bound and the elements from the bound on, in their final order.

```
while (true) {
  while (true) if (first == last) return first;
               else if (pred(*first)) ++first; else break;
  --last;
  while (true) if (first == last) return first;
               else if (!pred(*last)) --last; else break;
  iter_swap(first, last); ++first;
}
```
The fuel bounds the number of elements `first` steps over. -/
def stdPartitionAux {T : Type} (pred : T → Bool) : Nat → List T → List T × List T
  | 0, v => ([], v)
  | _ + 1, [] => ([], [])
  | n + 1, a :: rest =>
    if pred a then
      let r := stdPartitionAux pred n rest
      (a :: r.1, r.2)
    else
      let back := rest.reverse
      match back.dropWhile (fun x => !pred x) with
      | [] => ([], a :: rest)
      | b :: midRev =>
        let r := stdPartitionAux pred n midRev.reverse
        (b :: r.1, r.2 ++ a :: (back.takeWhile (fun x => !pred x)).reverse)

/-- Model of `bound = std::partition(v.begin(), v.end(), pred)`: the pair
`([v.begin(), bound), [bound, v.end()))` after the call. -/
def stdPartition {T : Type} (pred : T → Bool) (v : List T) : List T × List T :=
  stdPartitionAux pred v.length v

/-! ## `Partition` -/

/-- The class table type `ymap< T, ypair< size_t, TVector<T> > >`. -/
abbrev Partition.Set (T : Type) := List (T × (Nat × List T))

/-- The data members of `Partition<T, Eq>`. -/
structure Partition (T : Type) where
  m_eq : T → T → Bool
  m_set : Partition.Set T
  m_inv : List (T × T)
  m_maxidx : Nat

/-- What a query can signal instead of a value: the thrown `Error` (lookup of an
item that is not there) or a failed `YASSERT`. -/
inductive Failure where
  | Error
  | YAssert
  deriving DecidableEq, Repr

/-- Modelled from the spec: `DefaultValue<T>()` of `stub/singleton.h` (a header of
the stub layer), "a well-defined default/sentinel value for the item type". -/
def DefaultValue {T : Type} [Inhabited T] : T := default

variable {T : Type} [LinearOrder T]

/-- The constructor `Partition(const Eq& eq)`. -/
def Partition.ctor (eq : T → T → Bool) : Partition T :=
  { m_eq := eq, m_set := [], m_inv := [], m_maxidx := 0 }

/-- The scan of `DoAppend`: walks `set` in iteration order and, at the first key
`k` with `m_eq(k, t)`, pushes `t` onto that class.  Returns the key and the
changed table, or `none` when the loop ran to `end`. -/
def DoAppendScan (eq : T → T → Bool) (t : T) : Partition.Set T → Option (T × Partition.Set T)
  | [] => none
  | (k, (i, v)) :: rest =>
    if eq k t then some (k, (k, (i, v ++ [t])) :: rest)
    else
      match DoAppendScan eq t rest with
      | none => none
      | some (r, rest') => some (r, (k, (i, v)) :: rest')

/-- The mutable data `DoAppend` works on: the table passed by reference and the
members `m_inv`, `m_maxidx`. -/
structure AppendState (T : Type) where
  set : Partition.Set T
  inv : List (T × T)
  maxidx : Nat

/-- `DoAppend(set, t)`. -/
def DoAppend (eq : T → T → Bool) (s : AppendState T) (t : T) : AppendState T :=
  match DoAppendScan eq t s.set with
  | some (r, set') => { set := set', inv := ymap.assign s.inv t r, maxidx := s.maxidx }
  | none =>
    { set := ymap.insert s.set (t, (s.maxidx, [t])),
      inv := ymap.assign s.inv t t,
      maxidx := s.maxidx + 1 }

/-- `Append(t)`: `DoAppend(m_set, t)`. -/
def Partition.Append (p : Partition T) (t : T) : Partition T :=
  let s := DoAppend p.m_eq { set := p.m_set, inv := p.m_inv, maxidx := p.m_maxidx } t
  { m_eq := p.m_eq, m_set := s.set, m_inv := s.inv, m_maxidx := s.maxidx }

/-- `Size()`. -/
def Partition.Size (p : Partition T) : Nat := p.m_set.length

/-- `Empty()`. -/
def Partition.Empty (p : Partition T) : Bool := p.m_set.isEmpty

/-- `Representative(t)`. -/
def Partition.Representative [Inhabited T] (p : Partition T) (t : T) : T :=
  match ymap.find p.m_inv t with
  | some r => r
  | none => DefaultValue

/-- `Contains(t)`. -/
def Partition.Contains (p : Partition T) (t : T) : Bool :=
  (ymap.find p.m_inv t).isSome

/-- `Index(t)`. -/
def Partition.Index (p : Partition T) (t : T) : Except Failure Nat :=
  match ymap.find p.m_inv t with
  | none => .error Failure.Error
  | some r =>
    match ymap.find p.m_set r with
    | none => .error Failure.YAssert
    | some c => .ok c.1

/-- `Klass(t)`. -/
def Partition.Klass (p : Partition T) (t : T) : Except Failure (List T) :=
  match ymap.find p.m_inv t with
  | none => .error Failure.Error
  | some r =>
    match ymap.find p.m_set r with
    | none => .error Failure.YAssert
    | some c => .ok c.2

/-- The body of the loop of `Split` for the iterator `sit` standing at key `k`
(`m_eq` is already the new relation). -/
def SplitStep (p : Partition T) (k : T) : Partition T :=
  match ymap.find p.m_set k with
  | none => p
  | some (_, v) =>
    match v with
    | v0 :: _ :: _ =>
      let bp := stdPartition (fun x => p.m_eq x v0) v
      let set1 := ymap.update p.m_set k (fun c => (c.1, bp.1))
      if bp.2 = [] then
        { p with m_set := set1 }
      else
        let d := bp.2.foldl (DoAppend p.m_eq) { set := [], inv := p.m_inv, maxidx := p.m_maxidx }
        { m_eq := p.m_eq, m_set := ymap.insertRange set1 d.set, m_inv := d.inv,
          m_maxidx := d.maxidx }
    | _ => p

/-- The loop `for (sit = m_set.begin(); sit != sie; ++sit)` of `Split`, the
iterator given by the key it stands at (`none`: `sit == sie`). -/
def SplitLoop : Nat → Partition T → Option T → Partition T
  | 0, p, _ => p
  | _ + 1, p, none => p
  | n + 1, p, some k =>
    let p' := SplitStep p k
    SplitLoop n p' (ymap.nextKey p'.m_set k)

/-- All items stored in a class table: each key followed by its members. -/
def Partition.items (s : Partition.Set T) : List T :=
  s.flatMap (fun e => e.1 :: e.2.2)

/-- `Split(eq)`.  The loop visits keys in ascending order and every key it can
meet is an item of the table at entry, so the number of items bounds the number
of iterations (`Split_fuel_enough`). -/
def Partition.Split (p : Partition T) (eq : T → T → Bool) : Partition T :=
  SplitLoop (Partition.items p.m_set).length { p with m_eq := eq } (ymap.beginKey p.m_set)

/-- `operator ==`: the class tables are equal. -/
def Partition.beq [DecidableEq T] (p q : Partition T) : Bool := decide (p.m_set = q.m_set)

/-! ## Vocabulary of the statements -/

/-- The item `t` is listed among the members of the class with key `r`. -/
def InClass (s : Partition.Set T) (r t : T) : Prop :=
  ∃ i v, (r, (i, v)) ∈ s ∧ t ∈ v

/-- What `DoAppend` guarantees whatever the relation is. -/
structure DoAppendRaw (s s' : AppendState T) (t : T) : Prop where
  wf : ymap.WF s.set → ymap.WF s'.set
  maxidx : s.maxidx ≤ s'.maxidx
  inv : ∃ r, (∃ c, (r, c) ∈ s'.set) ∧
    ∀ x, ymap.find s'.inv x = if x = t then some r else ymap.find s.inv x
  keep : ∀ r i v, (r, (i, v)) ∈ s.set →
    ∃ v', (r, (i, v')) ∈ s'.set ∧ (v' = v ∨ v' = v ++ [t])
  back : ∀ r i v', (r, (i, v')) ∈ s'.set →
    (∃ v, (r, (i, v)) ∈ s.set ∧ (v' = v ∨ v' = v ++ [t])) ∨
    (r = t ∧ i = s.maxidx ∧ v' = [t])
  size : s.set.length ≤ s'.set.length

/-- What a run of `DoAppend` over a list of items guarantees whatever the relation
is. -/
structure FoldRaw (s d : AppendState T) (l : List T) : Prop where
  wf : ymap.WF s.set → ymap.WF d.set
  maxidx : s.maxidx ≤ d.maxidx
  dom : ∀ x, (ymap.find d.inv x).isSome ↔ (ymap.find s.inv x).isSome ∨ x ∈ l
  inv_out : ∀ x, x ∉ l → ymap.find d.inv x = ymap.find s.inv x
  inv_key : ∀ x r, ymap.find d.inv x = some r →
    ymap.find s.inv x = some r ∨ ∃ c, (r, c) ∈ d.set
  keep : ∀ r i v, (r, (i, v)) ∈ s.set →
    ∃ v', (r, (i, v')) ∈ d.set ∧ ∀ x ∈ v', x ∈ v ∨ x ∈ l
  back : ∀ r i v', (r, (i, v')) ∈ d.set →
    (∃ v, (r, (i, v)) ∈ s.set ∧ ∀ x ∈ v', x ∈ v ∨ x ∈ l) ∨
    (r ∈ l ∧ s.maxidx ≤ i ∧ ∀ x ∈ v', x ∈ l)


/-- The states a program can bring a partition into, each with the list of the
items appended so far (in order).  No assumption on the relations. -/
inductive Reachable : List T → Partition T → Prop
  | ctor (eq : T → T → Bool) : Reachable [] (Partition.ctor eq)
  | Append {h : List T} {p : Partition T} (t : T) :
      Reachable h p → Reachable (h ++ [t]) (p.Append t)
  | Split {h : List T} {p : Partition T} (eq : T → T → Bool) :
      Reachable h p → Reachable h (p.Split eq)

/-- What holds in every reachable state whatever the relations are: the class
table is an ordered map, the reverse map points at keys of the class table, its
domain is the set of appended items, and only appended items are stored. -/
structure RawInv (h : List T) (p : Partition T) : Prop where
  wf : ymap.WF p.m_set
  rep_key : ∀ t r, ymap.find p.m_inv t = some r → ∃ c, (r, c) ∈ p.m_set
  dom : ∀ t, (ymap.find p.m_inv t).isSome ↔ t ∈ h
  items_dom : ∀ x ∈ Partition.items p.m_set, x ∈ h

/-- How the class table `p` descends from the class table `p0`: classes of `p0`
are still there under the same key and index with no new member, and any other
class is made of members of one class of `p0` and has an index `p0` never gave
out. -/
structure Frame (p0 p : Partition T) : Prop where
  keep : ∀ r i v, (r, (i, v)) ∈ p0.m_set →
    ∃ v', (r, (i, v')) ∈ p.m_set ∧ ∀ x ∈ v', x ∈ v
  back : ∀ r' i' v', (r', (i', v')) ∈ p.m_set →
    (∃ v, (r', (i', v)) ∈ p0.m_set ∧ ∀ x ∈ v', x ∈ v) ∨
    (p0.m_maxidx ≤ i' ∧ ∃ r i v, (r, (i, v)) ∈ p0.m_set ∧ r' ∈ v ∧ ∀ x ∈ v', x ∈ v)
  maxidx : p0.m_maxidx ≤ p.m_maxidx

/-- Bound on the number of iterations the loop of `Split` still makes when the
iterator stands at `cur`: one for the class at `cur` and one for each item of
the table greater than `cur`. -/
def SplitMeasure (p : Partition T) : Option T → Nat
  | none => 0
  | some k => 1 + ((Partition.items p.m_set).toFinset.filter (fun x => k < x)).card

/-- The relation `eq` is an equivalence relation on items. -/
structure IsEquivRel (eq : T → T → Bool) : Prop where
  refl : ∀ a, eq a a = true
  symm : ∀ a b, eq a b = true → eq b a = true
  trans : ∀ a b c, eq a b = true → eq b c = true → eq a c = true

/-- The relation `new` implies the relation `old`. -/
def Refines (new old : T → T → Bool) : Prop := ∀ a b, new a b = true → old a b = true

/-- The states reached when the constructor relation and every relation given to
`Split` are equivalence relations and every relation given to `Split` implies the
relation that was active before, each with the list of the items appended so
far. -/
inductive ReachableEq : List T → Partition T → Prop
  | ctor (eq : T → T → Bool) (he : IsEquivRel eq) : ReachableEq [] (Partition.ctor eq)
  | Append {h : List T} {p : Partition T} (t : T) :
      ReachableEq h p → ReachableEq (h ++ [t]) (p.Append t)
  | Split {h : List T} {p : Partition T} (eq : T → T → Bool) (he : IsEquivRel eq)
      (hr : Refines eq p.m_eq) : ReachableEq h p → ReachableEq h (p.Split eq)

/-- Invariant of a class table filled by `DoAppend` under the relation `eq`: an
ordered map; each class lists its key first and only items related to its key;
distinct keys are unrelated; the reverse map sends each member to the key of its
class; indices are below the counter and distinct. -/
structure ClassInv (eq : T → T → Bool) (s : AppendState T) : Prop where
  wf : ymap.WF s.set
  head : ∀ r i v, (r, (i, v)) ∈ s.set → ∃ tl, v = r :: tl
  rel : ∀ r i v, (r, (i, v)) ∈ s.set → ∀ x ∈ v, eq r x = true
  sepR : ∀ r1 c1 r2 c2, (r1, c1) ∈ s.set → (r2, c2) ∈ s.set → r1 ≠ r2 → eq r1 r2 = false
  inv_of_mem : ∀ r x, InClass s.set r x → ymap.find s.inv x = some r
  idx_lt : ∀ r i v, (r, (i, v)) ∈ s.set → i < s.maxidx
  idx_inj : ∀ r1 i v1 r2 v2, (r1, (i, v1)) ∈ s.set → (r2, (i, v2)) ∈ s.set → r1 = r2

/-- Invariant of the loop of `Split` with the iterator at `cur` (`none`: at the
end): as `ClassInv`, except that only the classes the iterator has passed are
known to hold items related to their key, while items of distinct classes are
known to be unrelated; and the reverse map is exactly class membership. -/
structure SplitInv (p : Partition T) (cur : Option T) : Prop where
  wf : ymap.WF p.m_set
  head : ∀ r i v, (r, (i, v)) ∈ p.m_set → ∃ tl, v = r :: tl
  rel : ∀ r i v, (r, (i, v)) ∈ p.m_set → (∀ k, cur = some k → r < k) →
    ∀ x ∈ v, p.m_eq r x = true
  sep : ∀ r1 i1 v1 r2 i2 v2, (r1, (i1, v1)) ∈ p.m_set → (r2, (i2, v2)) ∈ p.m_set →
    r1 ≠ r2 → ∀ x ∈ v1, ∀ y ∈ v2, p.m_eq x y = false
  inv_mem : ∀ t r, ymap.find p.m_inv t = some r ↔ InClass p.m_set r t
  idx_lt : ∀ r i v, (r, (i, v)) ∈ p.m_set → i < p.m_maxidx
  idx_inj : ∀ r1 i v1 r2 v2, (r1, (i, v1)) ∈ p.m_set → (r2, (i, v2)) ∈ p.m_set → r1 = r2

/-! ## Concrete partitions used as examples -/

/-- The relation "same parity" on natural numbers. -/
def sameParity (a b : Nat) : Bool := a % 2 == b % 2

/-- The relation that never holds (it is not reflexive). -/
def neverEq (_ _ : Nat) : Bool := false

/-- `Partition<Nat, sameParity>` after `Append(1); Append(2); Append(3); Append(4)`. -/
def parityPartition : Partition Nat :=
  ((((Partition.ctor sameParity).Append 1).Append 2).Append 3).Append 4

/-- `Partition<Nat, neverEq>` after `Append(1)`. -/
def neverPartition : Partition Nat := (Partition.ctor neverEq).Append 1

/-- The relation "equal" on natural numbers. -/
def natEq (a b : Nat) : Bool := a == b

/-- The relation "differ by at most one" on natural numbers (it is not
transitive). -/
def nearEq (a b : Nat) : Bool := decide (a ≤ b + 1 ∧ b ≤ a + 1)

/-- `Partition<Nat, nearEq>` after `Append(5); Append(3)`: the class of 5 is
founded first, the class of 3 comes first in the table. -/
def nearPartition : Partition Nat := ((Partition.ctor nearEq).Append 5).Append 3

/-- The relation that always holds. -/
def allEq (_ _ : Nat) : Bool := true

/-- `Partition<Nat, allEq>` after `Append(1); Append(2); Append(3); Append(5)`: one
class, with the members `[1, 2, 3, 5]`. -/
def allPartition : Partition Nat :=
  ((((Partition.ctor allEq).Append 1).Append 2).Append 3).Append 5

/-- `Partition<Nat, allEq>` after `Append(1); Append(2); Append(4); Append(3)`: one
class, with the members `[1, 2, 4, 3]`. -/
def allPartitionB : Partition Nat :=
  ((((Partition.ctor allEq).Append 1).Append 2).Append 4).Append 3

/-- The relation "in the same pair `{2n-1, 2n}`" on natural numbers: an
equivalence relation that does not imply `sameParity`. -/
def pairEq (a b : Nat) : Bool := (a + 1) / 2 == (b + 1) / 2

/-- The relation "less or equal" on natural numbers: reflexive and transitive, not
symmetric. -/
def leqRel (a b : Nat) : Bool := decide (a ≤ b)

/-- `Partition<Nat, leqRel>` after `Append(5); Append(3); Append(5); Append(9)`:
the second 5 and the 9 join the class of 3, so 5 is a key and a member of another
class. -/
def leqPartition : Partition Nat :=
  ((((Partition.ctor leqRel).Append 5).Append 3).Append 5).Append 9

/-! ## The one-pass procedure of the specification

The specification describes `Split` as one pass over the classes of the main
table with a single temporary class table that is local to the pass and is merged
into the main table after the pass.  The definitions of this section follow that
description (section 4.3 of the specification), not the source. -/

/-- State of the specified pass: the main class table, the temporary class table
of the pass, the reverse map and the index counter. -/
structure SplitSpecState (T : Type) where
  main : Partition.Set T
  temp : Partition.Set T
  inv : List (T × T)
  maxidx : Nat

/-- Steps 1 to 3 of the specified pass for the class `e` of the main table.  A
class with one member is skipped.  Otherwise the member sequence is partitioned
with the new relation against the representative of the class; if no member is
pulled out the class is left untouched; else every pulled-out item is classified,
with the classification of `Append`, against the temporary table of the pass, and
the member sequence of the class is cut down to the retained members. -/
def SplitSpecClass (eq : T → T → Bool) (σ : SplitSpecState T)
    (e : T × (Nat × List T)) : SplitSpecState T :=
  if 1 < e.2.2.length then
    let bp := stdPartition (fun x => eq x e.1) e.2.2
    if bp.2 = [] then σ
    else
      let d := bp.2.foldl (DoAppend eq) { set := σ.temp, inv := σ.inv, maxidx := σ.maxidx }
      { main := ymap.update σ.main e.1 (fun c => (c.1, bp.1)),
        temp := d.set, inv := d.inv, maxidx := d.maxidx }
  else σ

/-- Step 4 of the specified pass, reverse map: every item of every temporary class
is recorded with the representative of that class. -/
def SplitSpecInv (inv : List (T × T)) (temp : Partition.Set T) : List (T × T) :=
  temp.foldl (fun m e => e.2.2.foldl (fun m x => ymap.assign m x e.1) m) inv

/-- Step 4 of the specified pass: the temporary table of the pass is merged into
the main table and the reverse map is updated for every item it holds. -/
def SplitSpecFinish (eq : T → T → Bool) (σ : SplitSpecState T) : Partition T :=
  { m_eq := eq,
    m_set := ymap.insertRange σ.main σ.temp,
    m_inv := SplitSpecInv σ.inv σ.temp,
    m_maxidx := σ.maxidx }

/-- The specified `Split(eq)`: the pass over all classes of the main table, with an
empty temporary table at the start, then the merge. -/
def SplitSpec (p : Partition T) (eq : T → T → Bool) : Partition T :=
  SplitSpecFinish eq (p.m_set.foldl (SplitSpecClass eq)
    { main := p.m_set, temp := [], inv := p.m_inv, maxidx := p.m_maxidx })

/-- The classes of the main table the specified pass has still to treat when the
iterator of the implementation is at `cur`. -/
def SplitTodo (m : Partition.Set T) : Option T → Partition.Set T
  | none => []
  | some k => m.filter (fun e => decide (k ≤ e.1))

/-- The simulation relation between the loop of `Split` with the iterator at `cur`
and the specified pass: the class table of the implementation holds the classes
of the main and of the temporary table, which share no key; reverse map and
counter agree. -/
structure SplitSim (eq : T → T → Bool) (q : Partition T) (cur : Option T)
    (σ : SplitSpecState T) : Prop where
  m_eq : q.m_eq = eq
  mem : ∀ x, x ∈ q.m_set ↔ x ∈ σ.main ∨ x ∈ σ.temp
  inv : q.m_inv = σ.inv
  maxidx : q.m_maxidx = σ.maxidx
  splitInv : SplitInv q cur
  wf_main : ymap.WF σ.main
  temp : ClassInv eq { set := σ.temp, inv := σ.inv, maxidx := σ.maxidx }
  disj : ∀ e ∈ σ.temp, ∀ c, (e.1, c) ∉ σ.main

end Pire

/-! ## Lemmas on `ymap` -/

namespace Pire
namespace ymap

variable {K V : Type} [LinearOrder K]

theorem WF_tail {e : K × V} {m : List (K × V)} (h : WF (e :: m)) : WF m :=
  (List.pairwise_cons.mp h).2

theorem WF_head_lt {e : K × V} {m : List (K × V)} (h : WF (e :: m)) :
    ∀ x ∈ m, e.1 < x.1 :=
  (List.pairwise_cons.mp h).1

theorem find_mem {m : List (K × V)} {k : K} {v : V} (h : find m k = some v) :
    (k, v) ∈ m := by
  induction m with
  | nil => simp [find] at h
  | cons e m ih =>
    obtain ⟨k', v'⟩ := e
    simp only [find] at h
    split_ifs at h with h1 h2
    · exact List.mem_cons_of_mem _ (ih h)
    · cases h; subst h2; exact List.mem_cons_self _ _

theorem find_of_mem {m : List (K × V)} (hw : WF m) {k : K} {v : V} (h : (k, v) ∈ m) :
    find m k = some v := by
  induction m with
  | nil => simp at h
  | cons e m ih =>
    obtain ⟨k', v'⟩ := e
    simp only [find]
    rcases List.mem_cons.mp h with h | h
    · cases h; simp
    · have hlt : k' < k := WF_head_lt hw _ h
      rw [if_pos hlt]
      exact ih (WF_tail hw) h

theorem find_eq_none_of_WF {m : List (K × V)} (hw : WF m) {k : K}
    (h : find m k = none) (v : V) : (k, v) ∉ m := by
  intro hm
  rw [find_of_mem hw hm] at h
  cases h

theorem find_assign (m : List (K × V)) (k : K) (v : V) (k' : K) :
    find (assign m k v) k' = if k' = k then some v else find m k' := by
  induction m with
  | nil =>
    simp only [assign, find]
    rcases lt_trichotomy k k' with h | h | h
    · simp [h, h.ne']
    · simp [h]
    · simp [h.not_lt, h.ne, h.ne']
  | cons e m ih =>
    obtain ⟨a, w⟩ := e
    simp only [assign]
    rcases lt_trichotomy a k with h1 | h1 | h1
    · rw [if_pos h1]
      simp only [find, ih]
      by_cases h3 : k' = k
      · subst h3; simp [h1]
      · simp only [if_neg h3]
    · subst h1
      simp only [lt_irrefl, if_false, if_true, find]
      by_cases h3 : k' = a
      · subst h3; simp
      · simp only [if_neg h3, if_neg (Ne.symm h3)]
    · rw [if_neg h1.not_lt, if_neg h1.ne']
      simp only [find]
      rcases lt_trichotomy k k' with h | h | h
      · simp only [if_pos h, if_neg h.ne']
      · subst h; simp
      · have h2 : ¬ a < k' := not_lt.mpr (le_of_lt (lt_trans h h1))
        have h4 : a ≠ k' := fun hh => by subst hh; exact absurd h (not_lt.mpr h1.le)
        simp [h.not_lt, h.ne, h.ne', h2, h4]

theorem find_insert (m : List (K × V)) (e : K × V) (k : K) :
    find (insert m e) k =
      if k = e.1 then (match find m k with | some w => some w | none => some e.2)
      else find m k := by
  obtain ⟨ke, ve⟩ := e
  induction m with
  | nil =>
    simp only [insert, find]
    rcases lt_trichotomy ke k with h | h | h
    · simp [h, h.ne']
    · simp [h]
    · simp [h.not_lt, h.ne, h.ne']
  | cons e m ih =>
    obtain ⟨a, w⟩ := e
    simp only [insert]
    rcases lt_trichotomy a ke with h1 | h1 | h1
    · rw [if_pos h1]
      simp only [find, ih]
      by_cases h3 : k = ke
      · subst h3; simp [h1]
      · simp only [if_neg h3]
    · subst h1
      simp only [lt_irrefl, if_false, if_true, find]
      by_cases h3 : k = a
      · subst h3; simp
      · simp only [if_neg h3, if_neg (Ne.symm h3)]
    · rw [if_neg h1.not_lt, if_neg h1.ne']
      simp only [find]
      rcases lt_trichotomy ke k with h | h | h
      · simp only [if_pos h, if_neg h.ne']
      · subst h; simp [h1.not_lt, h1.ne']
      · have h2 : ¬ a < k := not_lt.mpr (le_of_lt (lt_trans h h1))
        have h4 : a ≠ k := fun hh => by subst hh; exact absurd h (not_lt.mpr h1.le)
        simp [h.not_lt, h.ne, h.ne', h2, h4]

theorem mem_insert {m : List (K × V)} {e x : K × V} (h : x ∈ insert m e) :
    x ∈ m ∨ x = e := by
  induction m with
  | nil => simp [insert] at h; exact Or.inr h
  | cons a m ih =>
    obtain ⟨k', v'⟩ := a
    simp only [insert] at h
    split_ifs at h with h1 h2
    · rcases List.mem_cons.mp h with h | h
      · exact Or.inl (h ▸ List.mem_cons_self _ _)
      · rcases ih h with h | h
        · exact Or.inl (List.mem_cons_of_mem _ h)
        · exact Or.inr h
    · exact Or.inl h
    · rcases List.mem_cons.mp h with h | h
      · exact Or.inr h
      · exact Or.inl h

theorem mem_insert_of_mem {m : List (K × V)} {e x : K × V} (h : x ∈ m) :
    x ∈ insert m e := by
  induction m with
  | nil => simp at h
  | cons a m ih =>
    obtain ⟨k', v'⟩ := a
    simp only [insert]
    split_ifs with h1 h2
    · rcases List.mem_cons.mp h with h | h
      · exact h ▸ List.mem_cons_self _ _
      · exact List.mem_cons_of_mem _ (ih h)
    · exact h
    · exact List.mem_cons_of_mem _ h

theorem mem_insert_self {m : List (K × V)} {e : K × V} (h : ∀ v, (e.1, v) ∉ m) :
    e ∈ insert m e := by
  induction m with
  | nil => simp [insert]
  | cons a m ih =>
    obtain ⟨k', v'⟩ := a
    simp only [insert]
    split_ifs with h1 h2
    · exact List.mem_cons_of_mem _ (ih (fun v hv => h v (List.mem_cons_of_mem _ hv)))
    · exact absurd (h2 ▸ List.mem_cons_self _ _) (h v')
    · exact List.mem_cons_self _ _

theorem key_mem_insert (m : List (K × V)) (e : K × V) :
    ∃ v, (e.1, v) ∈ insert m e := by
  by_cases h : ∃ v, (e.1, v) ∈ m
  · obtain ⟨v, hv⟩ := h
    exact ⟨v, mem_insert_of_mem hv⟩
  · exact ⟨e.2, mem_insert_self (fun v hv => h ⟨v, hv⟩)⟩

theorem WF_insert {m : List (K × V)} (hw : WF m) (e : K × V) : WF (insert m e) := by
  induction m with
  | nil => simp [insert, WF]
  | cons a m ih =>
    obtain ⟨k', v'⟩ := a
    simp only [insert]
    split_ifs with h1 h2
    · refine List.pairwise_cons.mpr ⟨?_, ih (WF_tail hw)⟩
      intro x hx
      rcases mem_insert hx with hx | hx
      · exact WF_head_lt hw x hx
      · subst hx; exact h1
    · exact hw
    · have hlt : e.1 < k' := lt_of_le_of_ne (not_lt.mp h1) (Ne.symm h2)
      refine List.pairwise_cons.mpr ⟨?_, hw⟩
      intro x hx
      rcases List.mem_cons.mp hx with hx | hx
      · subst hx; exact hlt
      · exact lt_trans hlt (WF_head_lt hw x hx)

theorem length_insert_of_not_mem {m : List (K × V)} {e : K × V} (h : ∀ v, (e.1, v) ∉ m) :
    (insert m e).length = m.length + 1 := by
  induction m with
  | nil => simp [insert]
  | cons a m ih =>
    obtain ⟨k', v'⟩ := a
    simp only [insert]
    split_ifs with h1 h2
    · simp [ih (fun v hv => h v (List.mem_cons_of_mem _ hv))]
    · exact absurd (h2 ▸ List.mem_cons_self _ _) (h v')
    · simp

theorem length_le_insert (m : List (K × V)) (e : K × V) :
    m.length ≤ (insert m e).length := by
  induction m with
  | nil => simp [insert]
  | cons a m ih =>
    obtain ⟨k', v'⟩ := a
    simp only [insert]
    split_ifs with h1 h2 <;> simp [ih]

theorem mem_insertRange {d m : List (K × V)} {x : K × V} (h : x ∈ insertRange m d) :
    x ∈ m ∨ x ∈ d := by
  induction d generalizing m with
  | nil => exact Or.inl h
  | cons e d ih =>
    simp only [insertRange, List.foldl_cons] at h
    rcases ih h with h | h
    · rcases mem_insert h with h | h
      · exact Or.inl h
      · exact Or.inr (h ▸ List.mem_cons_self _ _)
    · exact Or.inr (List.mem_cons_of_mem _ h)

theorem mem_insertRange_of_mem {d m : List (K × V)} {x : K × V} (h : x ∈ m) :
    x ∈ insertRange m d := by
  induction d generalizing m with
  | nil => exact h
  | cons e d ih =>
    simp only [insertRange, List.foldl_cons]
    exact ih (mem_insert_of_mem h)

theorem key_mem_insertRange {d m : List (K × V)} {x : K × V} (h : x ∈ d) :
    ∃ v, (x.1, v) ∈ insertRange m d := by
  induction d generalizing m with
  | nil => simp at h
  | cons e d ih =>
    simp only [insertRange, List.foldl_cons]
    rcases List.mem_cons.mp h with h | h
    · subst h
      obtain ⟨v, hv⟩ := key_mem_insert m x
      exact ⟨v, mem_insertRange_of_mem hv⟩
    · exact ih h

theorem WF_insertRange {d m : List (K × V)} (hw : WF m) : WF (insertRange m d) := by
  induction d generalizing m with
  | nil => exact hw
  | cons e d ih =>
    simp only [insertRange, List.foldl_cons]
    exact ih (WF_insert hw e)

/-- Entries of `d` with keys unknown to `m` and to the rest of `d` all arrive. -/
theorem mem_insertRange_of_new {d m : List (K × V)} (hd : WF d)
    (hnew : ∀ x ∈ d, ∀ v, (x.1, v) ∉ m) {x : K × V} (h : x ∈ d) :
    x ∈ insertRange m d := by
  induction d generalizing m with
  | nil => simp at h
  | cons e d ih =>
    simp only [insertRange, List.foldl_cons]
    rcases List.mem_cons.mp h with h | h
    · subst h
      exact mem_insertRange_of_mem (mem_insert_self (hnew x (List.mem_cons_self _ _)))
    · refine ih (WF_tail hd) ?_ h
      intro y hy v hv
      rcases mem_insert hv with hv | hv
      · exact hnew y (List.mem_cons_of_mem _ hy) v hv
      · have : e.1 < y.1 := WF_head_lt hd y hy
        have h2 : y.1 = e.1 := by rw [← hv]
        exact absurd h2 this.ne'

end ymap
end Pire

namespace Pire
namespace ymap

variable {K V : Type} [LinearOrder K]

theorem update_of_find_none {m : List (K × V)} {k : K} (f : V → V)
    (h : find m k = none) : update m k f = m := by
  induction m with
  | nil => rfl
  | cons e m ih =>
    obtain ⟨a, w⟩ := e
    simp only [find] at h
    simp only [update]
    by_cases h1 : a < k
    · rw [if_pos h1] at h
      rw [if_pos h1, ih h]
    · rw [if_neg h1] at h
      by_cases h2 : a = k
      · rw [if_pos h2] at h; cases h
      · rw [if_neg h1, if_neg h2]

theorem mem_update {m : List (K × V)} {k : K} {c : V} (f : V → V)
    (h : find m k = some c) {y : K × V} (hy : y ∈ update m k f) :
    y ∈ m ∨ y = (k, f c) := by
  induction m with
  | nil => simp [find] at h
  | cons e m ih =>
    obtain ⟨a, w⟩ := e
    simp only [find] at h
    simp only [update] at hy
    by_cases h1 : a < k
    · rw [if_pos h1] at h hy
      rcases List.mem_cons.mp hy with hy | hy
      · exact Or.inl (hy ▸ List.mem_cons_self _ _)
      · rcases ih h hy with hy | hy
        · exact Or.inl (List.mem_cons_of_mem _ hy)
        · exact Or.inr hy
    · rw [if_neg h1] at h hy
      by_cases h2 : a = k
      · rw [if_pos h2] at h hy
        cases h
        subst h2
        rcases List.mem_cons.mp hy with hy | hy
        · exact Or.inr hy
        · exact Or.inl (List.mem_cons_of_mem _ hy)
      · rw [if_neg h2] at h; cases h

theorem mem_update_of_mem {m : List (K × V)} {k : K} {c : V} (f : V → V)
    (h : find m k = some c) {x : K × V} (hx : x ∈ m) :
    x ∈ update m k f ∨ x = (k, c) := by
  induction m with
  | nil => simp at hx
  | cons e m ih =>
    obtain ⟨a, w⟩ := e
    simp only [find] at h
    simp only [update]
    by_cases h1 : a < k
    · rw [if_pos h1] at h
      rw [if_pos h1]
      rcases List.mem_cons.mp hx with hx | hx
      · exact Or.inl (hx ▸ List.mem_cons_self _ _)
      · rcases ih h hx with hx | hx
        · exact Or.inl (List.mem_cons_of_mem _ hx)
        · exact Or.inr hx
    · rw [if_neg h1] at h
      rw [if_neg h1]
      by_cases h2 : a = k
      · rw [if_pos h2] at h
        rw [if_pos h2]
        cases h
        subst h2
        rcases List.mem_cons.mp hx with hx | hx
        · exact Or.inr hx
        · exact Or.inl (List.mem_cons_of_mem _ hx)
      · rw [if_neg h2] at h; cases h

theorem mem_update_self {m : List (K × V)} {k : K} {c : V} (f : V → V)
    (h : find m k = some c) : (k, f c) ∈ update m k f := by
  induction m with
  | nil => simp [find] at h
  | cons e m ih =>
    obtain ⟨a, w⟩ := e
    simp only [find] at h
    simp only [update]
    by_cases h1 : a < k
    · rw [if_pos h1] at h
      rw [if_pos h1]
      exact List.mem_cons_of_mem _ (ih h)
    · rw [if_neg h1] at h
      rw [if_neg h1]
      by_cases h2 : a = k
      · rw [if_pos h2] at h
        rw [if_pos h2]
        cases h
        subst h2
        exact List.mem_cons_self _ _
      · rw [if_neg h2] at h; cases h

theorem keys_update (m : List (K × V)) (k : K) (f : V → V) :
    (update m k f).map Prod.fst = m.map Prod.fst := by
  induction m with
  | nil => rfl
  | cons e m ih =>
    obtain ⟨a, w⟩ := e
    simp only [update]
    by_cases h1 : a < k
    · rw [if_pos h1]; simp [ih]
    · rw [if_neg h1]
      by_cases h2 : a = k
      · rw [if_pos h2]; simp
      · rw [if_neg h2]

theorem WF_iff_keys (m : List (K × V)) : WF m ↔ (m.map Prod.fst).Pairwise (· < ·) := by
  unfold WF
  rw [List.pairwise_map]

theorem WF_of_keys_eq {m m' : List (K × V)} (h : m'.map Prod.fst = m.map Prod.fst)
    (hw : WF m) : WF m' := by
  rw [WF_iff_keys] at hw ⊢
  rw [h]; exact hw

theorem WF_update {m : List (K × V)} (hw : WF m) (k : K) (f : V → V) :
    WF (update m k f) :=
  WF_of_keys_eq (keys_update m k f) hw

theorem length_update (m : List (K × V)) (k : K) (f : V → V) :
    (update m k f).length = m.length := by
  have := congrArg List.length (keys_update m k f)
  simpa using this

theorem WF_key_unique {m : List (K × V)} (hw : WF m) {k : K} {v w : V}
    (h1 : (k, v) ∈ m) (h2 : (k, w) ∈ m) : v = w := by
  have a := find_of_mem hw h1
  have b := find_of_mem hw h2
  rw [a] at b
  exact Option.some.inj b

theorem nextKey_some {m : List (K × V)} {k k' : K} (h : nextKey m k = some k') :
    k < k' ∧ ∃ c, (k', c) ∈ m := by
  unfold nextKey at h
  rcases hf : m.find? (fun e => decide (k < e.1)) with _ | e
  · rw [hf] at h; cases h
  · rw [hf] at h
    simp only [Option.map_some'] at h
    cases h
    have h1 := List.find?_some hf
    have h2 := List.mem_of_find?_eq_some hf
    exact ⟨by simpa using h1, e.2, h2⟩

theorem nextKey_some_between {m : List (K × V)} (hw : WF m) {k k' : K}
    (h : nextKey m k = some k') {x : K × V} (hx : x ∈ m) (hlt : x.1 < k') : x.1 ≤ k := by
  unfold nextKey at h
  rcases hf : m.find? (fun e => decide (k < e.1)) with _ | e
  · rw [hf] at h; cases h
  · rw [hf] at h
    simp only [Option.map_some'] at h
    cases h
    obtain ⟨_, as, bs, hm, has⟩ := List.find?_eq_some.mp hf
    subst hm
    rcases List.mem_append.mp hx with hx | hx
    · have := has x hx
      simpa using this
    · rcases List.mem_cons.mp hx with hx | hx
      · subst hx; exact absurd hlt (lt_irrefl _)
      · have hw2 : WF (e :: bs) := (List.pairwise_append.mp hw).2.1
        exact absurd (WF_head_lt hw2 x hx) (not_lt.mpr hlt.le)

theorem nextKey_none {m : List (K × V)} {k : K} (h : nextKey m k = none)
    {x : K × V} (hx : x ∈ m) : x.1 ≤ k := by
  unfold nextKey at h
  rcases hf : m.find? (fun e => decide (k < e.1)) with _ | e
  · have := List.find?_eq_none.mp hf x hx
    simpa using this
  · rw [hf] at h; cases h

theorem beginKey_none {m : List (K × V)} (h : beginKey m = none) : m = [] := by
  cases m with
  | nil => rfl
  | cons e m => simp [beginKey] at h

theorem beginKey_some {m : List (K × V)} (hw : WF m) {k : K} (h : beginKey m = some k)
    {x : K × V} (hx : x ∈ m) : k ≤ x.1 := by
  cases m with
  | nil => simp at hx
  | cons e m =>
    simp only [beginKey, List.head?_cons, Option.map_some', Option.some.injEq] at h
    subst h
    rcases List.mem_cons.mp hx with hx | hx
    · subst hx; exact le_refl _
    · exact (WF_head_lt hw x hx).le

theorem beginKey_mem {m : List (K × V)} {k : K} (h : beginKey m = some k) :
    ∃ c, (k, c) ∈ m := by
  cases m with
  | nil => simp [beginKey] at h
  | cons e m =>
    simp only [beginKey, List.head?_cons, Option.map_some', Option.some.injEq] at h
    subst h
    exact ⟨e.2, List.mem_cons_self _ _⟩

end ymap

/-! ## Lemmas on `stdPartition` -/

theorem stdPartitionAux_spec {T : Type} (pred : T → Bool) :
    ∀ (n : Nat) (v : List T), v.length ≤ n →
      ((stdPartitionAux pred n v).1 ++ (stdPartitionAux pred n v).2).Perm v ∧
      (∀ x ∈ (stdPartitionAux pred n v).1, pred x = true) ∧
      (∀ x ∈ (stdPartitionAux pred n v).2, pred x = false) := by
  intro n
  induction n with
  | zero =>
    intro v hv
    have : v = [] := List.length_eq_zero.mp (Nat.le_zero.mp hv)
    subst this
    simp [stdPartitionAux]
  | succ n ih =>
    intro v hv
    cases v with
    | nil => simp [stdPartitionAux]
    | cons a rest =>
      have hrest : rest.length ≤ n := by simpa using hv
      by_cases ha : pred a = true
      · obtain ⟨h1, h2, h3⟩ := ih rest hrest
        simp only [stdPartitionAux, ha, if_true]
        refine ⟨?_, ?_, h3⟩
        · simpa using h1
        · intro x hx
          rcases List.mem_cons.mp hx with hx | hx
          · subst hx; exact ha
          · exact h2 x hx
      · have ha' : pred a = false := by simpa using ha
        simp only [stdPartitionAux, ha, if_false]
        have hsplit := List.takeWhile_append_dropWhile (fun x => !pred x) rest.reverse
        rcases hd : rest.reverse.dropWhile (fun x => !pred x) with _ | ⟨b, midRev⟩
        · simp only
          refine ⟨List.Perm.refl _, by simp, ?_⟩
          have hall := List.dropWhile_eq_nil_iff.mp hd
          intro x hx
          rcases List.mem_cons.mp hx with hx | hx
          · subst hx; exact ha'
          · have := hall x (List.mem_reverse.mpr hx)
            simpa using this
        · simp only
          rw [hd] at hsplit
          have hb : pred b = true := by
            have := List.head?_dropWhile_not (fun x => !pred x) rest.reverse
            rw [hd] at this
            simpa using this
          have hrev : rest = midRev.reverse ++ b ::
              (rest.reverse.takeWhile (fun x => !pred x)).reverse := by
            have := congrArg List.reverse hsplit
            simpa using this.symm
          have hlen : midRev.reverse.length ≤ n := by
            have := congrArg List.length hrev
            simp at this
            simp
            omega
          obtain ⟨h1, h2, h3⟩ := ih midRev.reverse hlen
          refine ⟨?_, ?_, ?_⟩
          · set tw := (rest.reverse.takeWhile (fun x => !pred x)).reverse with htw
            set r := stdPartitionAux pred n midRev.reverse with hr
            rw [hrev]
            have e1 : (b :: r.1 ++ (r.2 ++ a :: tw)).Perm (b :: (a :: ((r.1 ++ r.2) ++ tw))) := by
              refine List.Perm.cons b ?_
              show (r.1 ++ (r.2 ++ a :: tw)).Perm (a :: ((r.1 ++ r.2) ++ tw))
              rw [← List.append_assoc]
              exact List.perm_middle
            have e2 : (b :: (a :: ((r.1 ++ r.2) ++ tw))).Perm
                (a :: (b :: (midRev.reverse ++ tw))) :=
              (List.Perm.swap a b _).trans
                (List.Perm.cons a (List.Perm.cons b (List.Perm.append_right tw h1)))
            have e3 : (a :: (midRev.reverse ++ b :: tw)).Perm
                (a :: (b :: (midRev.reverse ++ tw))) :=
              List.Perm.cons a List.perm_middle
            exact (e1.trans e2).trans e3.symm
          · intro x hx
            rcases List.mem_cons.mp hx with hx | hx
            · subst hx; exact hb
            · exact h2 x hx
          · intro x hx
            rcases List.mem_append.mp hx with hx | hx
            · exact h3 x hx
            · rcases List.mem_cons.mp hx with hx | hx
              · subst hx; exact ha'
              · have := List.mem_takeWhile_imp (List.mem_reverse.mp hx)
                simpa using this

theorem stdPartition_perm {T : Type} (pred : T → Bool) (v : List T) :
    ((stdPartition pred v).1 ++ (stdPartition pred v).2).Perm v :=
  (stdPartitionAux_spec pred v.length v (le_refl _)).1

theorem stdPartition_fst {T : Type} (pred : T → Bool) (v : List T) :
    ∀ x ∈ (stdPartition pred v).1, pred x = true :=
  (stdPartitionAux_spec pred v.length v (le_refl _)).2.1

theorem stdPartition_snd {T : Type} (pred : T → Bool) (v : List T) :
    ∀ x ∈ (stdPartition pred v).2, pred x = false :=
  (stdPartitionAux_spec pred v.length v (le_refl _)).2.2

theorem stdPartition_mem {T : Type} (pred : T → Bool) (v : List T) (x : T) :
    x ∈ v ↔ x ∈ (stdPartition pred v).1 ∨ x ∈ (stdPartition pred v).2 := by
  rw [← List.mem_append]
  exact ((stdPartition_perm pred v).mem_iff).symm

theorem stdPartition_mem_fst {T : Type} (pred : T → Bool) (v : List T) (x : T) :
    x ∈ (stdPartition pred v).1 ↔ x ∈ v ∧ pred x = true := by
  constructor
  · intro h
    exact ⟨(stdPartition_mem pred v x).mpr (Or.inl h), stdPartition_fst pred v x h⟩
  · rintro ⟨h1, h2⟩
    rcases (stdPartition_mem pred v x).mp h1 with h | h
    · exact h
    · rw [stdPartition_snd pred v x h] at h2; cases h2

theorem stdPartition_mem_snd {T : Type} (pred : T → Bool) (v : List T) (x : T) :
    x ∈ (stdPartition pred v).2 ↔ x ∈ v ∧ pred x = false := by
  constructor
  · intro h
    exact ⟨(stdPartition_mem pred v x).mpr (Or.inr h), stdPartition_snd pred v x h⟩
  · rintro ⟨h1, h2⟩
    rcases (stdPartition_mem pred v x).mp h1 with h | h
    · rw [stdPartition_fst pred v x h] at h2; cases h2
    · exact h

/-- An element at the front that satisfies the predicate stays at the front. -/
theorem stdPartition_head {T : Type} (pred : T → Bool) (a : T) (rest : List T)
    (h : pred a = true) : ∃ tl, (stdPartition pred (a :: rest)).1 = a :: tl := by
  simp [stdPartition, stdPartitionAux, h]

end Pire

namespace Pire

variable {T : Type} [LinearOrder T]

/-! ## `DoAppend` -/

theorem DoAppendScan_none {eq : T → T → Bool} {t : T} {s : Partition.Set T} :
    DoAppendScan eq t s = none ↔ ∀ e ∈ s, eq e.1 t = false := by
  induction s with
  | nil => simp [DoAppendScan]
  | cons e s ih =>
    obtain ⟨k, i, v⟩ := e
    simp only [DoAppendScan]
    by_cases hk : eq k t = true
    · simp [hk]
    · rw [if_neg hk]
      have hk' : eq k t = false := by simpa using hk
      rcases hs : DoAppendScan eq t s with _ | ⟨r, s'⟩
      · simp only [List.mem_cons, forall_eq_or_imp, hk', true_and]
        simpa using ih.mp hs
      · simp only [List.mem_cons, forall_eq_or_imp, hk', true_and]
        constructor
        · intro h; cases h
        · intro h
          rw [ih.mpr h] at hs
          cases hs

theorem DoAppendScan_some {eq : T → T → Bool} {t : T} {s : Partition.Set T} {r : T}
    {s' : Partition.Set T} (h : DoAppendScan eq t s = some (r, s')) :
    ∃ pre i v post, s = pre ++ (r, (i, v)) :: post ∧
      s' = pre ++ (r, (i, v ++ [t])) :: post ∧
      (∀ e ∈ pre, eq e.1 t = false) ∧ eq r t = true := by
  induction s generalizing s' with
  | nil => simp [DoAppendScan] at h
  | cons e s ih =>
    obtain ⟨k, i, v⟩ := e
    simp only [DoAppendScan] at h
    by_cases hk : eq k t = true
    · rw [if_pos hk] at h
      cases h
      exact ⟨[], i, v, s, rfl, rfl, by simp, hk⟩
    · rw [if_neg hk] at h
      have hk' : eq k t = false := by simpa using hk
      rcases hs : DoAppendScan eq t s with _ | ⟨r2, s2⟩
      · rw [hs] at h; cases h
      · rw [hs] at h
        cases h
        obtain ⟨pre, i2, v2, post, h1, h2, h3, h4⟩ := ih hs
        refine ⟨(k, (i, v)) :: pre, i2, v2, post, by simp [h1], by simp [h2], ?_, h4⟩
        intro e he
        rcases List.mem_cons.mp he with he | he
        · subst he; exact hk'
        · exact h3 e he

/-- The two ways `DoAppend` can go: the scan stops at the first matching key, or it
reaches the end and a class is founded. -/
theorem DoAppend_cases (eq : T → T → Bool) (s : AppendState T) (t : T) :
    (∃ pre r i v post, s.set = pre ++ (r, (i, v)) :: post ∧
        (∀ e ∈ pre, eq e.1 t = false) ∧ eq r t = true ∧
        DoAppend eq s t =
          { set := pre ++ (r, (i, v ++ [t])) :: post, inv := ymap.assign s.inv t r,
            maxidx := s.maxidx }) ∨
    ((∀ e ∈ s.set, eq e.1 t = false) ∧
        DoAppend eq s t =
          { set := ymap.insert s.set (t, (s.maxidx, [t])), inv := ymap.assign s.inv t t,
            maxidx := s.maxidx + 1 }) := by
  rcases hs : DoAppendScan eq t s.set with _ | ⟨r, s'⟩
  · right
    refine ⟨DoAppendScan_none.mp hs, ?_⟩
    simp [DoAppend, hs]
  · left
    obtain ⟨pre, i, v, post, h1, h2, h3, h4⟩ := DoAppendScan_some hs
    refine ⟨pre, r, i, v, post, h1, h3, h4, ?_⟩
    simp [DoAppend, hs, h2]

theorem DoAppend_raw (eq : T → T → Bool) (s : AppendState T) (t : T) :
    DoAppendRaw s (DoAppend eq s t) t := by
  rcases DoAppend_cases eq s t with ⟨pre, r, i, v, post, h1, h2, h3, h4⟩ | ⟨h1, h2⟩
  · rw [h4]
    refine ⟨?_, le_refl _, ⟨r, ⟨(i, v ++ [t]), by simp⟩, fun x => ymap.find_assign _ _ _ _⟩,
      ?_, ?_, ?_⟩
    · intro hw
      refine ymap.WF_of_keys_eq ?_ hw
      simp [h1]
    · intro r' i' v' hm
      rw [h1] at hm
      rcases List.mem_append.mp hm with hm | hm
      · exact ⟨v', List.mem_append_left _ hm, Or.inl rfl⟩
      · rcases List.mem_cons.mp hm with hm | hm
        · cases hm
          exact ⟨v ++ [t], by simp, Or.inr rfl⟩
        · exact ⟨v', List.mem_append_right _ (List.mem_cons_of_mem _ hm), Or.inl rfl⟩
    · intro r' i' v' hm
      left
      simp only at hm
      rcases List.mem_append.mp hm with hm | hm
      · exact ⟨v', by rw [h1]; exact List.mem_append_left _ hm, Or.inl rfl⟩
      · rcases List.mem_cons.mp hm with hm | hm
        · cases hm
          exact ⟨v, by rw [h1]; simp, Or.inr rfl⟩
        · exact ⟨v', by rw [h1]; exact List.mem_append_right _ (List.mem_cons_of_mem _ hm),
            Or.inl rfl⟩
    · simp [h1]
  · rw [h2]
    refine ⟨fun hw => ymap.WF_insert hw _, Nat.le_succ _,
      ⟨t, ymap.key_mem_insert s.set (t, (s.maxidx, [t])), fun x => ymap.find_assign _ _ _ _⟩,
      ?_, ?_, ymap.length_le_insert _ _⟩
    · intro r i v hm
      exact ⟨v, ymap.mem_insert_of_mem hm, Or.inl rfl⟩
    · intro r i v' hm
      rcases ymap.mem_insert hm with hm | hm
      · exact Or.inl ⟨v', hm, Or.inl rfl⟩
      · cases hm
        exact Or.inr ⟨rfl, rfl, rfl⟩

theorem foldl_DoAppend_raw (eq : T → T → Bool) (l : List T) :
    ∀ s : AppendState T, FoldRaw s (l.foldl (DoAppend eq) s) l := by
  induction l with
  | nil =>
    intro s
    refine ⟨id, le_refl _, by simp, fun _ _ => rfl, fun x r h => Or.inl h, ?_, ?_⟩
    · intro r i v hm
      exact ⟨v, hm, fun x hx => Or.inl hx⟩
    · intro r i v hm
      exact Or.inl ⟨v, hm, fun x hx => Or.inl hx⟩
  | cons t l ih =>
    intro s
    simp only [List.foldl_cons]
    have A := DoAppend_raw eq s t
    have B := ih (DoAppend eq s t)
    obtain ⟨r0, ⟨c0, hr0⟩, hinv⟩ := A.inv
    refine ⟨fun hw => B.wf (A.wf hw), le_trans A.maxidx B.maxidx, ?_, ?_, ?_, ?_, ?_⟩
    · intro x
      rw [B.dom x, hinv x]
      by_cases hx : x = t
      · simp [hx]
      · simp [hx]
    · intro x hx
      have h1 : x ≠ t := fun h => hx (h ▸ List.mem_cons_self _ _)
      have h2 : x ∉ l := fun h => hx (List.mem_cons_of_mem _ h)
      rw [B.inv_out x h2, hinv x, if_neg h1]
    · intro x r hx
      rcases B.inv_key x r hx with h | h
      · rw [hinv x] at h
        by_cases hxt : x = t
        · rw [if_pos hxt] at h
          cases h
          obtain ⟨i, v⟩ := c0
          obtain ⟨v', hv', _⟩ := B.keep _ _ _ hr0
          exact Or.inr ⟨_, hv'⟩
        · rw [if_neg hxt] at h
          exact Or.inl h
      · exact Or.inr h
    · intro r i v hm
      obtain ⟨v1, hv1, hor⟩ := A.keep r i v hm
      obtain ⟨v2, hv2, hsub⟩ := B.keep r i v1 hv1
      refine ⟨v2, hv2, ?_⟩
      intro x hx
      rcases hsub x hx with h | h
      · rcases hor with h' | h'
        · subst h'; exact Or.inl h
        · subst h'
          rcases List.mem_append.mp h with h | h
          · exact Or.inl h
          · exact Or.inr (by simp at h; simp [h])
      · exact Or.inr (List.mem_cons_of_mem _ h)
    · intro r i v' hm
      rcases B.back r i v' hm with ⟨v1, hv1, hsub⟩ | ⟨h1, h2, h3⟩
      · rcases A.back r i v1 hv1 with ⟨v, hv, hor⟩ | ⟨h1, h2, h3⟩
        · left
          refine ⟨v, hv, ?_⟩
          intro x hx
          rcases hsub x hx with h | h
          · rcases hor with h' | h'
            · subst h'; exact Or.inl h
            · subst h'
              rcases List.mem_append.mp h with h | h
              · exact Or.inl h
              · exact Or.inr (by simp at h; simp [h])
          · exact Or.inr (List.mem_cons_of_mem _ h)
        · right
          subst h1 h2 h3
          refine ⟨List.mem_cons_self _ _, le_refl _, ?_⟩
          intro x hx
          rcases hsub x hx with h | h
          · simp at h; simp [h]
          · exact List.mem_cons_of_mem _ h
      · right
        exact ⟨List.mem_cons_of_mem _ h1, le_trans A.maxidx h2,
          fun x hx => List.mem_cons_of_mem _ (h3 x hx)⟩

end Pire

namespace Pire

variable {T : Type} [LinearOrder T]

/-! ## One iteration of `Split`, whatever the relation is -/

theorem mem_items {s : Partition.Set T} {x : T} :
    x ∈ Partition.items s ↔ ∃ r i v, (r, (i, v)) ∈ s ∧ (x = r ∨ x ∈ v) := by
  unfold Partition.items
  simp only [List.mem_flatMap, List.mem_cons]
  constructor
  · rintro ⟨⟨r, i, v⟩, he, hx⟩
    exact ⟨r, i, v, he, hx⟩
  · rintro ⟨r, i, v, he, hx⟩
    exact ⟨(r, (i, v)), he, hx⟩

/-- Either the iteration changes nothing, or it partitions the members `v` of the
class at `k` and merges the classes built from the pulled-out tail. -/
theorem SplitStep_cases (p : Partition T) (k : T) :
    SplitStep p k = p ∨
    ∃ i v0 v1 rest, ymap.find p.m_set k = some (i, v0 :: v1 :: rest) ∧
      SplitStep p k =
        { m_eq := p.m_eq,
          m_set := ymap.insertRange
            (ymap.update p.m_set k
              (fun c => (c.1, (stdPartition (fun x => p.m_eq x v0) (v0 :: v1 :: rest)).1)))
            ((stdPartition (fun x => p.m_eq x v0) (v0 :: v1 :: rest)).2.foldl (DoAppend p.m_eq)
              { set := [], inv := p.m_inv, maxidx := p.m_maxidx }).set,
          m_inv := ((stdPartition (fun x => p.m_eq x v0) (v0 :: v1 :: rest)).2.foldl
              (DoAppend p.m_eq) { set := [], inv := p.m_inv, maxidx := p.m_maxidx }).inv,
          m_maxidx := ((stdPartition (fun x => p.m_eq x v0) (v0 :: v1 :: rest)).2.foldl
              (DoAppend p.m_eq) { set := [], inv := p.m_inv, maxidx := p.m_maxidx }).maxidx } := by
  rcases hf : ymap.find p.m_set k with _ | ⟨i, v⟩
  · left; simp [SplitStep, hf]
  · rcases v with _ | ⟨v0, _ | ⟨v1, rest⟩⟩
    · left; simp [SplitStep, hf]
    · left; simp [SplitStep, hf]
    · right
      refine ⟨i, v0, v1, rest, rfl, ?_⟩
      simp only [SplitStep, hf]
      by_cases hb : (stdPartition (fun x => p.m_eq x v0) (v0 :: v1 :: rest)).2 = []
      · rw [if_pos hb, hb]
        simp [ymap.insertRange]
      · rw [if_neg hb]

theorem SplitStep_m_eq (p : Partition T) (k : T) : (SplitStep p k).m_eq = p.m_eq := by
  rcases SplitStep_cases p k with h | ⟨i, v0, v1, rest, hf, h⟩ <;> rw [h]

theorem Frame.refl (p : Partition T) : Frame p p :=
  ⟨fun r i v h => ⟨v, h, fun _ hx => hx⟩, fun r i v h => Or.inl ⟨v, h, fun _ hx => hx⟩,
    le_refl _⟩

theorem Frame.trans {p0 p1 p2 : Partition T} (a : Frame p0 p1) (b : Frame p1 p2) :
    Frame p0 p2 := by
  refine ⟨?_, ?_, le_trans a.maxidx b.maxidx⟩
  · intro r i v h
    obtain ⟨v1, h1, s1⟩ := a.keep r i v h
    obtain ⟨v2, h2, s2⟩ := b.keep r i v1 h1
    exact ⟨v2, h2, fun x hx => s1 x (s2 x hx)⟩
  · intro r' i' v' h
    rcases b.back r' i' v' h with ⟨v1, h1, s1⟩ | ⟨hi, r, i, v1, h1, hr, s1⟩
    · rcases a.back r' i' v1 h1 with ⟨v, h0, s0⟩ | ⟨hi, r, i, v, h0, hr, s0⟩
      · exact Or.inl ⟨v, h0, fun x hx => s0 x (s1 x hx)⟩
      · exact Or.inr ⟨hi, r, i, v, h0, hr, fun x hx => s0 x (s1 x hx)⟩
    · right
      refine ⟨le_trans a.maxidx hi, ?_⟩
      rcases a.back r i v1 h1 with ⟨v, h0, s0⟩ | ⟨_, r0, i0, v, h0, _, s0⟩
      · exact ⟨r, i, v, h0, s0 _ hr, fun x hx => s0 x (s1 x hx)⟩
      · exact ⟨r0, i0, v, h0, s0 _ hr, fun x hx => s0 x (s1 x hx)⟩

theorem Frame_SplitStep (p : Partition T) (k : T) : Frame p (SplitStep p k) := by
  rcases SplitStep_cases p k with h | ⟨i, v0, v1, rest, hf, h⟩
  · rw [h]; exact Frame.refl p
  · rw [h]
    have F := foldl_DoAppend_raw p.m_eq
      (stdPartition (fun x => p.m_eq x v0) (v0 :: v1 :: rest)).2
      { set := [], inv := p.m_inv, maxidx := p.m_maxidx }
    have hk : (k, (i, v0 :: v1 :: rest)) ∈ p.m_set := ymap.find_mem hf
    have hkept : ∀ x ∈ (stdPartition (fun x => p.m_eq x v0) (v0 :: v1 :: rest)).1,
        x ∈ v0 :: v1 :: rest := fun x hx => (stdPartition_mem _ _ x).mpr (Or.inl hx)
    have hpull : ∀ x ∈ (stdPartition (fun x => p.m_eq x v0) (v0 :: v1 :: rest)).2,
        x ∈ v0 :: v1 :: rest := fun x hx => (stdPartition_mem _ _ x).mpr (Or.inr hx)
    refine ⟨?_, ?_, F.maxidx⟩
    · intro r i0 w hm
      rcases ymap.mem_update_of_mem
          (fun c => (c.1, (stdPartition (fun x => p.m_eq x v0) (v0 :: v1 :: rest)).1))
          hf hm with h1 | h1
      · exact ⟨w, ymap.mem_insertRange_of_mem h1, fun _ hx => hx⟩
      · cases h1
        exact ⟨_, ymap.mem_insertRange_of_mem (ymap.mem_update_self _ hf), hkept⟩
    · intro r' i' v' hm
      rcases ymap.mem_insertRange hm with h1 | h1
      · rcases ymap.mem_update _ hf h1 with h2 | h2
        · exact Or.inl ⟨v', h2, fun _ hx => hx⟩
        · cases h2
          exact Or.inl ⟨_, hk, hkept⟩
      · rcases F.back r' i' v' h1 with ⟨v, hv, _⟩ | ⟨hr, hi, hs⟩
        · simp at hv
        · exact Or.inr ⟨hi, k, i, _, hk, hpull _ hr, fun x hx => hpull x (hs x hx)⟩

theorem items_of_Frame {p0 p : Partition T} (f : Frame p0 p) :
    ∀ x ∈ Partition.items p.m_set, x ∈ Partition.items p0.m_set := by
  intro x hx
  obtain ⟨r', i', v', he, hor⟩ := mem_items.mp hx
  rcases f.back r' i' v' he with ⟨v, h0, s0⟩ | ⟨_, r, i, v, h0, hr, s0⟩
  · refine mem_items.mpr ⟨r', i', v, h0, ?_⟩
    rcases hor with h | h
    · exact Or.inl h
    · exact Or.inr (s0 x h)
  · refine mem_items.mpr ⟨r, i, v, h0, Or.inr ?_⟩
    rcases hor with h | h
    · rw [h]; exact hr
    · exact s0 x h

/-! ## The loop of `Split` -/

/-- A property of the partition that every iteration keeps holds after the loop. -/
theorem SplitLoop_keeps (P : Partition T → Prop)
    (hstep : ∀ p k, P p → P (SplitStep p k)) :
    ∀ (n : Nat) (p : Partition T) (cur : Option T), P p → P (SplitLoop n p cur) := by
  intro n
  induction n with
  | zero => intro p cur h; exact h
  | succ n ih =>
    intro p cur h
    cases cur with
    | none => exact h
    | some k => exact ih _ _ (hstep p k h)

theorem SplitMeasure_step (p : Partition T) (k : T) (n : Nat)
    (h : SplitMeasure p (some k) ≤ n + 1) :
    SplitMeasure (SplitStep p k) (ymap.nextKey (SplitStep p k).m_set k) ≤ n := by
  rcases hn : ymap.nextKey (SplitStep p k).m_set k with _ | k'
  · exact Nat.zero_le _
  · obtain ⟨hlt, c, hc⟩ := ymap.nextKey_some hn
    have hsub := items_of_Frame (Frame_SplitStep p k)
    have hk' : k' ∈ Partition.items p.m_set :=
      hsub k' (mem_items.mpr ⟨k', c.1, c.2, hc, Or.inl rfl⟩)
    simp only [SplitMeasure] at h ⊢
    have hss : ((Partition.items (SplitStep p k).m_set).toFinset.filter (fun x => k' < x)) ⊂
        ((Partition.items p.m_set).toFinset.filter (fun x => k < x)) := by
      rw [Finset.ssubset_iff_of_subset]
      · refine ⟨k', ?_, ?_⟩
        · simp [hk', hlt]
        · simp
      · intro x hx
        simp only [Finset.mem_filter, List.mem_toFinset] at hx ⊢
        exact ⟨hsub x hx.1, lt_trans hlt hx.2⟩
    have := Finset.card_lt_card hss
    omega

/-- With enough fuel the loop runs until the iterator reaches the end: a property
of the partition and the iterator that every iteration keeps holds, with the
iterator at the end, after the loop. -/
theorem SplitLoop_rule (P : Partition T → Option T → Prop)
    (hstep : ∀ p k, P p (some k) →
      P (SplitStep p k) (ymap.nextKey (SplitStep p k).m_set k)) :
    ∀ (n : Nat) (p : Partition T) (cur : Option T),
      SplitMeasure p cur ≤ n → P p cur → P (SplitLoop n p cur) none := by
  intro n
  induction n with
  | zero =>
    intro p cur hm h
    cases cur with
    | none => exact h
    | some k => simp [SplitMeasure] at hm
  | succ n ih =>
    intro p cur hm h
    cases cur with
    | none => exact h
    | some k =>
      exact ih _ _ (SplitMeasure_step p k n hm) (hstep p k h)

/-- The fuel `Split` gives its loop is enough. -/
theorem SplitMeasure_begin (p : Partition T) :
    SplitMeasure p (ymap.beginKey p.m_set) ≤ (Partition.items p.m_set).length := by
  rcases hb : ymap.beginKey p.m_set with _ | k
  · exact Nat.zero_le _
  · obtain ⟨c, hc⟩ := ymap.beginKey_mem hb
    have hk : k ∈ Partition.items p.m_set := mem_items.mpr ⟨k, c.1, c.2, hc, Or.inl rfl⟩
    simp only [SplitMeasure]
    have hss : ((Partition.items p.m_set).toFinset.filter (fun x => k < x)) ⊂
        (Partition.items p.m_set).toFinset := by
      rw [Finset.ssubset_iff_of_subset (Finset.filter_subset _ _)]
      exact ⟨k, by simp [hk], by simp⟩
    have h1 := Finset.card_lt_card hss
    have h2 := List.toFinset_card_le (Partition.items p.m_set)
    omega

/-- The loop of `Split` does not depend on the fuel once the fuel is enough: more
fuel gives the same result. -/
theorem SplitLoop_fuel (p : Partition T) (cur : Option T) :
    ∀ (n : Nat), SplitMeasure p cur ≤ n → SplitLoop (n + 1) p cur = SplitLoop n p cur := by
  intro n
  induction n generalizing p cur with
  | zero =>
    intro hm
    cases cur with
    | none => rfl
    | some k => simp [SplitMeasure] at hm
  | succ n ih =>
    intro hm
    cases cur with
    | none => rfl
    | some k =>
      show SplitLoop (n + 1) (SplitStep p k) _ = SplitLoop n (SplitStep p k) _
      exact ih _ _ (SplitMeasure_step p k n hm)

theorem SplitLoop_fuel_ge (p : Partition T) (cur : Option T) (n m : Nat)
    (h : SplitMeasure p cur ≤ n) (hnm : n ≤ m) : SplitLoop m p cur = SplitLoop n p cur := by
  induction m, hnm using Nat.le_induction with
  | base => rfl
  | succ m hm ih => rw [SplitLoop_fuel p cur m (le_trans h hm), ih]

/-- `Split` is the loop run to its end: any larger fuel gives the same partition. -/
theorem Split_fuel_enough (p : Partition T) (eq : T → T → Bool) (m : Nat)
    (hm : (Partition.items p.m_set).length ≤ m) :
    SplitLoop m { p with m_eq := eq } (ymap.beginKey p.m_set) = p.Split eq :=
  SplitLoop_fuel_ge { p with m_eq := eq } (ymap.beginKey p.m_set) _ m
    (SplitMeasure_begin { p with m_eq := eq }) hm

theorem Frame_Split (p : Partition T) (eq : T → T → Bool) : Frame p (p.Split eq) := by
  unfold Partition.Split
  have h0 : Frame p { p with m_eq := eq } :=
    ⟨fun r i v h => ⟨v, h, fun _ hx => hx⟩, fun r i v h => Or.inl ⟨v, h, fun _ hx => hx⟩,
      le_refl _⟩
  exact SplitLoop_keeps (fun q => Frame p q)
    (fun q k hq => Frame.trans hq (Frame_SplitStep q k)) _ _ _ h0

theorem SplitLoop_m_eq (n : Nat) (p : Partition T) (cur : Option T) :
    (SplitLoop n p cur).m_eq = p.m_eq :=
  SplitLoop_keeps (fun q => q.m_eq = p.m_eq)
    (fun q k hq => (SplitStep_m_eq q k).trans hq) n p cur rfl

theorem Split_m_eq (p : Partition T) (eq : T → T → Bool) : (p.Split eq).m_eq = eq := by
  unfold Partition.Split
  rw [SplitLoop_m_eq]

end Pire

namespace Pire

variable {T : Type} [LinearOrder T]

/-! ## Reachable states, whatever the relations are -/

theorem RawInv_ctor (eq : T → T → Bool) : RawInv [] (Partition.ctor eq) := by
  refine ⟨?_, ?_, ?_, ?_⟩
  · simp [Partition.ctor, ymap.WF]
  · intro t r h; simp [Partition.ctor, ymap.find] at h
  · intro t; simp [Partition.ctor, ymap.find]
  · intro x hx; simp [Partition.ctor, Partition.items] at hx

theorem RawInv_Append {h : List T} {p : Partition T} (t : T) (I : RawInv h p) :
    RawInv (h ++ [t]) (p.Append t) := by
  have A := DoAppend_raw p.m_eq { set := p.m_set, inv := p.m_inv, maxidx := p.m_maxidx } t
  obtain ⟨r0, ⟨c0, hr0⟩, hinv⟩ := A.inv
  refine ⟨A.wf I.wf, ?_, ?_, ?_⟩
  · intro x r hx
    have hx' : ymap.find (DoAppend p.m_eq
        { set := p.m_set, inv := p.m_inv, maxidx := p.m_maxidx } t).inv x = some r := hx
    rw [hinv x] at hx'
    by_cases hxt : x = t
    · rw [if_pos hxt] at hx'
      cases hx'
      exact ⟨c0, hr0⟩
    · rw [if_neg hxt] at hx'
      obtain ⟨⟨i, v⟩, hc⟩ := I.rep_key x r hx'
      obtain ⟨v', hv', _⟩ := A.keep r i v hc
      exact ⟨_, hv'⟩
  · intro x
    show (ymap.find (DoAppend p.m_eq
        { set := p.m_set, inv := p.m_inv, maxidx := p.m_maxidx } t).inv x).isSome ↔ _
    rw [hinv x]
    by_cases hxt : x = t
    · simp [hxt]
    · simp [hxt, I.dom x]
  · intro x hx
    obtain ⟨r, i, v', he, hor⟩ := mem_items.mp hx
    rcases A.back r i v' he with ⟨v, hv, hvv⟩ | ⟨h1, h2, h3⟩
    · rcases hor with hxr | hxv
      · exact List.mem_append_left _
          (I.items_dom x (mem_items.mpr ⟨r, i, v, hv, Or.inl hxr⟩))
      · rcases hvv with e | e
        · subst e
          exact List.mem_append_left _
            (I.items_dom x (mem_items.mpr ⟨r, i, v', hv, Or.inr hxv⟩))
        · subst e
          rcases List.mem_append.mp hxv with hxv | hxv
          · exact List.mem_append_left _
              (I.items_dom x (mem_items.mpr ⟨r, i, v, hv, Or.inr hxv⟩))
          · exact List.mem_append_right _ hxv
    · subst h1 h2 h3
      rcases hor with hxr | hxv
      · simp [hxr]
      · simp at hxv; simp [hxv]

theorem RawInv_SplitStep {h : List T} {p : Partition T} (k : T) (I : RawInv h p) :
    RawInv h (SplitStep p k) := by
  have Fr := Frame_SplitStep p k
  have hitems : ∀ x ∈ Partition.items (SplitStep p k).m_set, x ∈ h :=
    fun x hx => I.items_dom x (items_of_Frame Fr x hx)
  rcases SplitStep_cases p k with hs | ⟨i, v0, v1, rest, hf, hs⟩
  · rw [hs]; exact I
  · have F := foldl_DoAppend_raw p.m_eq
      (stdPartition (fun x => p.m_eq x v0) (v0 :: v1 :: rest)).2
      { set := [], inv := p.m_inv, maxidx := p.m_maxidx }
    have hk : (k, (i, v0 :: v1 :: rest)) ∈ p.m_set := ymap.find_mem hf
    have hpull : ∀ x ∈ (stdPartition (fun x => p.m_eq x v0) (v0 :: v1 :: rest)).2,
        x ∈ h := fun x hx => I.items_dom x (mem_items.mpr
          ⟨k, i, _, hk, Or.inr ((stdPartition_mem _ _ x).mpr (Or.inr hx))⟩)
    refine ⟨?_, ?_, ?_, hitems⟩
    · rw [hs]
      exact ymap.WF_insertRange (ymap.WF_update I.wf _ _)
    · intro x r hx
      rw [hs] at hx
      rcases F.inv_key x r hx with h1 | ⟨c, hc⟩
      · obtain ⟨⟨i1, w⟩, hc⟩ := I.rep_key x r h1
        obtain ⟨w', hw', _⟩ := Fr.keep r i1 w hc
        exact ⟨_, hw'⟩
      · rw [hs]
        exact ymap.key_mem_insertRange hc
    · intro x
      rw [hs]
      show (ymap.find ((stdPartition (fun x => p.m_eq x v0) (v0 :: v1 :: rest)).2.foldl
        (DoAppend p.m_eq) { set := [], inv := p.m_inv, maxidx := p.m_maxidx }).inv x).isSome ↔ _
      rw [F.dom x]
      constructor
      · rintro (h1 | h1)
        · exact (I.dom x).mp h1
        · exact hpull x h1
      · intro h1
        exact Or.inl ((I.dom x).mpr h1)

theorem RawInv_Split {h : List T} {p : Partition T} (eq : T → T → Bool) (I : RawInv h p) :
    RawInv h (p.Split eq) := by
  unfold Partition.Split
  have h0 : RawInv h { p with m_eq := eq } := ⟨I.wf, I.rep_key, I.dom, I.items_dom⟩
  exact SplitLoop_keeps (fun q => RawInv h q) (fun q k hq => RawInv_SplitStep k hq) _ _ _ h0

theorem Reachable.rawInv {h : List T} {p : Partition T} (R : Reachable h p) : RawInv h p := by
  induction R with
  | ctor eq => exact RawInv_ctor eq
  | Append t _ ih => exact RawInv_Append t ih
  | Split eq _ ih => exact RawInv_Split eq ih

end Pire

namespace Pire

variable {T : Type} [LinearOrder T]

/-! ## Queries and `Append`: C5, C6, C8, C9, C10 -/

theorem parityPartition_reachable : Reachable [1, 2, 3, 4] parityPartition :=
  Reachable.Append 4 (Reachable.Append 3 (Reachable.Append 2 (Reachable.Append 1
    (Reachable.ctor sameParity))))

theorem parityPartition_m_set :
    parityPartition.m_set = [(1, 0, [1, 3]), (2, 1, [2, 4])] := by decide

theorem neverPartition_reachable : Reachable [1] neverPartition :=
  Reachable.Append 1 (Reachable.ctor neverEq)

theorem Index_eq_of_mem {p : Partition T} (hw : ymap.WF p.m_set) {t r : T} {i : Nat}
    {v : List T} (h1 : ymap.find p.m_inv t = some r) (h2 : (r, (i, v)) ∈ p.m_set) :
    p.Index t = .ok i ∧ p.Klass t = .ok v := by
  have := ymap.find_of_mem hw h2
  simp [Partition.Index, Partition.Klass, h1, this]

/-- C5: in every reachable state, `Index(t)` and `Klass(t)` throw the lookup error
exactly when `t` was never appended, `Contains(t)` is false exactly then, and
`Representative(t)` of a never-appended `t` is the default value of the item type
(the function has no way of signalling an error). -/
theorem C5_lookup_error_iff_never_appended [Inhabited T] {h : List T} {p : Partition T}
    (R : Reachable h p) (t : T) :
    (p.Index t = .error Failure.Error ↔ t ∉ h) ∧
    (p.Klass t = .error Failure.Error ↔ t ∉ h) ∧
    (p.Contains t = false ↔ t ∉ h) ∧
    (t ∉ h → p.Representative t = DefaultValue) := by
  have I := R.rawInv
  have hd := I.dom t
  rcases hf : ymap.find p.m_inv t with _ | r
  · rw [hf] at hd
    have hn : t ∉ h := fun hh => by simpa using hd.mpr hh
    simp [Partition.Index, Partition.Klass, Partition.Contains, Partition.Representative,
      hf, hn]
  · rw [hf] at hd
    have hy : t ∈ h := hd.mp rfl
    refine ⟨?_, ?_, ?_, fun hn => absurd hy hn⟩
    · rcases hs : ymap.find p.m_set r with _ | c <;>
        simp [Partition.Index, hf, hs, hy]
    · rcases hs : ymap.find p.m_set r with _ | c <;>
        simp [Partition.Klass, hf, hs, hy]
    · simp [Partition.Contains, hf, hy]

theorem C5_witness :
    (parityPartition.Index 99 = .error Failure.Error ↔ 99 ∉ [1, 2, 3, 4]) ∧
    (parityPartition.Klass 99 = .error Failure.Error ↔ 99 ∉ [1, 2, 3, 4]) ∧
    (parityPartition.Contains 99 = false ↔ 99 ∉ [1, 2, 3, 4]) ∧
    (99 ∉ [1, 2, 3, 4] → parityPartition.Representative 99 = DefaultValue) :=
  C5_lookup_error_iff_never_appended parityPartition_reachable 99

/-- C6: for every state and every relation given to `Split`, the members of each
class after the call are all members of one class before the call; hence two
items listed in one class after the call were listed in one class before it. -/
theorem C6_split_never_merges (p : Partition T) (eq : T → T → Bool) :
    (∀ r' i' v', (r', (i', v')) ∈ (p.Split eq).m_set →
      ∃ r i v, (r, (i, v)) ∈ p.m_set ∧ ∀ x ∈ v', x ∈ v) ∧
    (∀ a b, (∃ r' i' v', (r', (i', v')) ∈ (p.Split eq).m_set ∧ a ∈ v' ∧ b ∈ v') →
      ∃ r i v, (r, (i, v)) ∈ p.m_set ∧ a ∈ v ∧ b ∈ v) := by
  have F := Frame_Split p eq
  have h1 : ∀ r' i' v', (r', (i', v')) ∈ (p.Split eq).m_set →
      ∃ r i v, (r, (i, v)) ∈ p.m_set ∧ ∀ x ∈ v', x ∈ v := by
    intro r' i' v' hm
    rcases F.back r' i' v' hm with ⟨v, h0, s0⟩ | ⟨_, r, i, v, h0, _, s0⟩
    · exact ⟨r', i', v, h0, s0⟩
    · exact ⟨r, i, v, h0, s0⟩
  refine ⟨h1, ?_⟩
  rintro a b ⟨r', i', v', hm, ha, hb⟩
  obtain ⟨r, i, v, h0, s0⟩ := h1 r' i' v' hm
  exact ⟨r, i, v, h0, s0 a ha, s0 b hb⟩

/-- C8: in every reachable state, if `m_eq(r, t)` holds for the representative `r`
and for no other representative, `Append(t)` leaves the number and the keys of the
classes as they are, appends `t` at the end of the members of the class of `r`,
and afterwards `Contains(t)`, `Representative(t) = r`, and `Index(t)` and
`Klass(t)` are the index and the members of the class of `r`. -/
theorem C8_append_to_matching_class [Inhabited T] {h : List T} {p : Partition T}
    (R : Reachable h p) (t r : T) (i : Nat) (v : List T)
    (hr : (r, (i, v)) ∈ p.m_set) (hm : p.m_eq r t = true)
    (huniq : ∀ r' c, (r', c) ∈ p.m_set → p.m_eq r' t = true → r' = r) :
    (p.Append t).Size = p.Size ∧
    (p.Append t).m_set.map Prod.fst = p.m_set.map Prod.fst ∧
    (r, (i, v ++ [t])) ∈ (p.Append t).m_set ∧
    (p.Append t).Contains t = true ∧
    (p.Append t).Representative t = r ∧
    (p.Append t).Index t = .ok i ∧
    (p.Append t).Klass t = .ok (v ++ [t]) := by
  have I := R.rawInv
  have I' := (Reachable.Append t R).rawInv
  rcases DoAppend_cases p.m_eq { set := p.m_set, inv := p.m_inv, maxidx := p.m_maxidx } t
    with ⟨pre, r1, i1, v1, post, h1, h2, h3, h4⟩ | ⟨h1, _⟩
  · have hset : p.m_set = pre ++ (r1, (i1, v1)) :: post := h1
    have e1 : r1 = r := huniq r1 (i1, v1) (by rw [hset]; simp) h3
    subst e1
    have e2 : (i1, v1) = (i, v) :=
      ymap.WF_key_unique I.wf (by rw [hset]; simp) hr
    cases e2
    have hS : (p.Append t).m_set = pre ++ (r1, (i, v ++ [t])) :: post := by
      show (DoAppend p.m_eq _ t).set = _
      rw [h4]
    have hI : (p.Append t).m_inv = ymap.assign p.m_inv t r1 := by
      show (DoAppend p.m_eq _ t).inv = _
      rw [h4]
    have hmem : (r1, (i, v ++ [t])) ∈ (p.Append t).m_set := by rw [hS]; simp
    have hfind : ymap.find (p.Append t).m_inv t = some r1 := by
      rw [hI, ymap.find_assign]; simp
    obtain ⟨hx, hy⟩ := Index_eq_of_mem I'.wf hfind hmem
    refine ⟨?_, ?_, hmem, ?_, ?_, hx, hy⟩
    · simp [Partition.Size, hS, hset]
    · simp [hS, hset]
    · simp [Partition.Contains, hfind]
    · simp [Partition.Representative, hfind]
  · have := h1 (r, (i, v)) hr
    rw [hm] at this
    cases this

theorem C8_witness :
    (parityPartition.Append 5).Size = parityPartition.Size ∧
    (parityPartition.Append 5).m_set.map Prod.fst = parityPartition.m_set.map Prod.fst ∧
    (1, (0, [1, 3] ++ [5])) ∈ (parityPartition.Append 5).m_set ∧
    (parityPartition.Append 5).Contains 5 = true ∧
    (parityPartition.Append 5).Representative 5 = 1 ∧
    (parityPartition.Append 5).Index 5 = .ok 0 ∧
    (parityPartition.Append 5).Klass 5 = .ok ([1, 3] ++ [5]) :=
  C8_append_to_matching_class parityPartition_reachable 5 1 0 [1, 3] (by decide) (by decide)
    (by
      intro r' c hc hm
      rw [parityPartition_m_set] at hc
      simp only [List.mem_cons, Prod.mk.injEq, List.mem_nil_iff, or_false] at hc
      rcases hc with ⟨rfl, _⟩ | ⟨rfl, _⟩
      · rfl
      · exact absurd hm (by decide))

/-- C9 as stated fails: with a relation that is not reflexive the item `1` matches
no representative of `neverPartition`, yet it is the key of a class already, so
`Append(1)` founds nothing: `Size` stays 1 and `Index(1)` stays 0 although the
index counter stood at 1. -/
theorem C9_counterexample :
    (neverPartition.m_set.all (fun e => !neverPartition.m_eq e.1 1)) = true ∧
    neverPartition.Size = 1 ∧ neverPartition.m_maxidx = 1 ∧
    (neverPartition.Append 1).Size = 1 ∧
    (neverPartition.Append 1).Index 1 = .ok 0 :=
  ⟨by decide, by decide, by decide, by decide, rfl⟩

/-- C9 (amended): for every state and every item `t` that is not the key of a class
and that no representative matches, `Append(t)` founds a singleton class: `Size`
grows by one, `Representative(t) = t`, `Klass(t) = [t]`, `Index(t)` is the value
the index counter had before the call, and the counter moves on by one. -/
theorem C9_append_founds_class [Inhabited T] (p : Partition T) (t : T)
    (hno : ∀ r c, (r, c) ∈ p.m_set → p.m_eq r t = false)
    (hkey : ∀ c, (t, c) ∉ p.m_set) :
    (p.Append t).Size = p.Size + 1 ∧
    (p.Append t).Contains t = true ∧
    (p.Append t).Representative t = t ∧
    (p.Append t).Klass t = .ok [t] ∧
    (p.Append t).Index t = .ok p.m_maxidx ∧
    (p.Append t).m_maxidx = p.m_maxidx + 1 := by
  rcases DoAppend_cases p.m_eq { set := p.m_set, inv := p.m_inv, maxidx := p.m_maxidx } t
    with ⟨pre, r1, i1, v1, post, h1, h2, h3, h4⟩ | ⟨_, h4⟩
  · have hset : p.m_set = pre ++ (r1, (i1, v1)) :: post := h1
    have := hno r1 (i1, v1) (by rw [hset]; simp)
    rw [h3] at this
    cases this
  · have hS : (p.Append t).m_set = ymap.insert p.m_set (t, (p.m_maxidx, [t])) := by
      show (DoAppend p.m_eq _ t).set = _
      rw [h4]
    have hI : (p.Append t).m_inv = ymap.assign p.m_inv t t := by
      show (DoAppend p.m_eq _ t).inv = _
      rw [h4]
    have hM : (p.Append t).m_maxidx = p.m_maxidx + 1 := by
      show (DoAppend p.m_eq _ t).maxidx = _
      rw [h4]
    have hfind : ymap.find (p.Append t).m_inv t = some t := by
      rw [hI, ymap.find_assign]; simp
    have hnone : ymap.find p.m_set t = none := by
      rcases hq : ymap.find p.m_set t with _ | c
      · rfl
      · exact absurd (ymap.find_mem hq) (hkey c)
    have hfs : ymap.find (p.Append t).m_set t = some (p.m_maxidx, [t]) := by
      rw [hS, ymap.find_insert]; simp [hnone]
    refine ⟨?_, ?_, ?_, ?_, ?_, hM⟩
    · simp only [Partition.Size, hS]
      exact ymap.length_insert_of_not_mem (fun c hc => hkey c hc)
    · simp [Partition.Contains, hfind]
    · simp [Partition.Representative, hfind]
    · simp [Partition.Klass, hfind, hfs]
    · simp [Partition.Index, hfind, hfs]

theorem C9_witness :
    (((Partition.ctor sameParity).Append 1).Append 2).Size =
      ((Partition.ctor sameParity).Append 1).Size + 1 ∧
    (((Partition.ctor sameParity).Append 1).Append 2).Contains 2 = true ∧
    (((Partition.ctor sameParity).Append 1).Append 2).Representative 2 = 2 ∧
    (((Partition.ctor sameParity).Append 1).Append 2).Klass 2 = .ok [2] ∧
    (((Partition.ctor sameParity).Append 1).Append 2).Index 2 =
      .ok ((Partition.ctor sameParity).Append 1).m_maxidx ∧
    (((Partition.ctor sameParity).Append 1).Append 2).m_maxidx =
      ((Partition.ctor sameParity).Append 1).m_maxidx + 1 :=
  C9_append_founds_class ((Partition.ctor sameParity).Append 1) 2
    (by
      intro r c hc
      have hs : ((Partition.ctor sameParity).Append 1).m_set = [(1, 0, [1])] := by decide
      rw [hs] at hc
      simp only [List.mem_cons, Prod.mk.injEq, List.mem_nil_iff, or_false] at hc
      rcases hc with ⟨rfl, _⟩
      rfl)
    (by
      intro c hc
      have hs : ((Partition.ctor sameParity).Append 1).m_set = [(1, 0, [1])] := by decide
      rw [hs] at hc
      simp at hc)

/-- C10: in every reachable state and for every item `b` other than `t`,
`Append(t)` leaves `Contains(b)`, `Representative(b)` and `Index(b)` as they are
and leaves `Klass(b)` as it is or with `t` added at its end; `Size` does not go
down, and every class is still there under its key and index, its members
unchanged or extended by `t`. -/
theorem C10_append_keeps_other_items [Inhabited T] {h : List T} {p : Partition T}
    (R : Reachable h p) (t b : T) (hne : b ≠ t) :
    (p.Append t).Contains b = p.Contains b ∧
    (p.Append t).Representative b = p.Representative b ∧
    (p.Append t).Index b = p.Index b ∧
    ((p.Append t).Klass b = p.Klass b ∨
      ∃ v, p.Klass b = .ok v ∧ (p.Append t).Klass b = .ok (v ++ [t])) ∧
    p.Size ≤ (p.Append t).Size ∧
    (∀ r i v, (r, (i, v)) ∈ p.m_set →
      ∃ v', (r, (i, v')) ∈ (p.Append t).m_set ∧ (v' = v ∨ v' = v ++ [t])) := by
  have I := R.rawInv
  have I' := (Reachable.Append t R).rawInv
  have A := DoAppend_raw p.m_eq { set := p.m_set, inv := p.m_inv, maxidx := p.m_maxidx } t
  obtain ⟨r0, _, hinv⟩ := A.inv
  have hfind : ymap.find (p.Append t).m_inv b = ymap.find p.m_inv b := by
    show ymap.find (DoAppend p.m_eq _ t).inv b = _
    rw [hinv b, if_neg hne]
  have hkeep : ∀ r i v, (r, (i, v)) ∈ p.m_set →
      ∃ v', (r, (i, v')) ∈ (p.Append t).m_set ∧ (v' = v ∨ v' = v ++ [t]) := A.keep
  refine ⟨?_, ?_, ?_, ?_, A.size, hkeep⟩
  · simp [Partition.Contains, hfind]
  · simp [Partition.Representative, hfind]
  · rcases hq : ymap.find p.m_inv b with _ | r
    · simp [Partition.Index, hfind, hq]
    · obtain ⟨⟨i, v⟩, hc⟩ := I.rep_key b r hq
      obtain ⟨v', hv', _⟩ := hkeep r i v hc
      rw [(Index_eq_of_mem I.wf hq hc).1, (Index_eq_of_mem I'.wf (hfind.trans hq) hv').1]
  · rcases hq : ymap.find p.m_inv b with _ | r
    · left; simp [Partition.Klass, hfind, hq]
    · obtain ⟨⟨i, v⟩, hc⟩ := I.rep_key b r hq
      obtain ⟨v', hv', hor⟩ := hkeep r i v hc
      rw [(Index_eq_of_mem I.wf hq hc).2, (Index_eq_of_mem I'.wf (hfind.trans hq) hv').2]
      rcases hor with e | e
      · left; rw [e]
      · right; exact ⟨v, rfl, by rw [e]⟩

theorem C10_witness :
    (parityPartition.Append 5).Contains 3 = parityPartition.Contains 3 ∧
    (parityPartition.Append 5).Representative 3 = parityPartition.Representative 3 ∧
    (parityPartition.Append 5).Index 3 = parityPartition.Index 3 ∧
    ((parityPartition.Append 5).Klass 3 = parityPartition.Klass 3 ∨
      ∃ v, parityPartition.Klass 3 = .ok v ∧
        (parityPartition.Append 5).Klass 3 = .ok (v ++ [5])) ∧
    parityPartition.Size ≤ (parityPartition.Append 5).Size ∧
    (∀ r i v, (r, (i, v)) ∈ parityPartition.m_set →
      ∃ v', (r, (i, v')) ∈ (parityPartition.Append 5).m_set ∧ (v' = v ∨ v' = v ++ [5])) :=
  C10_append_keeps_other_items parityPartition_reachable 5 3 (by decide)

end Pire

namespace Pire

variable {T : Type} [LinearOrder T]

/-! ## `DoAppend` under an equivalence relation -/

theorem IsEquivRel.false_of {eq : T → T → Bool} (he : IsEquivRel eq) {a b c : T}
    (h1 : eq a b = true) (h2 : eq a c = false) : eq b c = false := by
  rcases hbc : eq b c with _ | _
  · rfl
  · rw [he.trans a b c h1 hbc] at h2
    cases h2

theorem IsEquivRel.symm_false {eq : T → T → Bool} (he : IsEquivRel eq) {a b : T}
    (h : eq a b = false) : eq b a = false := by
  rcases hba : eq b a with _ | _
  · rfl
  · rw [he.symm b a hba] at h
    cases h

theorem InClass_grow_DoAppend (eq : T → T → Bool) (s : AppendState T) (t : T) {r x : T}
    (h : InClass s.set r x) : InClass (DoAppend eq s t).set r x := by
  obtain ⟨i, v, hm, hx⟩ := h
  obtain ⟨v', hv', hor⟩ := (DoAppend_raw eq s t).keep r i v hm
  refine ⟨i, v', hv', ?_⟩
  rcases hor with e | e
  · rw [e]; exact hx
  · rw [e]; exact List.mem_append_left _ hx

/-- `DoAppend` keeps the invariant of a class table and lists the appended item
in a class. -/
theorem DoAppend_equiv {eq : T → T → Bool} (he : IsEquivRel eq) {s : AppendState T}
    (C : ClassInv eq s) (t : T) :
    ClassInv eq (DoAppend eq s t) ∧
    ∃ r, ymap.find (DoAppend eq s t).inv t = some r ∧ InClass (DoAppend eq s t).set r t := by
  have A := DoAppend_raw eq s t
  rcases DoAppend_cases eq s t with ⟨pre, r1, i1, v1, post, h1, h2, h3, h4⟩ | ⟨h1, h4⟩
  · -- the scan stopped at `r1`
    have hmem' : ∀ e, e ∈ (DoAppend eq s t).set ↔
        e ∈ pre ∨ e = (r1, (i1, v1 ++ [t])) ∨ e ∈ post := by
      intro e; rw [h4]; simp
    have hmem : ∀ e, e ∈ s.set ↔ e ∈ pre ∨ e = (r1, (i1, v1)) ∨ e ∈ post := by
      intro e; rw [h1]; simp
    have hr1 : (r1, (i1, v1)) ∈ s.set := (hmem _).mpr (Or.inr (Or.inl rfl))
    -- every entry after the call comes from an entry before with the same key/index
    have hback : ∀ r i v', (r, (i, v')) ∈ (DoAppend eq s t).set →
        (r, (i, v')) ∈ s.set ∨ (r = r1 ∧ i = i1 ∧ v' = v1 ++ [t]) := by
      intro r i v' hm
      rcases (hmem' _).mp hm with h | h | h
      · exact Or.inl ((hmem _).mpr (Or.inl h))
      · cases h; exact Or.inr ⟨rfl, rfl, rfl⟩
      · exact Or.inl ((hmem _).mpr (Or.inr (Or.inr h)))
    have hkey : ∀ r c, (r, c) ∈ (DoAppend eq s t).set → ∃ c0, (r, c0) ∈ s.set := by
      rintro r ⟨i, v'⟩ hm
      rcases hback r i v' hm with h | ⟨e1, e2, e3⟩
      · exact ⟨_, h⟩
      · subst e1; exact ⟨_, hr1⟩
    have hidx : ∀ r i v', (r, (i, v')) ∈ (DoAppend eq s t).set → ∃ v, (r, (i, v)) ∈ s.set := by
      intro r i v' hm
      rcases hback r i v' hm with h | ⟨e1, e2, e3⟩
      · exact ⟨_, h⟩
      · subst e1 e2; exact ⟨_, hr1⟩
    have hrel : ∀ r i v, (r, (i, v)) ∈ (DoAppend eq s t).set → ∀ x ∈ v, eq r x = true := by
      intro r i v' hm x hx
      rcases hback r i v' hm with h | ⟨e1, e2, e3⟩
      · exact C.rel r i v' h x hx
      · subst e1 e2 e3
        rcases List.mem_append.mp hx with hx | hx
        · exact C.rel _ _ _ hr1 x hx
        · simp at hx; subst hx; exact h3
    have hsep : ∀ r1' c1 r2 c2, (r1', c1) ∈ (DoAppend eq s t).set →
        (r2, c2) ∈ (DoAppend eq s t).set → r1' ≠ r2 → eq r1' r2 = false := by
      intro a c1 b c2 ha hb hne
      obtain ⟨ca, hca⟩ := hkey a c1 ha
      obtain ⟨cb, hcb⟩ := hkey b c2 hb
      exact C.sepR a ca b cb hca hcb hne
    have hinvt : ymap.find (DoAppend eq s t).inv t = some r1 := by
      rw [h4]; simp [ymap.find_assign]
    have hint : InClass (DoAppend eq s t).set r1 t :=
      ⟨i1, v1 ++ [t], (hmem' _).mpr (Or.inr (Or.inl rfl)), by simp⟩
    refine ⟨⟨A.wf C.wf, ?_, hrel, hsep, ?_, ?_, ?_⟩, r1, hinvt, hint⟩
    · intro r i v' hm
      rcases hback r i v' hm with h | ⟨e1, e2, e3⟩
      · exact C.head r i v' h
      · subst e1 e2 e3
        obtain ⟨tl, htl⟩ := C.head r i v1 hr1
        exact ⟨tl ++ [t], by rw [htl]; rfl⟩
    · rintro r x ⟨i, v', hm, hx⟩
      by_cases hxt : x = t
      · subst hxt
        rw [hinvt]
        by_contra hne
        have hne' : r1 ≠ r := fun e => hne (by rw [e])
        have h5 := hsep r1 _ r _ ((hmem' _).mpr (Or.inr (Or.inl rfl))) hm hne'
        have h6 := hrel r i v' hm x hx
        have h7 := he.trans r1 x r h3 (he.symm r x h6)
        rw [h7] at h5
        cases h5
      · have hold : InClass s.set r x := by
          rcases hback r i v' hm with h | ⟨e1, e2, e3⟩
          · exact ⟨i, v', h, hx⟩
          · subst e1 e2 e3
            rcases List.mem_append.mp hx with hx | hx
            · exact ⟨i, v1, hr1, hx⟩
            · simp at hx; exact absurd hx hxt
        have := C.inv_of_mem r x hold
        rw [h4]
        simp only
        rw [ymap.find_assign, if_neg hxt]
        exact this
    · intro r i v' hm
      obtain ⟨v, hv⟩ := hidx r i v' hm
      have := C.idx_lt r i v hv
      rw [h4]; exact this
    · intro a i va b vb ha hb
      obtain ⟨va', hva⟩ := hidx a i va ha
      obtain ⟨vb', hvb⟩ := hidx b i vb hb
      exact C.idx_inj a i va' b vb' hva hvb
  · -- the scan reached the end: a class is founded
    have hnokey : ∀ c, (t, c) ∉ s.set := by
      intro c hc
      have := h1 (t, c) hc
      rw [he.refl t] at this
      cases this
    have hnew : (t, (s.maxidx, [t])) ∈ (DoAppend eq s t).set := by
      rw [h4]
      exact ymap.mem_insert_self (fun v hv => hnokey v hv)
    have hback : ∀ r i v', (r, (i, v')) ∈ (DoAppend eq s t).set →
        (r, (i, v')) ∈ s.set ∨ (r = t ∧ i = s.maxidx ∧ v' = [t]) := by
      intro r i v' hm
      rw [h4] at hm
      rcases ymap.mem_insert hm with h | h
      · exact Or.inl h
      · cases h; exact Or.inr ⟨rfl, rfl, rfl⟩
    have hrel : ∀ r i v, (r, (i, v)) ∈ (DoAppend eq s t).set → ∀ x ∈ v, eq r x = true := by
      intro r i v' hm x hx
      rcases hback r i v' hm with h | ⟨e1, e2, e3⟩
      · exact C.rel r i v' h x hx
      · subst e1 e2 e3
        simp at hx; subst hx; exact he.refl _
    have hsep : ∀ r1' c1 r2 c2, (r1', c1) ∈ (DoAppend eq s t).set →
        (r2, c2) ∈ (DoAppend eq s t).set → r1' ≠ r2 → eq r1' r2 = false := by
      rintro a ⟨ia, va⟩ b ⟨ib, vb⟩ ha hb hne
      rcases hback a ia va ha with ha0 | ⟨e1, e2, e3⟩
      · rcases hback b ib vb hb with hb0 | ⟨f1, f2, f3⟩
        · exact C.sepR a _ b _ ha0 hb0 hne
        · rw [f1]; exact h1 _ ha0
      · rcases hback b ib vb hb with hb0 | ⟨f1, f2, f3⟩
        · rw [e1]; exact he.symm_false (h1 _ hb0)
        · rw [e1, f1] at hne; exact absurd rfl hne
    have hinvt : ymap.find (DoAppend eq s t).inv t = some t := by
      rw [h4]; simp [ymap.find_assign]
    have hint : InClass (DoAppend eq s t).set t t := ⟨s.maxidx, [t], hnew, by simp⟩
    have hmax : (DoAppend eq s t).maxidx = s.maxidx + 1 := by rw [h4]
    refine ⟨⟨A.wf C.wf, ?_, hrel, hsep, ?_, ?_, ?_⟩, t, hinvt, hint⟩
    · intro r i v' hm
      rcases hback r i v' hm with h | ⟨e1, e2, e3⟩
      · exact C.head r i v' h
      · subst e1 e2 e3; exact ⟨[], rfl⟩
    · rintro r x ⟨i, v', hm, hx⟩
      rcases hback r i v' hm with h | ⟨e1, e2, e3⟩
      · have hxt : x ≠ t := by
          intro e
          subst e
          have h5 := C.rel r i v' h x hx
          have h6 := h1 _ h
          simp only at h6
          rw [h5] at h6
          cases h6
        have := C.inv_of_mem r x ⟨i, v', h, hx⟩
        rw [h4]
        simp only
        rw [ymap.find_assign, if_neg hxt]
        exact this
      · subst e1 e2 e3
        simp at hx; subst hx
        exact hinvt
    · intro r i v' hm
      rw [hmax]
      rcases hback r i v' hm with h | ⟨e1, e2, e3⟩
      · exact Nat.lt_succ_of_lt (C.idx_lt r i v' h)
      · subst e2; exact Nat.lt_succ_self _
    · intro a i va b vb ha hb
      rcases hback a i va ha with ha0 | ⟨e1, e2, e3⟩
      · rcases hback b i vb hb with hb0 | ⟨f1, f2, f3⟩
        · exact C.idx_inj a i va b vb ha0 hb0
        · rw [f2] at ha0; exact absurd (C.idx_lt a _ va ha0) (lt_irrefl _)
      · rcases hback b i vb hb with hb0 | ⟨f1, f2, f3⟩
        · rw [e2] at hb0; exact absurd (C.idx_lt b _ vb hb0) (lt_irrefl _)
        · rw [e1, f1]

/-- A run of `DoAppend` over a list keeps the invariant of the class table, never
takes an item out of a class, and lists every item of the list in a class. -/
theorem foldl_DoAppend_equiv {eq : T → T → Bool} (he : IsEquivRel eq) (l : List T) :
    ∀ s : AppendState T, ClassInv eq s →
      ClassInv eq (l.foldl (DoAppend eq) s) ∧
      (∀ r x, InClass s.set r x → InClass (l.foldl (DoAppend eq) s).set r x) ∧
      (∀ x ∈ l, ∃ r, InClass (l.foldl (DoAppend eq) s).set r x) := by
  induction l with
  | nil =>
    intro s C
    exact ⟨C, fun _ _ h => h, by simp⟩
  | cons t l ih =>
    intro s C
    simp only [List.foldl_cons]
    obtain ⟨C1, r0, _, hr0⟩ := DoAppend_equiv he C t
    obtain ⟨C2, g2, a2⟩ := ih (DoAppend eq s t) C1
    refine ⟨C2, fun r x h => g2 r x (InClass_grow_DoAppend eq s t h), ?_⟩
    intro x hx
    rcases List.mem_cons.mp hx with hx | hx
    · subst hx; exact ⟨r0, g2 r0 x hr0⟩
    · exact a2 x hx

end Pire

namespace Pire

variable {T : Type} [LinearOrder T]

/-! ## `Append` and one iteration of `Split` under an equivalence relation -/

theorem ClassInv_of_SplitInv {p : Partition T} (he : IsEquivRel p.m_eq)
    (J : SplitInv p none) :
    ClassInv p.m_eq { set := p.m_set, inv := p.m_inv, maxidx := p.m_maxidx } := by
  refine ⟨J.wf, J.head, fun r i v h => J.rel r i v h (fun k hk => by cases hk), ?_,
    fun r x h => (J.inv_mem x r).mpr h, J.idx_lt, J.idx_inj⟩
  rintro r1 ⟨i1, v1⟩ r2 ⟨i2, v2⟩ h1 h2 hne
  obtain ⟨t1, e1⟩ := J.head r1 i1 v1 h1
  obtain ⟨t2, e2⟩ := J.head r2 i2 v2 h2
  exact J.sep r1 i1 v1 r2 i2 v2 h1 h2 hne r1 (by rw [e1]; simp) r2 (by rw [e2]; simp)

theorem SplitInv_Append {p : Partition T} (he : IsEquivRel p.m_eq) (J : SplitInv p none)
    (t : T) : SplitInv (p.Append t) none := by
  have C := ClassInv_of_SplitInv he J
  obtain ⟨C', r0, hr0, hin0⟩ := DoAppend_equiv he C t
  obtain ⟨_, _, hinv⟩ := (DoAppend_raw p.m_eq
    { set := p.m_set, inv := p.m_inv, maxidx := p.m_maxidx } t).inv
  refine ⟨C'.wf, C'.head, fun r i v h _ => C'.rel r i v h, ?_, ?_, C'.idx_lt, C'.idx_inj⟩
  · intro r1 i1 v1 r2 i2 v2 h1 h2 hne x hx y hy
    have a := C'.rel r1 i1 v1 h1 x hx
    have b := C'.rel r2 i2 v2 h2 y hy
    have c := C'.sepR r1 _ r2 _ h1 h2 hne
    show p.m_eq x y = false
    rcases hxy : p.m_eq x y with _ | _
    · rfl
    · have d := he.trans r1 x y a hxy
      have e := he.trans r1 y r2 d (he.symm r2 y b)
      have c' : p.m_eq r1 r2 = false := c
      rw [e] at c'
      cases c'
  · intro x r
    constructor
    · intro hx
      have hx' : ymap.find (DoAppend p.m_eq
          { set := p.m_set, inv := p.m_inv, maxidx := p.m_maxidx } t).inv x = some r := hx
      by_cases hxt : x = t
      · subst hxt
        rw [hr0] at hx'
        cases hx'
        exact hin0
      · rw [hinv x, if_neg hxt] at hx'
        exact InClass_grow_DoAppend p.m_eq _ t ((J.inv_mem x r).mp hx')
    · intro hx
      exact C'.inv_of_mem r x hx

theorem le_of_lt_nextKey {V : Type} {m : List (T × V)} (hw : ymap.WF m) {k : T}
    {x : T × V} (hx : x ∈ m) (h : ∀ k', ymap.nextKey m k = some k' → x.1 < k') :
    x.1 ≤ k := by
  rcases hn : ymap.nextKey m k with _ | k'
  · exact ymap.nextKey_none hn hx
  · exact ymap.nextKey_some_between hw hn hx (h k' hn)

theorem SplitStep_small (p : Partition T) (k : T)
    (h : ∀ i v0 v1 rest, ymap.find p.m_set k ≠ some (i, v0 :: v1 :: rest)) :
    SplitStep p k = p := by
  rcases hf : ymap.find p.m_set k with _ | ⟨i, v⟩
  · simp [SplitStep, hf]
  · rcases v with _ | ⟨v0, _ | ⟨v1, rest⟩⟩
    · simp [SplitStep, hf]
    · simp [SplitStep, hf]
    · exact absurd hf (h i v0 v1 rest)

/-- The state after the members `v` of the class at `k` were divided into `kept`
and `pulled` and the class table `d` built from `pulled` was merged satisfies the
loop invariant with the iterator moved on. -/
theorem SplitInv_merge {p : Partition T} {k : T} {i : Nat} {v kept pulled : List T}
    {d : AppendState T} (he : IsEquivRel p.m_eq) (J : SplitInv p (some k))
    (hk : (k, (i, v)) ∈ p.m_set)
    (hkept : ∀ x, x ∈ kept ↔ x ∈ v ∧ p.m_eq x k = true)
    (hpull : ∀ x, x ∈ pulled ↔ x ∈ v ∧ p.m_eq x k = false)
    (hhead : ∃ tl, kept = k :: tl)
    (D : ClassInv p.m_eq d)
    (F : FoldRaw { set := [], inv := p.m_inv, maxidx := p.m_maxidx } d pulled)
    (hall : ∀ x ∈ pulled, ∃ r, InClass d.set r x) :
    SplitInv
      { m_eq := p.m_eq,
        m_set := ymap.insertRange (ymap.update p.m_set k (fun c => (c.1, kept))) d.set,
        m_inv := d.inv, m_maxidx := d.maxidx }
      (ymap.nextKey
        (ymap.insertRange (ymap.update p.m_set k (fun c => (c.1, kept))) d.set) k) := by
  have hf : ymap.find p.m_set k = some (i, v) := ymap.find_of_mem J.wf hk
  have hK : (k, (i, kept)) ∈ ymap.update p.m_set k (fun c => (c.1, kept)) :=
    ymap.mem_update_self (fun c => (c.1, kept)) hf
  have hwf1 : ymap.WF (ymap.update p.m_set k (fun c => (c.1, kept))) :=
    ymap.WF_update J.wf _ _
  have hwf : ymap.WF
      (ymap.insertRange (ymap.update p.m_set k (fun c => (c.1, kept))) d.set) :=
    ymap.WF_insertRange hwf1
  -- what is known of an entry of `d`
  have hD : ∀ r i' w, (r, (i', w)) ∈ d.set →
      r ∈ pulled ∧ p.m_maxidx ≤ i' ∧ ∀ x ∈ w, x ∈ pulled := by
    intro r i' w hm
    rcases F.back r i' w hm with ⟨v', hv', _⟩ | h
    · simp at hv'
    · exact h
  have hnocoll : ∀ e ∈ d.set, ∀ c,
      (e.1, c) ∉ ymap.update p.m_set k (fun c => (c.1, kept)) := by
    rintro ⟨r, i', w⟩ hm ⟨c1, c2⟩ hc
    obtain ⟨hr, _, _⟩ := hD r i' w hm
    obtain ⟨hrv, hrk⟩ := (hpull r).mp hr
    have hrne : k ≠ r := by
      intro e
      rw [← e, he.refl k] at hrk
      cases hrk
    rcases ymap.mem_update (fun c => (c.1, kept)) hf hc with h | h
    · obtain ⟨tl, htl⟩ := J.head r c1 c2 h
      have := J.sep k i v r c1 c2 hk h hrne r hrv r (by rw [htl]; simp)
      rw [he.refl r] at this
      cases this
    · exact hrne (by cases h; rfl)
  have hin : ∀ e, e ∈ ymap.insertRange (ymap.update p.m_set k (fun c => (c.1, kept))) d.set ↔
      e ∈ ymap.update p.m_set k (fun c => (c.1, kept)) ∨ e ∈ d.set := by
    intro e
    constructor
    · exact ymap.mem_insertRange
    · rintro (h | h)
      · exact ymap.mem_insertRange_of_mem h
      · exact ymap.mem_insertRange_of_new D.wf hnocoll h
  have hcls : ∀ r i' w,
      (r, (i', w)) ∈ ymap.insertRange (ymap.update p.m_set k (fun c => (c.1, kept))) d.set →
      ((r, (i', w)) ∈ p.m_set ∧ r ≠ k) ∨ (r = k ∧ i' = i ∧ w = kept) ∨
        (r, (i', w)) ∈ d.set := by
    intro r i' w hm
    rcases (hin _).mp hm with h | h
    · by_cases hrk : r = k
      · subst hrk
        have := ymap.WF_key_unique hwf1 h hK
        cases this
        exact Or.inr (Or.inl ⟨rfl, rfl, rfl⟩)
      · rcases ymap.mem_update (fun c => (c.1, kept)) hf h with h' | h'
        · exact Or.inl ⟨h', hrk⟩
        · exact absurd (by cases h'; rfl) hrk
    · exact Or.inr (Or.inr h)
  have hOin : ∀ r i' w, (r, (i', w)) ∈ p.m_set → r ≠ k →
      (r, (i', w)) ∈ ymap.insertRange (ymap.update p.m_set k (fun c => (c.1, kept))) d.set := by
    intro r i' w hm hne
    rcases ymap.mem_update_of_mem (fun c => (c.1, kept)) hf hm with h | h
    · exact (hin _).mpr (Or.inl h)
    · exact absurd (by cases h; rfl) hne
  have hkeptv : ∀ x ∈ kept, x ∈ v := fun x hx => ((hkept x).mp hx).1
  have hpullv : ∀ x ∈ pulled, x ∈ v := fun x hx => ((hpull x).mp hx).1
  -- unrelated: a kept item and a pulled-out item
  have hKP : ∀ x ∈ kept, ∀ y ∈ pulled, p.m_eq x y = false := by
    intro x hx y hy
    have a := ((hkept x).mp hx).2
    have b := ((hpull y).mp hy).2
    exact he.symm_false (he.false_of (he.symm _ _ (he.symm _ _ (he.refl y))) (by
      rcases hyx : p.m_eq y x with _ | _
      · rfl
      · rw [he.trans y x k hyx a] at b; cases b))
  -- unrelated: items of two classes of `d`
  have hDD : ∀ r1 i1 w1 r2 i2 w2, (r1, (i1, w1)) ∈ d.set → (r2, (i2, w2)) ∈ d.set →
      r1 ≠ r2 → ∀ x ∈ w1, ∀ y ∈ w2, p.m_eq x y = false := by
    intro r1 i1 w1 r2 i2 w2 h1 h2 hne x hx y hy
    have a := D.rel r1 i1 w1 h1 x hx
    have b := D.rel r2 i2 w2 h2 y hy
    have c := D.sepR r1 _ r2 _ h1 h2 hne
    rcases hxy : p.m_eq x y with _ | _
    · rfl
    · have e := he.trans r1 y r2 (he.trans r1 x y a hxy) (he.symm r2 y b)
      rw [e] at c
      cases c
  refine ⟨hwf, ?_, ?_, ?_, ?_, ?_, ?_⟩
  · -- head
    intro r i' w hm
    rcases hcls r i' w hm with ⟨h, _⟩ | ⟨e1, e2, e3⟩ | h
    · exact J.head r i' w h
    · rw [e1, e3]; exact hhead
    · exact D.head r i' w h
  · -- rel
    intro r i' w hm hcur x hx
    rcases hcls r i' w hm with ⟨h, hne⟩ | ⟨e1, e2, e3⟩ | h
    · have hle : r ≤ k := le_of_lt_nextKey hwf hm hcur
      have hlt : r < k := lt_of_le_of_ne hle hne
      exact J.rel r i' w h (fun k0 hk0 => by cases hk0; exact hlt) x hx
    · rw [e1]
      rw [e3] at hx
      exact he.symm _ _ ((hkept x).mp hx).2
    · exact D.rel r i' w h x hx
  · -- sep
    intro r1 i1 w1 r2 i2 w2 hm1 hm2 hne x hx y hy
    show p.m_eq x y = false
    rcases hcls r1 i1 w1 hm1 with ⟨a, ane⟩ | ⟨a1, a2, a3⟩ | a
    · rcases hcls r2 i2 w2 hm2 with ⟨b, bne⟩ | ⟨b1, b2, b3⟩ | b
      · exact J.sep r1 i1 w1 r2 i2 w2 a b hne x hx y hy
      · rw [b3] at hy
        exact J.sep r1 i1 w1 k i v a hk ane x hx y (hkeptv y hy)
      · exact J.sep r1 i1 w1 k i v a hk ane x hx y (hpullv y ((hD r2 i2 w2 b).2.2 y hy))
    · rw [a3] at hx
      rcases hcls r2 i2 w2 hm2 with ⟨b, bne⟩ | ⟨b1, b2, b3⟩ | b
      · exact J.sep k i v r2 i2 w2 hk b (Ne.symm bne) x (hkeptv x hx) y hy
      · exact absurd (a1.trans b1.symm) hne
      · exact hKP x hx y ((hD r2 i2 w2 b).2.2 y hy)
    · rcases hcls r2 i2 w2 hm2 with ⟨b, bne⟩ | ⟨b1, b2, b3⟩ | b
      · exact J.sep k i v r2 i2 w2 hk b (Ne.symm bne) x
          (hpullv x ((hD r1 i1 w1 a).2.2 x hx)) y hy
      · rw [b3] at hy
        exact he.symm_false (hKP y hy x ((hD r1 i1 w1 a).2.2 x hx))
      · exact hDD r1 i1 w1 r2 i2 w2 a b hne x hx y hy
  · -- inv_mem
    intro t r
    show ymap.find d.inv t = some r ↔ _
    constructor
    · intro ht
      by_cases htp : t ∈ pulled
      · obtain ⟨r0, hr0⟩ := hall t htp
        have := D.inv_of_mem r0 t hr0
        rw [this] at ht
        cases ht
        obtain ⟨i', w, hm, hx⟩ := hr0
        exact ⟨i', w, (hin _).mpr (Or.inr hm), hx⟩
      · rw [F.inv_out t htp] at ht
        obtain ⟨i', w, hm, hx⟩ := (J.inv_mem t r).mp ht
        by_cases hrk : r = k
        · subst hrk
          have := ymap.WF_key_unique J.wf hm hk
          cases this
          have hkp : t ∈ kept := by
            rcases htk : p.m_eq t r with _ | _
            · exact absurd ((hpull t).mpr ⟨hx, htk⟩) htp
            · exact (hkept t).mpr ⟨hx, htk⟩
          exact ⟨_, kept, (hin _).mpr (Or.inl hK), hkp⟩
        · exact ⟨i', w, hOin r i' w hm hrk, hx⟩
    · rintro ⟨i', w, hm, hx⟩
      rcases hcls r i' w hm with ⟨a, ane⟩ | ⟨a1, a2, a3⟩ | a
      · have htp : t ∉ pulled := by
          intro htp
          have := J.sep r i' w k i v a hk ane t hx t (hpullv t htp)
          rw [he.refl t] at this
          cases this
        rw [F.inv_out t htp]
        exact (J.inv_mem t r).mpr ⟨i', w, a, hx⟩
      · rw [a3] at hx
        have htp : t ∉ pulled := by
          intro htp
          have := hKP t hx t htp
          rw [he.refl t] at this
          cases this
        rw [F.inv_out t htp, a1]
        exact (J.inv_mem t k).mpr ⟨i, v, hk, hkeptv t hx⟩
      · exact D.inv_of_mem r t ⟨i', w, a, hx⟩
  · -- idx_lt
    intro r i' w hm
    show i' < d.maxidx
    rcases hcls r i' w hm with ⟨a, _⟩ | ⟨a1, a2, a3⟩ | a
    · exact lt_of_lt_of_le (J.idx_lt r i' w a) F.maxidx
    · rw [a2]; exact lt_of_lt_of_le (J.idx_lt k i v hk) F.maxidx
    · exact D.idx_lt r i' w a
  · -- idx_inj
    intro r1 i' w1 r2 w2 hm1 hm2
    -- an entry that is not of `d` carries the index of an entry of `p` with its key
    have hold : ∀ r w, ((r, (i', w)) ∈ p.m_set ∧ r ≠ k) ∨ (r = k ∧ i' = i ∧ w = kept) →
        ∃ w0, (r, (i', w0)) ∈ p.m_set := by
      rintro r w (⟨a, _⟩ | ⟨a1, a2, a3⟩)
      · exact ⟨w, a⟩
      · rw [a1, a2]; exact ⟨v, hk⟩
    rcases hcls r1 i' w1 hm1 with a | a | a
    · obtain ⟨u1, hu1⟩ := hold r1 w1 (Or.inl a)
      rcases hcls r2 i' w2 hm2 with b | b | b
      · obtain ⟨u2, hu2⟩ := hold r2 w2 (Or.inl b)
        exact J.idx_inj r1 i' u1 r2 u2 hu1 hu2
      · obtain ⟨u2, hu2⟩ := hold r2 w2 (Or.inr b)
        exact J.idx_inj r1 i' u1 r2 u2 hu1 hu2
      · exact absurd (J.idx_lt r1 i' u1 hu1) (not_lt.mpr (hD r2 i' w2 b).2.1)
    · obtain ⟨u1, hu1⟩ := hold r1 w1 (Or.inr a)
      rcases hcls r2 i' w2 hm2 with b | b | b
      · obtain ⟨u2, hu2⟩ := hold r2 w2 (Or.inl b)
        exact J.idx_inj r1 i' u1 r2 u2 hu1 hu2
      · obtain ⟨u2, hu2⟩ := hold r2 w2 (Or.inr b)
        exact J.idx_inj r1 i' u1 r2 u2 hu1 hu2
      · exact absurd (J.idx_lt r1 i' u1 hu1) (not_lt.mpr (hD r2 i' w2 b).2.1)
    · rcases hcls r2 i' w2 hm2 with b | b | b
      · obtain ⟨u2, hu2⟩ := hold r2 w2 (Or.inl b)
        exact absurd (J.idx_lt r2 i' u2 hu2) (not_lt.mpr (hD r1 i' w1 a).2.1)
      · obtain ⟨u2, hu2⟩ := hold r2 w2 (Or.inr b)
        exact absurd (J.idx_lt r2 i' u2 hu2) (not_lt.mpr (hD r1 i' w1 a).2.1)
      · exact D.idx_inj r1 i' w1 r2 w2 a b

end Pire

namespace Pire

variable {T : Type} [LinearOrder T]

/-! ## `Split` under equivalence relations, and the reachable states -/

theorem SplitStep_big (p : Partition T) (k : T) (i : Nat) (v0 v1 : T) (rest : List T)
    (hf : ymap.find p.m_set k = some (i, v0 :: v1 :: rest)) :
    SplitStep p k =
      { m_eq := p.m_eq,
        m_set := ymap.insertRange
          (ymap.update p.m_set k
            (fun c => (c.1, (stdPartition (fun x => p.m_eq x v0) (v0 :: v1 :: rest)).1)))
          ((stdPartition (fun x => p.m_eq x v0) (v0 :: v1 :: rest)).2.foldl (DoAppend p.m_eq)
            { set := [], inv := p.m_inv, maxidx := p.m_maxidx }).set,
        m_inv := ((stdPartition (fun x => p.m_eq x v0) (v0 :: v1 :: rest)).2.foldl
            (DoAppend p.m_eq) { set := [], inv := p.m_inv, maxidx := p.m_maxidx }).inv,
        m_maxidx := ((stdPartition (fun x => p.m_eq x v0) (v0 :: v1 :: rest)).2.foldl
            (DoAppend p.m_eq) { set := [], inv := p.m_inv, maxidx := p.m_maxidx }).maxidx } := by
  simp only [SplitStep, hf]
  by_cases hb : (stdPartition (fun x => p.m_eq x v0) (v0 :: v1 :: rest)).2 = []
  · rw [if_pos hb, hb]
    simp [ymap.insertRange]
  · rw [if_neg hb]

theorem ClassInv_empty (eq : T → T → Bool) (inv : List (T × T)) (n : Nat) :
    ClassInv eq { set := [], inv := inv, maxidx := n } := by
  refine ⟨?_, ?_, ?_, ?_, ?_, ?_, ?_⟩
  · simp [ymap.WF]
  · intro r i v h; simp at h
  · intro r i v h; simp at h
  · intro r1 c1 r2 c2 h; simp at h
  · rintro r x ⟨i, v, h, _⟩; simp at h
  · intro r i v h; simp at h
  · intro r1 i v1 r2 v2 h; simp at h

/-- One iteration of the loop of `Split` keeps the loop invariant and moves the
iterator on. -/
theorem SplitInv_SplitStep {p : Partition T} {k : T} (he : IsEquivRel p.m_eq)
    (J : SplitInv p (some k)) :
    SplitInv (SplitStep p k) (ymap.nextKey (SplitStep p k).m_set k) := by
  by_cases h : ∃ i v0 v1 rest, ymap.find p.m_set k = some (i, v0 :: v1 :: rest)
  · obtain ⟨i, v0, v1, rest, hf⟩ := h
    have hk : (k, (i, v0 :: v1 :: rest)) ∈ p.m_set := ymap.find_mem hf
    obtain ⟨tl, htl⟩ := J.head k i _ hk
    have hv0 : v0 = k := by cases htl; rfl
    subst hv0
    rw [SplitStep_big p v0 i v0 v1 rest hf]
    obtain ⟨D, _, hall⟩ := foldl_DoAppend_equiv he
      (stdPartition (fun x => p.m_eq x v0) (v0 :: v1 :: rest)).2
      { set := [], inv := p.m_inv, maxidx := p.m_maxidx } (ClassInv_empty _ _ _)
    exact SplitInv_merge he J hk
      (fun x => stdPartition_mem_fst (fun x => p.m_eq x v0) _ x)
      (fun x => stdPartition_mem_snd (fun x => p.m_eq x v0) _ x)
      (stdPartition_head (fun x => p.m_eq x v0) v0 (v1 :: rest) (he.refl v0))
      D (foldl_DoAppend_raw p.m_eq _ _) hall
  · have hs : SplitStep p k = p :=
      SplitStep_small p k (fun i v0 v1 rest hf => h ⟨i, v0, v1, rest, hf⟩)
    rw [hs]
    refine ⟨J.wf, J.head, ?_, J.sep, J.inv_mem, J.idx_lt, J.idx_inj⟩
    intro r i v hm hcur x hx
    have hle : r ≤ k := le_of_lt_nextKey J.wf hm hcur
    rcases lt_or_eq_of_le hle with hlt | heq
    · exact J.rel r i v hm (fun k0 hk0 => by cases hk0; exact hlt) x hx
    · subst heq
      obtain ⟨tl, htl⟩ := J.head r i v hm
      subst htl
      have hf := ymap.find_of_mem J.wf hm
      cases tl with
      | nil => simp at hx; subst hx; exact he.refl _
      | cons a tl => exact absurd ⟨i, r, a, tl, hf⟩ h

theorem SplitInv_start {p : Partition T} {eq : T → T → Bool} (hr : Refines eq p.m_eq)
    (J : SplitInv p none) :
    SplitInv { p with m_eq := eq } (ymap.beginKey p.m_set) := by
  refine ⟨J.wf, J.head, ?_, ?_, J.inv_mem, J.idx_lt, J.idx_inj⟩
  · intro r i v hm hcur
    rcases hb : ymap.beginKey p.m_set with _ | k
    · have := ymap.beginKey_none hb
      have hm' : (r, (i, v)) ∈ p.m_set := hm
      rw [this] at hm'
      simp at hm'
    · have h1 : k ≤ r := ymap.beginKey_some J.wf hb (show (r, (i, v)) ∈ p.m_set from hm)
      exact absurd (hcur k hb) (not_lt.mpr h1)
  · intro r1 i1 v1 r2 i2 v2 h1 h2 hne x hx y hy
    have := J.sep r1 i1 v1 r2 i2 v2 h1 h2 hne x hx y hy
    show eq x y = false
    rcases hxy : eq x y with _ | _
    · rfl
    · rw [hr x y hxy] at this
      cases this

theorem SplitInv_Split {p : Partition T} {eq : T → T → Bool} (he : IsEquivRel eq)
    (hr : Refines eq p.m_eq) (J : SplitInv p none) : SplitInv (p.Split eq) none := by
  unfold Partition.Split
  have hrule := SplitLoop_rule (fun q cur => q.m_eq = eq ∧ SplitInv q cur)
    (fun q k hq => ⟨(SplitStep_m_eq q k).trans hq.1,
      SplitInv_SplitStep (by rw [hq.1]; exact he) hq.2⟩)
    (Partition.items p.m_set).length { p with m_eq := eq } (ymap.beginKey p.m_set)
    (SplitMeasure_begin { p with m_eq := eq }) ⟨rfl, SplitInv_start hr J⟩
  exact hrule.2

theorem SplitInv_ctor (eq : T → T → Bool) : SplitInv (Partition.ctor eq) none := by
  refine ⟨?_, ?_, ?_, ?_, ?_, ?_, ?_⟩
  · simp [Partition.ctor, ymap.WF]
  · intro r i v h; simp [Partition.ctor] at h
  · intro r i v h; simp [Partition.ctor] at h
  · intro r1 i1 v1 r2 i2 v2 h; simp [Partition.ctor] at h
  · intro t r
    constructor
    · intro h; simp [Partition.ctor, ymap.find] at h
    · rintro ⟨i, v, h, _⟩; simp [Partition.ctor] at h
  · intro r i v h; simp [Partition.ctor] at h
  · intro r1 i v1 r2 v2 h; simp [Partition.ctor] at h

theorem Append_m_eq (p : Partition T) (t : T) : (p.Append t).m_eq = p.m_eq := rfl

theorem ReachableEq.reachable {h : List T} {p : Partition T} (R : ReachableEq h p) :
    Reachable h p := by
  induction R with
  | ctor eq _ => exact Reachable.ctor eq
  | Append t _ ih => exact Reachable.Append t ih
  | Split eq _ _ _ ih => exact Reachable.Split eq ih

theorem ReachableEq.equiv {h : List T} {p : Partition T} (R : ReachableEq h p) :
    IsEquivRel p.m_eq := by
  induction R with
  | ctor eq he => exact he
  | Append t _ ih => exact ih
  | Split eq he _ _ _ => rw [Split_m_eq]; exact he

theorem ReachableEq.splitInv {h : List T} {p : Partition T} (R : ReachableEq h p) :
    SplitInv p none := by
  induction R with
  | ctor eq _ => exact SplitInv_ctor eq
  | Append t R ih => exact SplitInv_Append R.equiv ih t
  | Split eq he hr _ ih => exact SplitInv_Split he hr ih

/-- In a state reached under equivalence relations an appended item is listed in
the class its entry of the reverse map names, and is related to the key of that
class. -/
theorem ReachableEq.class_of {h : List T} {p : Partition T} (R : ReachableEq h p)
    {a : T} (ha : a ∈ h) :
    ∃ r i v, ymap.find p.m_inv a = some r ∧ (r, (i, v)) ∈ p.m_set ∧ a ∈ v ∧
      p.m_eq r a = true ∧ ymap.find p.m_set r = some (i, v) := by
  have I := R.reachable.rawInv
  have J := R.splitInv
  have hd := (I.dom a).mpr ha
  rcases hf : ymap.find p.m_inv a with _ | r
  · rw [hf] at hd; cases hd
  · obtain ⟨i, v, hm, hx⟩ := (J.inv_mem a r).mp hf
    exact ⟨r, i, v, rfl, hm, hx, J.rel r i v hm (fun k hk => by cases hk) a hx,
      ymap.find_of_mem J.wf hm⟩

/-- Two classes that list the same item are the same class. -/
theorem ReachableEq.class_unique {h : List T} {p : Partition T} (R : ReachableEq h p)
    {a r1 r2 : T} {i1 i2 : Nat} {v1 v2 : List T} (h1 : (r1, (i1, v1)) ∈ p.m_set)
    (h2 : (r2, (i2, v2)) ∈ p.m_set) (a1 : a ∈ v1) (a2 : a ∈ v2) :
    r1 = r2 ∧ i1 = i2 ∧ v1 = v2 := by
  have J := R.splitInv
  have hr : r1 = r2 := by
    by_contra hne
    have := J.sep r1 i1 v1 r2 i2 v2 h1 h2 hne a a1 a a2
    rw [R.equiv.refl a] at this
    cases this
  subst hr
  have := ymap.WF_key_unique J.wf h1 h2
  cases this
  exact ⟨rfl, rfl, rfl⟩

theorem ReachableEq.mem_class_iff {h : List T} {p : Partition T} (R : ReachableEq h p)
    (t : T) : (∃ e ∈ p.m_set, t ∈ e.2.2) ↔ t ∈ h := by
  constructor
  · rintro ⟨⟨r, i, v⟩, he, ht⟩
    exact R.reachable.rawInv.items_dom t (mem_items.mpr ⟨r, i, v, he, Or.inr ht⟩)
  · intro ht
    obtain ⟨r, i, v, _, hm, hx, _⟩ := R.class_of ht
    exact ⟨(r, (i, v)), hm, hx⟩

theorem sameParity_equiv : IsEquivRel sameParity := by
  refine ⟨?_, ?_, ?_⟩
  · intro a; simp [sameParity]
  · intro a b h; simp [sameParity] at h ⊢; omega
  · intro a b c h1 h2; simp [sameParity] at h1 h2 ⊢; omega

theorem natEq_equiv : IsEquivRel natEq := by
  refine ⟨?_, ?_, ?_⟩
  · intro a; simp [natEq]
  · intro a b h; simp [natEq] at h ⊢; omega
  · intro a b c h1 h2; simp [natEq] at h1 h2 ⊢; omega

theorem natEq_refines_sameParity : Refines natEq sameParity := by
  intro a b h
  simp [natEq] at h
  subst h
  simp [sameParity]

theorem parityPartition_reachableEq : ReachableEq [1, 2, 3, 4] parityPartition :=
  ReachableEq.Append 4 (ReachableEq.Append 3 (ReachableEq.Append 2 (ReachableEq.Append 1
    (ReachableEq.ctor sameParity sameParity_equiv))))

end Pire

namespace Pire

variable {T : Type} [LinearOrder T]

/-! ## The contract under equivalence relations: C1, C2, C3, C4, C7 -/

/-- C1: in every state reached under equivalence relations (each relation given to
`Split` implying the one before), for appended items `a` and `b`,
`Representative(a) = Representative(b)` exactly when the active relation holds of
`a` and `b`, and the active relation holds of `Representative(a)` and `a`. -/
theorem C1_representative_iff_equivalent [Inhabited T] {h : List T} {p : Partition T}
    (R : ReachableEq h p) (a b : T) (ha : a ∈ h) (hb : b ∈ h) :
    (p.Representative a = p.Representative b ↔ p.m_eq a b = true) ∧
    p.m_eq (p.Representative a) a = true := by
  have he := R.equiv
  obtain ⟨ra, ia, va, fa, ma, xa, ea, _⟩ := R.class_of ha
  obtain ⟨rb, ib, vb, fb, mb, xb, eb, _⟩ := R.class_of hb
  have hRa : p.Representative a = ra := by simp [Partition.Representative, fa]
  have hRb : p.Representative b = rb := by simp [Partition.Representative, fb]
  rw [hRa, hRb]
  refine ⟨⟨?_, ?_⟩, ea⟩
  · intro e
    subst e
    exact he.trans a ra b (he.symm ra a ea) eb
  · intro hab
    by_contra hne
    have := R.splitInv.sep ra ia va rb ib vb ma mb hne a xa b xb
    rw [hab] at this
    cases this

theorem C1_witness :
    (parityPartition.Representative 1 = parityPartition.Representative 3 ↔
      parityPartition.m_eq 1 3 = true) ∧
    parityPartition.m_eq (parityPartition.Representative 1) 1 = true :=
  C1_representative_iff_equivalent parityPartition_reachableEq 1 3 (by decide) (by decide)

/-- C2: in every state reached under equivalence relations, every appended item is
listed in exactly one class, the items listed in classes are exactly the appended
items, which are exactly the items for which `Contains` is true, and a `Split`
(with an equivalence relation implying the active one) leaves the set of listed
items as it is. -/
theorem C2_classes_partition_appended_items {h : List T} {p : Partition T}
    (R : ReachableEq h p) :
    (∀ t ∈ h, ∃! e, e ∈ p.m_set ∧ t ∈ e.2.2) ∧
    (∀ t, (∃ e ∈ p.m_set, t ∈ e.2.2) ↔ t ∈ h) ∧
    (∀ t, p.Contains t = true ↔ t ∈ h) ∧
    (∀ eq, IsEquivRel eq → Refines eq p.m_eq →
      ∀ t, (∃ e ∈ (p.Split eq).m_set, t ∈ e.2.2) ↔ (∃ e ∈ p.m_set, t ∈ e.2.2)) := by
  refine ⟨?_, R.mem_class_iff, fun t => R.reachable.rawInv.dom t, ?_⟩
  · intro t ht
    obtain ⟨r, i, v, _, hm, hx, _⟩ := R.class_of ht
    refine ⟨(r, (i, v)), ⟨hm, hx⟩, ?_⟩
    rintro ⟨r', i', v'⟩ ⟨hm', hx'⟩
    obtain ⟨e1, e2, e3⟩ := R.class_unique hm' hm hx' hx
    rw [e1, e2, e3]
  · intro eq he hr t
    rw [(ReachableEq.Split eq he hr R).mem_class_iff t, R.mem_class_iff t]

theorem C2_witness :
    (∀ t ∈ [1, 2, 3, 4], ∃! e, e ∈ parityPartition.m_set ∧ t ∈ e.2.2) ∧
    (∀ t, (∃ e ∈ parityPartition.m_set, t ∈ e.2.2) ↔ t ∈ [1, 2, 3, 4]) ∧
    (∀ t, parityPartition.Contains t = true ↔ t ∈ [1, 2, 3, 4]) ∧
    (∀ eq, IsEquivRel eq → Refines eq parityPartition.m_eq →
      ∀ t, (∃ e ∈ (parityPartition.Split eq).m_set, t ∈ e.2.2) ↔
        (∃ e ∈ parityPartition.m_set, t ∈ e.2.2)) :=
  C2_classes_partition_appended_items parityPartition_reachableEq

/-- C3: in every state reached under equivalence relations, for appended items `a`
and `b`: `Index(a) = Index(b)` iff `Representative(a) = Representative(b)` iff `a`
and `b` are listed in one class; and `Klass(a)` returns a sequence that lists
exactly the appended items whose representative is `Representative(a)`. -/
theorem C3_index_representative_class_agree [Inhabited T] {h : List T} {p : Partition T}
    (R : ReachableEq h p) (a b : T) (ha : a ∈ h) (hb : b ∈ h) :
    (p.Index a = p.Index b ↔ p.Representative a = p.Representative b) ∧
    (p.Representative a = p.Representative b ↔ ∃ e ∈ p.m_set, a ∈ e.2.2 ∧ b ∈ e.2.2) ∧
    (∃ v, p.Klass a = .ok v ∧
      ∀ x, x ∈ v ↔ (x ∈ h ∧ p.Representative x = p.Representative a)) := by
  have J := R.splitInv
  obtain ⟨ra, ia, va, fa, ma, xa, ea, sa⟩ := R.class_of ha
  obtain ⟨rb, ib, vb, fb, mb, xb, eb, sb⟩ := R.class_of hb
  have hRa : p.Representative a = ra := by simp [Partition.Representative, fa]
  have hRb : p.Representative b = rb := by simp [Partition.Representative, fb]
  have hIa : p.Index a = .ok ia := by simp [Partition.Index, fa, sa]
  have hIb : p.Index b = .ok ib := by simp [Partition.Index, fb, sb]
  have hKa : p.Klass a = .ok va := by simp [Partition.Klass, fa, sa]
  rw [hRa, hRb, hIa, hIb]
  refine ⟨⟨?_, ?_⟩, ⟨?_, ?_⟩, va, hKa, ?_⟩
  · intro e
    have e' : ia = ib := by simpa using e
    subst e'
    exact J.idx_inj ra ia va rb vb ma mb
  · intro e
    subst e
    have := ymap.WF_key_unique J.wf ma mb
    cases this
    rfl
  · intro e
    subst e
    have := ymap.WF_key_unique J.wf ma mb
    cases this
    exact ⟨(ra, (ia, va)), ma, xa, xb⟩
  · rintro ⟨⟨r, i, v⟩, hm, h1, h2⟩
    exact ((R.class_unique ma hm xa h1).1).trans ((R.class_unique mb hm xb h2).1).symm
  · intro x
    constructor
    · intro hx
      have hxh : x ∈ h := (R.mem_class_iff x).mp ⟨(ra, (ia, va)), ma, hx⟩
      refine ⟨hxh, ?_⟩
      have fx := (J.inv_mem x ra).mpr ⟨ia, va, ma, hx⟩
      simp [Partition.Representative, fx]
    · rintro ⟨hxh, hxr⟩
      obtain ⟨rx, ix, vx, fx, mx, xx, _, _⟩ := R.class_of hxh
      have hRx : p.Representative x = rx := by simp [Partition.Representative, fx]
      rw [hRx] at hxr
      subst hxr
      have := ymap.WF_key_unique J.wf mx ma
      cases this
      exact xx

theorem C3_witness :
    (parityPartition.Index 1 = parityPartition.Index 3 ↔
      parityPartition.Representative 1 = parityPartition.Representative 3) ∧
    (parityPartition.Representative 1 = parityPartition.Representative 3 ↔
      ∃ e ∈ parityPartition.m_set, 1 ∈ e.2.2 ∧ 3 ∈ e.2.2) ∧
    (∃ v, parityPartition.Klass 1 = .ok v ∧
      ∀ x, x ∈ v ↔ (x ∈ [1, 2, 3, 4] ∧
        parityPartition.Representative x = parityPartition.Representative 1)) :=
  C3_index_representative_class_agree parityPartition_reachableEq 1 3 (by decide) (by decide)

/-- C4: in every state reached under equivalence relations, for every item `t` with
`Contains(t)` the representative recorded in the reverse map is a key of the class
table and the class found there lists `t`; so the assertions of `Index` and `Klass`
hold and both return a value. -/
theorem C4_reverse_map_points_into_class_table {h : List T} {p : Partition T}
    (R : ReachableEq h p) (t : T) (ht : p.Contains t = true) :
    ∃ r i v, ymap.find p.m_inv t = some r ∧ ymap.find p.m_set r = some (i, v) ∧ t ∈ v ∧
      p.Index t = .ok i ∧ p.Klass t = .ok v := by
  have hth : t ∈ h := (R.reachable.rawInv.dom t).mp ht
  obtain ⟨r, i, v, f, m, x, _, s⟩ := R.class_of hth
  exact ⟨r, i, v, f, s, x, by simp [Partition.Index, f, s], by simp [Partition.Klass, f, s]⟩

theorem C4_witness :
    ∃ r i v, ymap.find parityPartition.m_inv 4 = some r ∧
      ymap.find parityPartition.m_set r = some (i, v) ∧ 4 ∈ v ∧
      parityPartition.Index 4 = .ok i ∧ parityPartition.Klass 4 = .ok v :=
  C4_reverse_map_points_into_class_table parityPartition_reachableEq 4 (by decide)

/-- C7: in every state reached under equivalence relations and for every equivalence
relation `eq` implying the active one, a class with key `r`, index `i` and members
`v` is, after `Split(eq)`, still there with key `r` and index `i`, its members being
exactly the members `m` of `v` with `eq(m, r)`; and every other member of `v` is
then listed in a class whose index no class had before the call. -/
theorem C7_split_keeps_class_and_refines_it {h : List T} {p : Partition T}
    (R : ReachableEq h p) (eq : T → T → Bool) (he : IsEquivRel eq)
    (hr : Refines eq p.m_eq) (r : T) (i : Nat) (v : List T)
    (hm : (r, (i, v)) ∈ p.m_set) :
    (∃ v', (r, (i, v')) ∈ (p.Split eq).m_set ∧ ∀ m, m ∈ v' ↔ (m ∈ v ∧ eq m r = true)) ∧
    (∀ m ∈ v, eq m r = false →
      ∃ r' i' v', (r', (i', v')) ∈ (p.Split eq).m_set ∧ m ∈ v' ∧
        ∀ r0 i0 v0, (r0, (i0, v0)) ∈ p.m_set → i0 ≠ i') := by
  have R' := ReachableEq.Split eq he hr R
  have J := R.splitInv
  have J' := R'.splitInv
  have hq : (p.Split eq).m_eq = eq := Split_m_eq p eq
  have Fr := Frame_Split p eq
  obtain ⟨v', hv', hsub⟩ := Fr.keep r i v hm
  obtain ⟨tl, htl⟩ := J'.head r i v' hv'
  have hrv' : r ∈ v' := by rw [htl]; simp
  have hin : ∀ m, m ∈ v → m ∈ h := fun m hx =>
    R.reachable.rawInv.items_dom m (mem_items.mpr ⟨r, i, v, hm, Or.inr hx⟩)
  have hv'iff : ∀ m, m ∈ v' ↔ (m ∈ v ∧ eq m r = true) := by
    intro m
    constructor
    · intro hx
      have := J'.rel r i v' hv' (fun k hk => by cases hk) m hx
      rw [hq] at this
      exact ⟨hsub m hx, he.symm r m this⟩
    · rintro ⟨hx, hmr⟩
      obtain ⟨r2, i2, v2, _, m2, x2, _, _⟩ := R'.class_of (hin m hx)
      by_cases hne : r = r2
      · subst hne
        have := ymap.WF_key_unique J'.wf m2 hv'
        cases this
        exact x2
      · have := J'.sep r i v' r2 i2 v2 hv' m2 hne r hrv' m x2
        rw [hq, he.symm m r hmr] at this
        cases this
  refine ⟨⟨v', hv', hv'iff⟩, ?_⟩
  intro m hx hmr
  obtain ⟨r2, i2, v2, _, m2, x2, _, _⟩ := R'.class_of (hin m hx)
  refine ⟨r2, i2, v2, m2, x2, ?_⟩
  rcases Fr.back r2 i2 v2 m2 with ⟨v0, h0, s0⟩ | ⟨hi, _⟩
  · -- the class of `m` cannot be a class that was there before
    obtain ⟨e1, e2, e3⟩ := R.class_unique h0 hm (s0 m x2) hx
    subst e1
    have := ymap.WF_key_unique J'.wf m2 hv'
    cases this
    have := ((hv'iff m).mp x2).2
    rw [hmr] at this
    cases this
  · intro r0 i0 v0 h0 e
    have := J.idx_lt r0 i0 v0 h0
    omega

theorem C7_witness :
    (∃ v', (1, (0, v')) ∈ (parityPartition.Split natEq).m_set ∧
      ∀ m, m ∈ v' ↔ (m ∈ [1, 3] ∧ natEq m 1 = true)) ∧
    (∀ m ∈ [1, 3], natEq m 1 = false →
      ∃ r' i' v', (r', (i', v')) ∈ (parityPartition.Split natEq).m_set ∧ m ∈ v' ∧
        ∀ r0 i0 v0, (r0, (i0, v0)) ∈ parityPartition.m_set → i0 ≠ i') :=
  C7_split_keeps_class_and_refines_it parityPartition_reachableEq natEq natEq_equiv
    natEq_refines_sameParity 1 0 [1, 3] (by decide)

end Pire

namespace Pire

variable {T : Type} [LinearOrder T]

/-! ## The worked example and the first member of a class: C14, C18 -/

/-- C14: from the empty partition under "same parity", appending 1, 2, 3, 4 gives
exactly the classes (representative 1, index 0, members [1, 3]) and
(representative 2, index 1, members [2, 4]); `Split` with "equal" then gives
exactly four singleton classes, `Index(1) = 0` and `Index(2) = 1` as before,
`Index(3)` and `Index(4)` being new, distinct indices, and `Klass(1) = [1]`. -/
theorem C14_parity_example :
    parityPartition.m_set = [(1, 0, [1, 3]), (2, 1, [2, 4])] ∧
    (parityPartition.Split natEq).m_set =
      [(1, 0, [1]), (2, 1, [2]), (3, 2, [3]), (4, 3, [4])] ∧
    (parityPartition.Split natEq).Size = 4 ∧
    (parityPartition.Split natEq).Index 1 = .ok 0 ∧
    (parityPartition.Split natEq).Index 2 = .ok 1 ∧
    (parityPartition.Split natEq).Index 3 = .ok 2 ∧
    (parityPartition.Split natEq).Index 4 = .ok 3 ∧
    (parityPartition.Split natEq).Klass 1 = .ok [1] :=
  ⟨by decide, by decide, by decide, rfl, rfl, rfl, rfl, rfl⟩

/-- C18: in every state reached under equivalence relations, the member sequence of
every class is not empty and begins with the key of the class; so the pivot `v[0]`
of `Split` is the representative, and the representative is a member of its own
class. -/
theorem C18_class_begins_with_representative {h : List T} {p : Partition T}
    (R : ReachableEq h p) (r : T) (i : Nat) (v : List T) (hm : (r, (i, v)) ∈ p.m_set) :
    v ≠ [] ∧ v.head? = some r ∧ r ∈ v := by
  obtain ⟨tl, htl⟩ := R.splitInv.head r i v hm
  subst htl
  simp

theorem C18_witness : [1, 3] ≠ [] ∧ [1, 3].head? = some 1 ∧ 1 ∈ [1, 3] :=
  C18_class_begins_with_representative parityPartition_reachableEq 1 0 [1, 3] (by decide)

end Pire

namespace Pire

variable {T : Type} [LinearOrder T]

/-! ## A `Split` that pulls nothing out: C16 -/

theorem stdPartitionAux_all {T : Type} (pred : T → Bool) :
    ∀ (n : Nat) (v : List T), v.length ≤ n → (∀ x ∈ v, pred x = true) →
      stdPartitionAux pred n v = (v, []) := by
  intro n
  induction n with
  | zero =>
    intro v hv _
    have : v = [] := List.length_eq_zero.mp (Nat.le_zero.mp hv)
    subst this
    rfl
  | succ n ih =>
    intro v hv hall
    cases v with
    | nil => rfl
    | cons a rest =>
      have ha : pred a = true := hall a (List.mem_cons_self _ _)
      have hr := ih rest (by simpa using hv) (fun x hx => hall x (List.mem_cons_of_mem _ hx))
      simp [stdPartitionAux, ha, hr]

/-- When every element satisfies the predicate `std::partition` moves nothing. -/
theorem stdPartition_all {T : Type} (pred : T → Bool) (v : List T)
    (hall : ∀ x ∈ v, pred x = true) : stdPartition pred v = (v, []) :=
  stdPartitionAux_all pred v.length v (le_refl _) hall

/-- When nothing is pulled out every element satisfies the predicate and nothing
was moved. -/
theorem stdPartition_of_snd_nil {T : Type} (pred : T → Bool) (v : List T)
    (h : (stdPartition pred v).2 = []) : (stdPartition pred v).1 = v := by
  have hall : ∀ x ∈ v, pred x = true := by
    intro x hx
    rcases (stdPartition_mem pred v x).mp hx with h1 | h1
    · exact stdPartition_fst pred v x h1
    · rw [h] at h1; simp at h1
  rw [stdPartition_all pred v hall]

theorem ymap.update_id {K V : Type} [LinearOrder K] {m : List (K × V)} {k : K} {c : V}
    (f : V → V) (h : ymap.find m k = some c) (hf : f c = c) : ymap.update m k f = m := by
  induction m with
  | nil => rfl
  | cons e m ih =>
    obtain ⟨a, w⟩ := e
    simp only [ymap.find] at h
    simp only [ymap.update]
    by_cases h1 : a < k
    · rw [if_pos h1] at h
      rw [if_pos h1, ih h]
    · rw [if_neg h1] at h
      rw [if_neg h1]
      by_cases h2 : a = k
      · rw [if_pos h2] at h
        rw [if_pos h2]
        cases h
        rw [hf]
      · rw [if_neg h2]

/-- An iteration of `Split` at a class all of whose members are related to its
first member changes nothing. -/
theorem SplitStep_noop (p : Partition T) (k : T)
    (hall : ∀ i v0 tl, ymap.find p.m_set k = some (i, v0 :: tl) →
      ∀ x ∈ v0 :: tl, p.m_eq x v0 = true) :
    SplitStep p k = p := by
  rcases hf : ymap.find p.m_set k with _ | ⟨i, v⟩
  · simp [SplitStep, hf]
  · rcases v with _ | ⟨v0, _ | ⟨v1, rest⟩⟩
    · simp [SplitStep, hf]
    · simp [SplitStep, hf]
    · have hp := stdPartition_all (fun x => p.m_eq x v0) (v0 :: v1 :: rest)
        (hall i v0 (v1 :: rest) hf)
      simp only [SplitStep, hf, hp, if_true]
      rw [ymap.update_id _ hf rfl]

/-- A `Split` with a relation that holds between every member of every class and
the first member of that class only replaces the active relation. -/
theorem Split_eq_of_no_pull (p : Partition T) (eq : T → T → Bool)
    (hall : ∀ r i v0 tl, (r, (i, v0 :: tl)) ∈ p.m_set → ∀ x ∈ v0 :: tl, eq x v0 = true) :
    p.Split eq = { p with m_eq := eq } := by
  unfold Partition.Split
  refine SplitLoop_keeps (fun q => q = { p with m_eq := eq }) ?_ _ _ _ rfl
  intro q k hq
  subst hq
  exact SplitStep_noop _ k (fun i v0 tl hf => hall k i v0 tl (ymap.find_mem hf))

/-- C16: for every state and every relation `eq` that holds between every member of
every class and the first member of that class, `Split(eq)` replaces the active
relation and nothing else: class table (so `==` with the state before is true,
member order included), reverse map and index counter are as before. -/
theorem C16_split_without_pull_is_identity (p : Partition T) (eq : T → T → Bool)
    (hall : ∀ r i v0 tl, (r, (i, v0 :: tl)) ∈ p.m_set → ∀ x ∈ v0 :: tl, eq x v0 = true) :
    p.Split eq = { p with m_eq := eq } ∧
    (p.Split eq).m_set = p.m_set ∧
    Partition.beq (p.Split eq) p = true ∧
    (p.Split eq).m_inv = p.m_inv ∧
    (p.Split eq).m_maxidx = p.m_maxidx ∧
    (p.Split eq).m_eq = eq := by
  have hS : p.Split eq = { p with m_eq := eq } := Split_eq_of_no_pull p eq hall
  rw [hS]
  simp [Partition.beq]

theorem C16_witness :
    (parityPartition.Split sameParity) = { parityPartition with m_eq := sameParity } ∧
    (parityPartition.Split sameParity).m_set = parityPartition.m_set ∧
    Partition.beq (parityPartition.Split sameParity) parityPartition = true ∧
    (parityPartition.Split sameParity).m_inv = parityPartition.m_inv ∧
    (parityPartition.Split sameParity).m_maxidx = parityPartition.m_maxidx ∧
    (parityPartition.Split sameParity).m_eq = sameParity :=
  C16_split_without_pull_is_identity parityPartition sameParity (by
    intro r i v0 tl hm x hx
    rw [parityPartition_m_set] at hm
    simp only [List.mem_cons, Prod.mk.injEq, List.cons.injEq, List.mem_nil_iff,
      or_false] at hm
    rcases hm with ⟨rfl, rfl, rfl, rfl⟩ | ⟨rfl, rfl, rfl, rfl⟩
    · simp only [List.mem_cons, List.mem_nil_iff, or_false] at hx
      rcases hx with rfl | rfl <;> rfl
    · simp only [List.mem_cons, List.mem_nil_iff, or_false] at hx
      rcases hx with rfl | rfl <;> rfl)

end Pire

namespace Pire

variable {T : Type} [LinearOrder T]

/-! ## The number of classes and the index counter -/

theorem ymap.length_insertRange_of_new {K V : Type} [LinearOrder K] {d m : List (K × V)}
    (hd : ymap.WF d) (hnew : ∀ x ∈ d, ∀ v, (x.1, v) ∉ m) :
    (ymap.insertRange m d).length = m.length + d.length := by
  induction d generalizing m with
  | nil => rfl
  | cons e d ih =>
    simp only [ymap.insertRange, List.foldl_cons]
    have h1 : (ymap.insert m e).length = m.length + 1 :=
      ymap.length_insert_of_not_mem (hnew e (List.mem_cons_self _ _))
    have h2 := ih (m := ymap.insert m e) (ymap.WF_tail hd) (by
      intro y hy v hv
      rcases ymap.mem_insert hv with hv | hv
      · exact hnew y (List.mem_cons_of_mem _ hy) v hv
      · have : e.1 < y.1 := ymap.WF_head_lt hd y hy
        have h2 : y.1 = e.1 := by rw [← hv]
        exact absurd h2 this.ne')
    simp only [ymap.insertRange] at h2
    rw [h2, h1]
    simp only [List.length_cons]
    omega

/-- Under a reflexive relation `DoAppend` adds a class exactly when it moves the
counter. -/
theorem DoAppend_size {eq : T → T → Bool} (hrefl : ∀ a, eq a a = true)
    (s : AppendState T) (t : T) :
    (DoAppend eq s t).set.length + s.maxidx = s.set.length + (DoAppend eq s t).maxidx := by
  rcases DoAppend_cases eq s t with ⟨pre, r1, i1, v1, post, h1, h2, h3, h4⟩ | ⟨h1, h4⟩
  · rw [h4, h1]; simp
  · have hnokey : ∀ c, (t, c) ∉ s.set := by
      intro c hc
      have := h1 (t, c) hc
      rw [hrefl t] at this
      cases this
    rw [h4]
    simp only
    rw [ymap.length_insert_of_not_mem (e := (t, (s.maxidx, [t]))) (fun v hv => hnokey v hv)]
    omega

theorem foldl_DoAppend_size {eq : T → T → Bool} (hrefl : ∀ a, eq a a = true) (l : List T) :
    ∀ s : AppendState T,
      (l.foldl (DoAppend eq) s).set.length + s.maxidx =
        s.set.length + (l.foldl (DoAppend eq) s).maxidx := by
  induction l with
  | nil => intro s; rfl
  | cons t l ih =>
    intro s
    simp only [List.foldl_cons]
    have a := DoAppend_size hrefl s t
    have b := ih (DoAppend eq s t)
    omega

/-- A run of `DoAppend` over a non-empty list from an empty table moves the
counter. -/
theorem foldl_DoAppend_maxidx_lt (eq : T → T → Bool) (inv : List (T × T)) (n : Nat)
    (t : T) (l : List T) :
    n < ((t :: l).foldl (DoAppend eq) { set := [], inv := inv, maxidx := n }).maxidx := by
  simp only [List.foldl_cons]
  have h1 : (DoAppend eq { set := [], inv := inv, maxidx := n } t).maxidx = n + 1 := by
    simp [DoAppend, DoAppendScan]
  have h2 := (foldl_DoAppend_raw eq l
    (DoAppend eq { set := [], inv := inv, maxidx := n } t)).maxidx
  omega

/-- The classes a merge brings in have keys the table does not have yet. -/
theorem merge_nocoll {p : Partition T} {k : T} {i : Nat} {v pulled : List T}
    {d : AppendState T} (kept : List T) (he : IsEquivRel p.m_eq) (J : SplitInv p (some k))
    (hk : (k, (i, v)) ∈ p.m_set)
    (hpull : ∀ x, x ∈ pulled ↔ x ∈ v ∧ p.m_eq x k = false)
    (F : FoldRaw { set := [], inv := p.m_inv, maxidx := p.m_maxidx } d pulled) :
    ∀ e ∈ d.set, ∀ c, (e.1, c) ∉ ymap.update p.m_set k (fun c => (c.1, kept)) := by
  have hf : ymap.find p.m_set k = some (i, v) := ymap.find_of_mem J.wf hk
  rintro ⟨r, i', w⟩ hm ⟨c1, c2⟩ hc
  have hr : r ∈ pulled := by
    rcases F.back r i' w hm with ⟨v', hv', _⟩ | h
    · simp at hv'
    · exact h.1
  obtain ⟨hrv, hrk⟩ := (hpull r).mp hr
  have hrne : k ≠ r := by
    intro e
    rw [← e, he.refl k] at hrk
    cases hrk
  rcases ymap.mem_update (fun c => (c.1, kept)) hf hc with h | h
  · obtain ⟨tl, htl⟩ := J.head r c1 c2 h
    have := J.sep k i v r c1 c2 hk h hrne r hrv r (by rw [htl]; simp)
    rw [he.refl r] at this
    cases this
  · exact hrne (by cases h; rfl)

/-- One iteration of `Split` adds as many classes as it moves the counter. -/
theorem SplitStep_size {p : Partition T} {k : T} (he : IsEquivRel p.m_eq)
    (J : SplitInv p (some k)) :
    (SplitStep p k).m_set.length + p.m_maxidx =
      p.m_set.length + (SplitStep p k).m_maxidx := by
  by_cases h : ∃ i v0 v1 rest, ymap.find p.m_set k = some (i, v0 :: v1 :: rest)
  · obtain ⟨i, v0, v1, rest, hf⟩ := h
    have hk : (k, (i, v0 :: v1 :: rest)) ∈ p.m_set := ymap.find_mem hf
    obtain ⟨tl, htl⟩ := J.head k i _ hk
    have hv0 : v0 = k := by cases htl; rfl
    subst hv0
    rw [SplitStep_big p v0 i v0 v1 rest hf]
    obtain ⟨D, _, _⟩ := foldl_DoAppend_equiv he
      (stdPartition (fun x => p.m_eq x v0) (v0 :: v1 :: rest)).2
      { set := [], inv := p.m_inv, maxidx := p.m_maxidx } (ClassInv_empty _ _ _)
    have hn := merge_nocoll (stdPartition (fun x => p.m_eq x v0) (v0 :: v1 :: rest)).1
      he J hk (fun x => stdPartition_mem_snd (fun x => p.m_eq x v0) _ x)
      (foldl_DoAppend_raw p.m_eq _ _)
    have hl := ymap.length_insertRange_of_new D.wf hn
    have hs := foldl_DoAppend_size he.refl
      (stdPartition (fun x => p.m_eq x v0) (v0 :: v1 :: rest)).2
      { set := [], inv := p.m_inv, maxidx := p.m_maxidx }
    simp only [List.length_nil] at hs
    simp only
    rw [hl, ymap.length_update]
    omega
  · rw [SplitStep_small p k (fun i v0 v1 rest hf => h ⟨i, v0, v1, rest, hf⟩)]

/-- `Split` under an equivalence relation that implies the active one adds as many
classes as it moves the counter. -/
theorem Split_size {p : Partition T} {eq : T → T → Bool} (he : IsEquivRel eq)
    (hr : Refines eq p.m_eq) (J : SplitInv p none) :
    (p.Split eq).m_set.length + p.m_maxidx = p.m_set.length + (p.Split eq).m_maxidx := by
  unfold Partition.Split
  have hrule := SplitLoop_rule
    (fun q cur => q.m_eq = eq ∧ SplitInv q cur ∧
      q.m_set.length + p.m_maxidx = p.m_set.length + q.m_maxidx)
    (fun q k hq => by
      have he' : IsEquivRel q.m_eq := by rw [hq.1]; exact he
      refine ⟨(SplitStep_m_eq q k).trans hq.1, SplitInv_SplitStep he' hq.2.1, ?_⟩
      have := SplitStep_size he' hq.2.1
      have := hq.2.2
      omega)
    (Partition.items p.m_set).length { p with m_eq := eq } (ymap.beginKey p.m_set)
    (SplitMeasure_begin { p with m_eq := eq }) ⟨rfl, SplitInv_start hr J, rfl⟩
  exact hrule.2.2

/-- In a state reached under equivalence relations the number of classes is the
value of the index counter. -/
theorem ReachableEq.size_eq {h : List T} {p : Partition T} (R : ReachableEq h p) :
    p.Size = p.m_maxidx := by
  induction R with
  | ctor eq _ => rfl
  | @Append h p t R ih =>
    have := DoAppend_size R.equiv.refl
      { set := p.m_set, inv := p.m_inv, maxidx := p.m_maxidx } t
    simp only [Partition.Size] at ih ⊢
    show (DoAppend p.m_eq _ t).set.length = (DoAppend p.m_eq _ t).maxidx
    simp only at this
    omega
  | @Split h p eq he hr R ih =>
    have := Split_size he hr R.splitInv
    simp only [Partition.Size] at ih ⊢
    omega

end Pire

namespace Pire

variable {T : Type} [LinearOrder T]

/-! ## Indices and sizes: C11, C12, C15, C19, C20 -/

/-- C11: in every state reached under equivalence relations every appended item `a`
has an index, and `0 <= Index(a) < Size()`. -/
theorem C11_index_below_size {h : List T} {p : Partition T} (R : ReachableEq h p)
    (a : T) (ha : a ∈ h) : ∃ i, p.Index a = .ok i ∧ 0 ≤ i ∧ i < p.Size := by
  obtain ⟨r, i, v, f, m, _, _, s⟩ := R.class_of ha
  refine ⟨i, by simp [Partition.Index, f, s], Nat.zero_le _, ?_⟩
  rw [R.size_eq]
  exact R.splitInv.idx_lt r i v m

theorem C11_witness :
    ∃ i, parityPartition.Index 4 = .ok i ∧ 0 ≤ i ∧ i < parityPartition.Size :=
  C11_index_below_size parityPartition_reachableEq 4 (by decide)

/-- A class of the table after `Append` or `Split` that has the key and index of no
class before was given an index the counter had not reached. -/
theorem index_of_founded_class {p q : Partition T} (F : Frame p q)
    (hlt : ∀ r i v, (r, (i, v)) ∈ p.m_set → i < p.m_maxidx)
    {r : T} {i : Nat} {v : List T} (hm : (r, (i, v)) ∈ q.m_set) :
    (∃ v0, (r, (i, v0)) ∈ p.m_set) ∨
      (p.m_maxidx ≤ i ∧ ∀ r0 i0 v0, (r0, (i0, v0)) ∈ p.m_set → i0 < i) := by
  rcases F.back r i v hm with ⟨v0, h0, _⟩ | ⟨hi, _⟩
  · exact Or.inl ⟨v0, h0⟩
  · exact Or.inr ⟨hi, fun r0 i0 v0 h0 => lt_of_lt_of_le (hlt r0 i0 v0 h0) hi⟩

/-- `DoAppend` keeps the indices of a table below the counter, whatever the
relation is. -/
theorem DoAppend_idx_lt (e : T → T → Bool) (s : AppendState T) (t : T)
    (h : ∀ r i v, (r, (i, v)) ∈ s.set → i < s.maxidx) :
    ∀ r i v, (r, (i, v)) ∈ (DoAppend e s t).set → i < (DoAppend e s t).maxidx := by
  intro r i v hm
  rcases DoAppend_cases e s t with ⟨pre, r1, i1, v1, post, h1, h2, h3, h4⟩ | ⟨h1, h4⟩
  · rw [h4] at hm ⊢
    simp only [List.mem_append, List.mem_cons, Prod.mk.injEq] at hm
    rcases hm with hm | ⟨e1, e2, _⟩ | hm
    · exact h r i v (by rw [h1]; simp [hm])
    · exact h r1 i v1 (by rw [h1, e2]; simp)
    · exact h r i v (by rw [h1]; simp [hm])
  · rw [h4] at hm ⊢
    rcases ymap.mem_insert hm with hm | hm
    · exact Nat.lt_succ_of_lt (h r i v hm)
    · cases hm
      exact Nat.lt_succ_self _

theorem foldl_DoAppend_idx_lt (e : T → T → Bool) (l : List T) : ∀ s : AppendState T,
    (∀ r i v, (r, (i, v)) ∈ s.set → i < s.maxidx) →
    ∀ r i v, (r, (i, v)) ∈ (l.foldl (DoAppend e) s).set → i < (l.foldl (DoAppend e) s).maxidx := by
  induction l with
  | nil => intro s h; exact h
  | cons t l ih =>
    intro s h
    simp only [List.foldl_cons]
    exact ih _ (DoAppend_idx_lt e s t h)

/-- An iteration of `Split` keeps the indices of the class table below the counter,
whatever the relation is. -/
theorem SplitStep_idx_lt (q : Partition T) (k : T)
    (h : ∀ r i v, (r, (i, v)) ∈ q.m_set → i < q.m_maxidx) :
    ∀ r i v, (r, (i, v)) ∈ (SplitStep q k).m_set → i < (SplitStep q k).m_maxidx := by
  rcases SplitStep_cases q k with e | ⟨i0, v0, v1, rest, hf, e⟩
  · rw [e]; exact h
  · intro r i v hm
    rw [e] at hm ⊢
    have hmono := (foldl_DoAppend_raw q.m_eq
      (stdPartition (fun x => q.m_eq x v0) (v0 :: v1 :: rest)).2
      { set := [], inv := q.m_inv, maxidx := q.m_maxidx }).maxidx
    rcases ymap.mem_insertRange hm with hu | hd
    · rcases ymap.mem_update _ hf hu with h1 | h1
      · exact lt_of_lt_of_le (h r i v h1) hmono
      · cases h1
        exact lt_of_lt_of_le (h _ _ _ (ymap.find_mem hf)) hmono
    · exact foldl_DoAppend_idx_lt q.m_eq _ _ (by intro r i v hm; simp at hm) r i v hd

/-- C12: in every state reached under equivalence relations, classes with the same
index are the same class and every index in use is below the counter `m_maxidx`.
`Append` and `Split` (with an equivalence relation implying the active one) leave
every class its key and index, never lower the counter, and give every class they
found an index that is at least the counter before the call, hence greater than the
index of every class that was there.  Within a `Split`, after any number of
iterations the indices of the class table are below the counter; and wherever
`DoAppend` founds a class, in a table whose indices are below the counter, the class
gets the value of the counter, which is greater than every index of that table,
the counter moves on by one, and the indices stay below it. -/
theorem C12_indices_unique_and_monotonic {h : List T} {p : Partition T}
    (R : ReachableEq h p) :
    (∀ r1 i v1 r2 v2, (r1, (i, v1)) ∈ p.m_set → (r2, (i, v2)) ∈ p.m_set → r1 = r2) ∧
    (∀ r i v, (r, (i, v)) ∈ p.m_set → i < p.m_maxidx) ∧
    (∀ t,
      p.m_maxidx ≤ (p.Append t).m_maxidx ∧
      (∀ r i v, (r, (i, v)) ∈ p.m_set → ∃ v', (r, (i, v')) ∈ (p.Append t).m_set) ∧
      (∀ r i v, (r, (i, v)) ∈ (p.Append t).m_set →
        (∃ v0, (r, (i, v0)) ∈ p.m_set) ∨
        (i = p.m_maxidx ∧ ∀ r0 i0 v0, (r0, (i0, v0)) ∈ p.m_set → i0 < i))) ∧
    (∀ eq, IsEquivRel eq → Refines eq p.m_eq →
      p.m_maxidx ≤ (p.Split eq).m_maxidx ∧
      (∀ r i v, (r, (i, v)) ∈ p.m_set → ∃ v', (r, (i, v')) ∈ (p.Split eq).m_set) ∧
      (∀ r i v, (r, (i, v)) ∈ (p.Split eq).m_set →
        (∃ v0, (r, (i, v0)) ∈ p.m_set) ∨
        (p.m_maxidx ≤ i ∧ ∀ r0 i0 v0, (r0, (i0, v0)) ∈ p.m_set → i0 < i)) ∧
      (∀ r1 i v1 r2 v2, (r1, (i, v1)) ∈ (p.Split eq).m_set →
        (r2, (i, v2)) ∈ (p.Split eq).m_set → r1 = r2)) ∧
    (∀ (eq : T → T → Bool) (n : Nat) r i v,
      (r, (i, v)) ∈ (SplitLoop n { p with m_eq := eq } (ymap.beginKey p.m_set)).m_set →
        i < (SplitLoop n { p with m_eq := eq } (ymap.beginKey p.m_set)).m_maxidx) ∧
    (∀ (e : T → T → Bool) (s : AppendState T) (t : T),
      (∀ r i v, (r, (i, v)) ∈ s.set → i < s.maxidx) →
      s.maxidx ≤ (DoAppend e s t).maxidx ∧
      (∀ r i v, (r, (i, v)) ∈ (DoAppend e s t).set → i < (DoAppend e s t).maxidx) ∧
      (∀ r i v, (r, (i, v)) ∈ (DoAppend e s t).set →
        (∃ v0, (r, (i, v0)) ∈ s.set) ∨
        (i = s.maxidx ∧ (DoAppend e s t).maxidx = s.maxidx + 1 ∧
          ∀ r0 i0 v0, (r0, (i0, v0)) ∈ s.set → i0 < i))) := by
  have J := R.splitInv
  refine ⟨J.idx_inj, J.idx_lt, ?_, ?_, ?_, ?_⟩
  · intro t
    have A := DoAppend_raw p.m_eq { set := p.m_set, inv := p.m_inv, maxidx := p.m_maxidx } t
    refine ⟨A.maxidx, ?_, ?_⟩
    · intro r i v hm
      obtain ⟨v', hv', _⟩ := A.keep r i v hm
      exact ⟨v', hv'⟩
    · intro r i v hm
      rcases A.back r i v hm with ⟨v0, h0, _⟩ | ⟨_, e, _⟩
      · exact Or.inl ⟨v0, h0⟩
      · refine Or.inr ⟨e, fun r0 i0 v0 h0 => ?_⟩
        rw [e]
        exact J.idx_lt r0 i0 v0 h0
  · intro eq he hr
    have F := Frame_Split p eq
    refine ⟨F.maxidx, ?_, ?_, (ReachableEq.Split eq he hr R).splitInv.idx_inj⟩
    · intro r i v hm
      obtain ⟨v', hv', _⟩ := F.keep r i v hm
      exact ⟨v', hv'⟩
    · intro r i v hm
      exact index_of_founded_class F J.idx_lt hm
  · intro eq n
    exact SplitLoop_keeps (fun q => ∀ r i v, (r, (i, v)) ∈ q.m_set → i < q.m_maxidx)
      (fun q k hq => SplitStep_idx_lt q k hq) n { p with m_eq := eq } (ymap.beginKey p.m_set)
      J.idx_lt
  · intro e s t hs
    refine ⟨(DoAppend_raw e s t).maxidx, DoAppend_idx_lt e s t hs, ?_⟩
    intro r i v hm
    rcases DoAppend_cases e s t with ⟨pre, r1, i1, v1, post, h1, h2, h3, h4⟩ | ⟨h1, h4⟩
    · left
      rw [h4] at hm
      simp only [List.mem_append, List.mem_cons, Prod.mk.injEq] at hm
      rw [h1]
      rcases hm with hm | ⟨e1, e2, _⟩ | hm
      · exact ⟨v, by simp [hm]⟩
      · exact ⟨v1, by simp [e1, e2]⟩
      · exact ⟨v, by simp [hm]⟩
    · rw [h4] at hm ⊢
      rcases ymap.mem_insert hm with hm | hm
      · exact Or.inl ⟨v, hm⟩
      · cases hm
        exact Or.inr ⟨rfl, rfl, hs⟩

theorem C12_witness :
    (∀ r1 i v1 r2 v2, (r1, (i, v1)) ∈ parityPartition.m_set →
      (r2, (i, v2)) ∈ parityPartition.m_set → r1 = r2) ∧
    (∀ r i v, (r, (i, v)) ∈ parityPartition.m_set → i < parityPartition.m_maxidx) ∧
    (∀ t,
      parityPartition.m_maxidx ≤ (parityPartition.Append t).m_maxidx ∧
      (∀ r i v, (r, (i, v)) ∈ parityPartition.m_set →
        ∃ v', (r, (i, v')) ∈ (parityPartition.Append t).m_set) ∧
      (∀ r i v, (r, (i, v)) ∈ (parityPartition.Append t).m_set →
        (∃ v0, (r, (i, v0)) ∈ parityPartition.m_set) ∨
        (i = parityPartition.m_maxidx ∧
          ∀ r0 i0 v0, (r0, (i0, v0)) ∈ parityPartition.m_set → i0 < i))) ∧
    (∀ eq, IsEquivRel eq → Refines eq parityPartition.m_eq →
      parityPartition.m_maxidx ≤ (parityPartition.Split eq).m_maxidx ∧
      (∀ r i v, (r, (i, v)) ∈ parityPartition.m_set →
        ∃ v', (r, (i, v')) ∈ (parityPartition.Split eq).m_set) ∧
      (∀ r i v, (r, (i, v)) ∈ (parityPartition.Split eq).m_set →
        (∃ v0, (r, (i, v0)) ∈ parityPartition.m_set) ∨
        (parityPartition.m_maxidx ≤ i ∧
          ∀ r0 i0 v0, (r0, (i0, v0)) ∈ parityPartition.m_set → i0 < i)) ∧
      (∀ r1 i v1 r2 v2, (r1, (i, v1)) ∈ (parityPartition.Split eq).m_set →
        (r2, (i, v2)) ∈ (parityPartition.Split eq).m_set → r1 = r2)) ∧
    (∀ (eq : Nat → Nat → Bool) (n : Nat) r i v,
      (r, (i, v)) ∈ (SplitLoop n { parityPartition with m_eq := eq }
        (ymap.beginKey parityPartition.m_set)).m_set →
        i < (SplitLoop n { parityPartition with m_eq := eq }
          (ymap.beginKey parityPartition.m_set)).m_maxidx) ∧
    (∀ (e : Nat → Nat → Bool) (s : AppendState Nat) (t : Nat),
      (∀ r i v, (r, (i, v)) ∈ s.set → i < s.maxidx) →
      s.maxidx ≤ (DoAppend e s t).maxidx ∧
      (∀ r i v, (r, (i, v)) ∈ (DoAppend e s t).set → i < (DoAppend e s t).maxidx) ∧
      (∀ r i v, (r, (i, v)) ∈ (DoAppend e s t).set →
        (∃ v0, (r, (i, v0)) ∈ s.set) ∨
        (i = s.maxidx ∧ (DoAppend e s t).maxidx = s.maxidx + 1 ∧
          ∀ r0 i0 v0, (r0, (i0, v0)) ∈ s.set → i0 < i))) :=
  C12_indices_unique_and_monotonic parityPartition_reachableEq

/-- The equivalence hypothesis on the relation of the constructor is needed for
C15: under `leqRel`, which is not symmetric, the item 5 is a key and a member of
the class of 3; `Split(natEq)` founds a class for it with the index 2 that
`m_set.insert` drops, and the class founded for 9 gets the index 3 while `Size()`
is 3. -/
theorem leqPartition_index_gap :
    leqPartition.m_set = [(3, 1, [3, 5, 9]), (5, 0, [5])] ∧
    (leqPartition.Split natEq).m_set = [(3, 1, [3]), (5, 0, [5]), (9, 3, [9])] ∧
    (leqPartition.Split natEq).Index 9 = .ok 3 ∧
    (leqPartition.Split natEq).Size = 3 :=
  ⟨by decide, by decide, rfl, by decide⟩

theorem nearPartition_reachable : Reachable [5, 3] nearPartition :=
  Reachable.Append 3 (Reachable.Append 5 (Reachable.ctor nearEq))

theorem nearPartition_m_set : nearPartition.m_set = [(3, 1, [3]), (5, 0, [5])] := by decide

/-- C19: in every state (the class table being an ordered map), whatever the
relation is, if `m_eq(r, t)` holds for the representative `r` and `r` is the
smallest representative for which it holds, `Append(t)` puts `t` at the end of the
class of `r`, leaves every other class as it is, founds no class and records `r` as
the representative of `t`. -/
theorem C19_append_first_match_is_smallest_key [Inhabited T] {p : Partition T}
    (hw : ymap.WF p.m_set) (t r : T) (i : Nat) (v : List T)
    (hr : (r, (i, v)) ∈ p.m_set) (hm : p.m_eq r t = true)
    (hmin : ∀ r' c, (r', c) ∈ p.m_set → p.m_eq r' t = true → r ≤ r') :
    (r, (i, v ++ [t])) ∈ (p.Append t).m_set ∧
    (∀ r' c, r' ≠ r → ((r', c) ∈ (p.Append t).m_set ↔ (r', c) ∈ p.m_set)) ∧
    (p.Append t).m_set.map Prod.fst = p.m_set.map Prod.fst ∧
    (p.Append t).Size = p.Size ∧
    (p.Append t).Representative t = r := by
  rcases DoAppend_cases p.m_eq { set := p.m_set, inv := p.m_inv, maxidx := p.m_maxidx } t
    with ⟨pre, r1, i1, v1, post, h1, h2, h3, h4⟩ | ⟨h1, _⟩
  · have hset : p.m_set = pre ++ (r1, (i1, v1)) :: post := h1
    have hle : r ≤ r1 := hmin r1 (i1, v1) (by rw [hset]; simp) h3
    have hge : r1 ≤ r := by
      have hr' := hr
      rw [hset] at hr'
      rcases List.mem_append.mp hr' with hin | hin
      · have := h2 _ hin
        simp only at this
        rw [hm] at this
        cases this
      · rcases List.mem_cons.mp hin with hin | hin
        · cases hin; exact le_refl _
        · have hw : ymap.WF ((r1, (i1, v1)) :: post) := by
            have := hw
            rw [hset] at this
            exact (List.pairwise_append.mp this).2.1
          exact (ymap.WF_head_lt hw _ hin).le
    have e1 : r1 = r := le_antisymm hge hle
    subst e1
    have e2 : (i1, v1) = (i, v) := ymap.WF_key_unique hw (by rw [hset]; simp) hr
    cases e2
    have hS : (p.Append t).m_set = pre ++ (r1, (i, v ++ [t])) :: post := by
      show (DoAppend p.m_eq _ t).set = _
      rw [h4]
    have hI : (p.Append t).m_inv = ymap.assign p.m_inv t r1 := by
      show (DoAppend p.m_eq _ t).inv = _
      rw [h4]
    refine ⟨by rw [hS]; simp, ?_, by simp [hS, hset], by simp [Partition.Size, hS, hset], ?_⟩
    · intro r' c hne
      rw [hS, hset]
      simp only [List.mem_append, List.mem_cons, Prod.mk.injEq]
      constructor
      · rintro (h | ⟨e, _⟩ | h)
        · exact Or.inl h
        · exact absurd e hne
        · exact Or.inr (Or.inr h)
      · rintro (h | ⟨e, _⟩ | h)
        · exact Or.inl h
        · exact absurd e hne
        · exact Or.inr (Or.inr h)
    · simp [Partition.Representative, hI, ymap.find_assign]
  · have := h1 (r, (i, v)) hr
    rw [hm] at this
    cases this

theorem C19_witness :
    (3, (1, [3] ++ [4])) ∈ (nearPartition.Append 4).m_set ∧
    (∀ r' c, r' ≠ 3 → ((r', c) ∈ (nearPartition.Append 4).m_set ↔
      (r', c) ∈ nearPartition.m_set)) ∧
    (nearPartition.Append 4).m_set.map Prod.fst = nearPartition.m_set.map Prod.fst ∧
    (nearPartition.Append 4).Size = nearPartition.Size ∧
    (nearPartition.Append 4).Representative 4 = 3 :=
  C19_append_first_match_is_smallest_key nearPartition_reachable.rawInv.wf 4 3 1 [3] (by decide)
    (by decide)
    (by
      intro r' c hc _
      rw [nearPartition_m_set] at hc
      simp only [List.mem_cons, Prod.mk.injEq, List.mem_nil_iff, or_false] at hc
      rcases hc with ⟨rfl, _⟩ | ⟨rfl, _⟩ <;> decide)

/-- An iteration of `Split` either changes nothing or moves the counter. -/
theorem SplitStep_eq_or_maxidx_lt (p : Partition T) (k : T) :
    SplitStep p k = p ∨ p.m_maxidx < (SplitStep p k).m_maxidx := by
  rcases hf : ymap.find p.m_set k with _ | ⟨i, v⟩
  · left; simp [SplitStep, hf]
  · rcases v with _ | ⟨v0, _ | ⟨v1, rest⟩⟩
    · left; simp [SplitStep, hf]
    · left; simp [SplitStep, hf]
    · rcases hb : (stdPartition (fun x => p.m_eq x v0) (v0 :: v1 :: rest)).2 with _ | ⟨t, l⟩
      · left
        have h1 := stdPartition_of_snd_nil _ _ hb
        simp only [SplitStep, hf, hb, if_true, h1]
        rw [ymap.update_id _ hf rfl]
      · right
        simp only [SplitStep, hf, hb]
        exact foldl_DoAppend_maxidx_lt _ _ _ _ _

/-- A `Split` that leaves the counter where it was only replaces the active
relation. -/
theorem Split_eq_of_maxidx (p : Partition T) (eq : T → T → Bool)
    (h : (p.Split eq).m_maxidx = p.m_maxidx) : p.Split eq = { p with m_eq := eq } := by
  have key := SplitLoop_keeps
    (fun q => p.m_maxidx ≤ q.m_maxidx ∧ (q.m_maxidx = p.m_maxidx → q = { p with m_eq := eq }))
    (fun q k hq => by
      rcases SplitStep_eq_or_maxidx_lt q k with e | e
      · rw [e]; exact hq
      · exact ⟨le_trans hq.1 e.le, fun e' => by omega⟩)
    (Partition.items p.m_set).length { p with m_eq := eq } (ymap.beginKey p.m_set)
    ⟨le_refl _, fun _ => rfl⟩
  exact key.2 h

/-- C20: in every state reached under equivalence relations and for every
equivalence relation `eq` implying the active one, `Split(eq)` does not lower
`Size`; `Size` is as before exactly when the class table is as before; and the class
table is as before exactly when `eq` holds between every member of every class and
its representative (no member is pulled out). -/
theorem C20_size_unchanged_iff_nothing_split {h : List T} {p : Partition T}
    (R : ReachableEq h p) (eq : T → T → Bool) (he : IsEquivRel eq)
    (hr : Refines eq p.m_eq) :
    p.Size ≤ (p.Split eq).Size ∧
    ((p.Split eq).Size = p.Size ↔ (p.Split eq).m_set = p.m_set) ∧
    ((p.Split eq).m_set = p.m_set ↔
      ∀ r i v, (r, (i, v)) ∈ p.m_set → ∀ x ∈ v, eq x r = true) := by
  have R' := ReachableEq.Split eq he hr R
  have F := Frame_Split p eq
  refine ⟨?_, ⟨?_, ?_⟩, ⟨?_, ?_⟩⟩
  · rw [R.size_eq, R'.size_eq]; exact F.maxidx
  · intro hs
    rw [R.size_eq, R'.size_eq] at hs
    rw [Split_eq_of_maxidx p eq hs]
  · intro hs
    simp [Partition.Size, hs]
  · intro hs r i v hm x hx
    have hm' : (r, (i, v)) ∈ (p.Split eq).m_set := by rw [hs]; exact hm
    have := R'.splitInv.rel r i v hm' (fun k hk => by cases hk) x hx
    rw [Split_m_eq] at this
    exact he.symm r x this
  · intro hall
    rw [Split_eq_of_no_pull p eq (fun r i v0 tl hm x hx => by
      obtain ⟨tl', e⟩ := R.splitInv.head r i _ hm
      have e0 : v0 = r := by cases e; rfl
      rw [e0]
      exact hall r i _ hm x hx)]

theorem C20_witness :
    parityPartition.Size ≤ (parityPartition.Split natEq).Size ∧
    ((parityPartition.Split natEq).Size = parityPartition.Size ↔
      (parityPartition.Split natEq).m_set = parityPartition.m_set) ∧
    ((parityPartition.Split natEq).m_set = parityPartition.m_set ↔
      ∀ r i v, (r, (i, v)) ∈ parityPartition.m_set → ∀ x ∈ v, natEq x r = true) :=
  C20_size_unchanged_iff_nothing_split parityPartition_reachableEq natEq natEq_equiv
    natEq_refines_sameParity

end Pire

namespace Pire

variable {T : Type} [LinearOrder T]

/-! ## The member sequences -/

theorem IsEquivRel.comm {eq : T → T → Bool} (he : IsEquivRel eq) (a b : T) :
    eq a b = eq b a := by
  rcases hab : eq a b with _ | _
  · exact (he.symm_false hab).symm
  · exact (he.symm a b hab).symm

/-- A run of `DoAppend` over the list `l` puts behind the members of each class,
in the order of `l`, the items of `l` related to its key; a class founded during
the run lists exactly those. -/
theorem foldl_DoAppend_members {eq : T → T → Bool} (he : IsEquivRel eq) (l : List T) :
    ∀ s : AppendState T, ClassInv eq s → ∀ r i w, (r, (i, w)) ∈ (l.foldl (DoAppend eq) s).set →
      (∃ w0, (r, (i, w0)) ∈ s.set ∧ w = w0 ++ l.filter (fun x => eq r x)) ∨
      ((∀ c, (r, c) ∉ s.set) ∧ w = l.filter (fun x => eq r x)) := by
  induction l with
  | nil =>
    intro s _ r i w hm
    exact Or.inl ⟨w, hm, by simp⟩
  | cons t l ih =>
    intro s C r i w hm
    simp only [List.foldl_cons] at hm
    obtain ⟨C1, r0, _, hr0⟩ := DoAppend_equiv he C t
    obtain ⟨C2, g2, _⟩ := foldl_DoAppend_equiv he l (DoAppend eq s t) C1
    have A := DoAppend_raw eq s t
    rcases ih (DoAppend eq s t) C1 r i w hm with ⟨w1, hw1, hw⟩ | ⟨hnk, hw⟩
    · rcases DoAppend_cases eq s t with ⟨pre, r1, i1, v1, post, h1, h2, h3, h4⟩ | ⟨h1, h4⟩
      · have hmid : (r1, (i1, v1 ++ [t])) ∈ (DoAppend eq s t).set := by rw [h4]; simp
        have hr1 : (r1, (i1, v1)) ∈ s.set := by rw [h1]; simp
        by_cases hrr : r = r1
        · subst hrr
          have := ymap.WF_key_unique C1.wf hw1 hmid
          cases this
          left
          refine ⟨v1, hr1, ?_⟩
          rw [hw]
          simp [List.filter_cons, h3]
        · have hold : (r, (i, w1)) ∈ s.set := by
            rw [h4] at hw1
            simp only [List.mem_append, List.mem_cons, Prod.mk.injEq] at hw1
            rw [h1]
            rcases hw1 with h | ⟨e, _⟩ | h
            · simp [h]
            · exact absurd e hrr
            · simp [h]
          have hrt : eq r t = false := by
            have h5 := C.sepR r1 _ r _ hr1 hold (Ne.symm hrr)
            exact he.symm_false (he.false_of h3 h5)
          left
          refine ⟨w1, hold, ?_⟩
          rw [hw]
          simp [List.filter_cons, hrt]
      · rw [h4] at hw1
        rcases ymap.mem_insert hw1 with hold | hnew
        · have hrt : eq r t = false := h1 _ hold
          left
          refine ⟨w1, hold, ?_⟩
          rw [hw]
          simp [List.filter_cons, hrt]
        · cases hnew
          right
          refine ⟨?_, ?_⟩
          · intro c hc
            have := h1 _ hc
            simp only at this
            rw [he.refl _] at this
            cases this
          · rw [hw]
            simp [List.filter_cons, he.refl]
    · right
      have hnk0 : ∀ c, (r, c) ∉ s.set := by
        rintro ⟨i0, v0⟩ hc
        obtain ⟨v', hv', _⟩ := A.keep r i0 v0 hc
        exact hnk _ hv'
      refine ⟨hnk0, ?_⟩
      have hrt : eq r t = false := by
        obtain ⟨j, u, hu, htu⟩ := hr0
        have hne : r0 ≠ r := by
          intro e
          rw [e] at hu
          exact hnk _ hu
        obtain ⟨j', u', hu', _⟩ := g2 r0 t ⟨j, u, hu, htu⟩
        have h5 := C2.sepR r0 _ r _ hu' hm hne
        have h6 := C1.rel r0 j u hu t htu
        exact he.symm_false (he.false_of h6 h5)
      rw [hw]
      simp [List.filter_cons, hrt]

theorem stdPartition_fst_perm {T : Type} (pred : T → Bool) (v : List T) :
    (stdPartition pred v).1.Perm (v.filter pred) := by
  have h := (stdPartition_perm pred v).filter pred
  rw [List.filter_append] at h
  have h1 : (stdPartition pred v).1.filter pred = (stdPartition pred v).1 :=
    List.filter_eq_self.mpr (stdPartition_fst pred v)
  have h2 : (stdPartition pred v).2.filter pred = [] :=
    List.filter_eq_nil_iff.mpr (fun x hx => by simp [stdPartition_snd pred v x hx])
  rw [h1, h2, List.append_nil] at h
  exact h

theorem stdPartition_snd_perm {T : Type} (pred : T → Bool) (v : List T) :
    (stdPartition pred v).2.Perm (v.filter (fun x => !pred x)) := by
  have h := (stdPartition_perm pred v).filter (fun x => !pred x)
  rw [List.filter_append] at h
  have h1 : (stdPartition pred v).2.filter (fun x => !pred x) = (stdPartition pred v).2 :=
    List.filter_eq_self.mpr (fun x hx => by simp [stdPartition_snd pred v x hx])
  have h2 : (stdPartition pred v).1.filter (fun x => !pred x) = [] :=
    List.filter_eq_nil_iff.mpr (fun x hx => by simp [stdPartition_fst pred v x hx])
  rw [h1, h2, List.nil_append] at h
  exact h

/-- If `v` is a rearrangement of the items of `h` that satisfy `a`, and `b` implies
`a`, the elements of `v` that satisfy `b` are a rearrangement of the items of `h`
that satisfy `b`. -/
theorem perm_filter_of_imp {T : Type} {h v : List T} {a b : T → Bool}
    (hv : v.Perm (h.filter a)) (hab : ∀ x, b x = true → a x = true) :
    (v.filter b).Perm (h.filter b) := by
  have h1 := hv.filter b
  rw [List.filter_filter] at h1
  have h2 : h.filter (fun x => b x && a x) = h.filter b := by
    apply List.filter_congr
    intro x _
    rcases hb : b x with _ | _
    · simp
    · simp [hab x hb]
  rw [h2] at h1
  exact h1

end Pire

namespace Pire

variable {T : Type} [LinearOrder T]

/-- The members of the class the iterator is at that are related to its key by the
new relation are a rearrangement of the appended items related to its key. -/
theorem members_filter_perm {h v : List T} {new old : T → T → Bool} {k : T}
    (hr : Refines new old)
    (M : v.Perm (h.filter (fun x => new k x)) ∨ v.Perm (h.filter (fun x => old k x))) :
    (v.filter (fun x => new k x)).Perm (h.filter (fun x => new k x)) := by
  rcases M with M | M
  · exact perm_filter_of_imp M (fun x hx => hx)
  · exact perm_filter_of_imp M (fun x hx => hr k x hx)

/-- One iteration of `Split` keeps: every class lists a rearrangement of the
appended items related to its key by the new or by the old relation, by the new one
if the iterator has passed the class. -/
theorem Members_SplitStep {h : List T} {old : T → T → Bool} {p : Partition T} {k : T}
    (he : IsEquivRel p.m_eq) (ho : IsEquivRel old) (hr : Refines p.m_eq old)
    (J : SplitInv p (some k))
    (M : ∀ r i v, (r, (i, v)) ∈ p.m_set →
      v.Perm (h.filter (fun x => p.m_eq r x)) ∨ v.Perm (h.filter (fun x => old r x)))
    (Mlt : ∀ r i v, (r, (i, v)) ∈ p.m_set → r < k →
      v.Perm (h.filter (fun x => p.m_eq r x))) :
    (∀ r i v, (r, (i, v)) ∈ (SplitStep p k).m_set →
      v.Perm (h.filter (fun x => p.m_eq r x)) ∨ v.Perm (h.filter (fun x => old r x))) ∧
    (∀ r i v, (r, (i, v)) ∈ (SplitStep p k).m_set →
      (∀ k', ymap.nextKey (SplitStep p k).m_set k = some k' → r < k') →
      v.Perm (h.filter (fun x => p.m_eq r x))) := by
  have J' := SplitInv_SplitStep he J
  by_cases hbig : ∃ i v0 v1 rest, ymap.find p.m_set k = some (i, v0 :: v1 :: rest)
  · obtain ⟨i, v0, v1, rest, hf⟩ := hbig
    have hk : (k, (i, v0 :: v1 :: rest)) ∈ p.m_set := ymap.find_mem hf
    obtain ⟨tl, htl⟩ := J.head k i _ hk
    have hv0 : v0 = k := by cases htl; rfl
    subst hv0
    have hcomm : (fun x => p.m_eq x v0) = (fun x => p.m_eq v0 x) := by
      funext x; exact he.comm x v0
    have hkept : (stdPartition (fun x => p.m_eq x v0) (v0 :: v1 :: rest)).1.Perm
        (h.filter (fun x => p.m_eq v0 x)) := by
      have h1 := stdPartition_fst_perm (fun x => p.m_eq x v0) (v0 :: v1 :: rest)
      rw [hcomm] at h1 ⊢
      exact h1.trans (members_filter_perm hr (M v0 i _ hk))
    have hD : ∀ r i' w, (r, (i', w)) ∈
        ((stdPartition (fun x => p.m_eq x v0) (v0 :: v1 :: rest)).2.foldl (DoAppend p.m_eq)
          { set := [], inv := p.m_inv, maxidx := p.m_maxidx }).set →
        w.Perm (h.filter (fun x => p.m_eq r x)) := by
      intro r i' w hm
      have hrp : r ∈ (stdPartition (fun x => p.m_eq x v0) (v0 :: v1 :: rest)).2 := by
        rcases (foldl_DoAppend_raw p.m_eq _ _).back r i' w hm with ⟨v', hv', _⟩ | h1
        · simp at hv'
        · exact h1.1
      obtain ⟨hrv, hrk⟩ := (stdPartition_mem_snd (fun x => p.m_eq x v0) _ r).mp hrp
      have hw : w = (stdPartition (fun x => p.m_eq x v0) (v0 :: v1 :: rest)).2.filter
          (fun x => p.m_eq r x) := by
        rcases foldl_DoAppend_members he _ _ (ClassInv_empty _ _ _) r i' w hm
          with ⟨w0, hw0, _⟩ | ⟨_, hw⟩
        · simp at hw0
        · exact hw
      rw [hw]
      have h1 := (stdPartition_snd_perm (fun x => p.m_eq x v0) (v0 :: v1 :: rest)).filter
        (fun x => p.m_eq r x)
      refine h1.trans ?_
      rcases M v0 i _ hk with Mn | Mo
      · have : r ∈ h.filter (fun x => p.m_eq v0 x) := Mn.subset hrv
        have h2 : p.m_eq v0 r = true := by simpa using (List.mem_filter.mp this).2
        rw [he.symm _ _ h2] at hrk
        cases hrk
      · have hor : old v0 r = true := by
          have : r ∈ h.filter (fun x => old v0 x) := Mo.subset hrv
          simpa using (List.mem_filter.mp this).2
        have h2 := Mo.filter (fun x => !p.m_eq x v0)
        rw [List.filter_filter] at h2
        refine perm_filter_of_imp h2 ?_
        intro x hx
        have h3 : p.m_eq x v0 = false := by
          rcases hxk : p.m_eq x v0 with _ | _
          · rfl
          · rw [he.trans _ _ _ hx hxk] at hrk
            cases hrk
        have h4 : old v0 x = true := ho.trans _ _ _ hor (hr _ _ hx)
        simp [h3, h4]
    have hcls : ∀ r i' w, (r, (i', w)) ∈ (SplitStep p v0).m_set →
        w.Perm (h.filter (fun x => p.m_eq r x)) ∨
        (r ≠ v0 ∧ (r, (i', w)) ∈ p.m_set) := by
      intro r i' w hm
      rw [SplitStep_big p v0 i v0 v1 rest hf] at hm
      rcases ymap.mem_insertRange hm with hu | hd
      · by_cases hrk : r = v0
        · subst hrk
          have hself := ymap.mem_update_self
            (fun c => (c.1, (stdPartition (fun x => p.m_eq x r) (r :: v1 :: rest)).1)) hf
          have := ymap.WF_key_unique (ymap.WF_update J.wf _ _) hu hself
          cases this
          exact Or.inl hkept
        · rcases ymap.mem_update _ hf hu with h1 | h1
          · exact Or.inr ⟨hrk, h1⟩
          · cases h1
            exact absurd rfl hrk
      · exact Or.inl (hD r i' w hd)
    refine ⟨?_, ?_⟩
    · intro r i' w hm
      rcases hcls r i' w hm with h1 | ⟨_, h1⟩
      · exact Or.inl h1
      · exact M r i' w h1
    · intro r i' w hm hcur
      rcases hcls r i' w hm with h1 | ⟨hne, h1⟩
      · exact h1
      · have hle : r ≤ v0 := le_of_lt_nextKey J'.wf hm hcur
        exact Mlt r i' w h1 (lt_of_le_of_ne hle hne)
  · have hs : SplitStep p k = p :=
      SplitStep_small p k (fun i v0 v1 rest hf => hbig ⟨i, v0, v1, rest, hf⟩)
    rw [hs]
    refine ⟨M, ?_⟩
    intro r i v hm hcur
    have hle : r ≤ k := le_of_lt_nextKey J.wf hm hcur
    rcases lt_or_eq_of_le hle with hlt | heq
    · exact Mlt r i v hm hlt
    · subst heq
      obtain ⟨tl, htl⟩ := J.head r i v hm
      subst htl
      have hf := ymap.find_of_mem J.wf hm
      cases tl with
      | nil =>
        have := members_filter_perm (h := h) hr (M r i [r] hm)
        simpa [List.filter_cons, he.refl r] using this
      | cons a tl => exact absurd ⟨i, r, a, tl, hf⟩ hbig

/-- `Split` under an equivalence relation that implies the active one keeps: every
class lists a rearrangement of the appended items related to its key. -/
theorem Members_Split {h : List T} {p : Partition T} {eq : T → T → Bool}
    (he : IsEquivRel eq) (ho : IsEquivRel p.m_eq) (hr : Refines eq p.m_eq)
    (J : SplitInv p none)
    (M : ∀ r i v, (r, (i, v)) ∈ p.m_set → v.Perm (h.filter (fun x => p.m_eq r x))) :
    ∀ r i v, (r, (i, v)) ∈ (p.Split eq).m_set → v.Perm (h.filter (fun x => eq r x)) := by
  unfold Partition.Split
  have hrule := SplitLoop_rule
    (fun q cur => q.m_eq = eq ∧ SplitInv q cur ∧
      (∀ r i v, (r, (i, v)) ∈ q.m_set →
        v.Perm (h.filter (fun x => eq r x)) ∨ v.Perm (h.filter (fun x => p.m_eq r x))) ∧
      (∀ r i v, (r, (i, v)) ∈ q.m_set → (∀ k, cur = some k → r < k) →
        v.Perm (h.filter (fun x => eq r x))))
    (fun q k hq => by
      obtain ⟨hqe, Jq, M1, M2⟩ := hq
      have he' : IsEquivRel q.m_eq := by rw [hqe]; exact he
      have hr' : Refines q.m_eq p.m_eq := by rw [hqe]; exact hr
      have S := Members_SplitStep (h := h) he' ho hr' Jq
        (by rw [hqe]; exact M1)
        (by
          rw [hqe]
          intro r i v hm hlt
          exact M2 r i v hm (fun k0 hk0 => by cases hk0; exact hlt))
      rw [hqe] at S
      exact ⟨(SplitStep_m_eq q k).trans hqe, SplitInv_SplitStep he' Jq, S.1, S.2⟩)
    (Partition.items p.m_set).length { p with m_eq := eq } (ymap.beginKey p.m_set)
    (SplitMeasure_begin { p with m_eq := eq })
    ⟨rfl, SplitInv_start hr J, fun r i v hm => Or.inr (M r i v hm), by
      intro r i v hm hcur
      rcases hb : ymap.beginKey p.m_set with _ | k
      · have := ymap.beginKey_none hb
        have hm' : (r, (i, v)) ∈ p.m_set := hm
        rw [this] at hm'
        simp at hm'
      · have h1 : k ≤ r := ymap.beginKey_some J.wf hb (show (r, (i, v)) ∈ p.m_set from hm)
        exact absurd (hcur k hb) (not_lt.mpr h1)⟩
  intro r i v hm
  exact hrule.2.2.2 r i v hm (fun k hk => by cases hk)

/-- A run of `Append` is a run of `DoAppend` on the class table. -/
theorem foldl_Append_eq (l : List T) : ∀ p : Partition T,
    l.foldl Partition.Append p =
      { m_eq := p.m_eq,
        m_set := (l.foldl (DoAppend p.m_eq)
          { set := p.m_set, inv := p.m_inv, maxidx := p.m_maxidx }).set,
        m_inv := (l.foldl (DoAppend p.m_eq)
          { set := p.m_set, inv := p.m_inv, maxidx := p.m_maxidx }).inv,
        m_maxidx := (l.foldl (DoAppend p.m_eq)
          { set := p.m_set, inv := p.m_inv, maxidx := p.m_maxidx }).maxidx } := by
  induction l with
  | nil => intro p; rfl
  | cons t l ih =>
    intro p
    simp only [List.foldl_cons]
    rw [ih (p.Append t)]
    rfl

/-- `Append` keeps: every class lists a rearrangement of the appended items related
to its key. -/
theorem Members_Append {h : List T} {p : Partition T} (R : ReachableEq h p)
    (M : ∀ r i v, (r, (i, v)) ∈ p.m_set → v.Perm (h.filter (fun x => p.m_eq r x)))
    (t : T) :
    ∀ r i v, (r, (i, v)) ∈ (p.Append t).m_set →
      v.Perm ((h ++ [t]).filter (fun x => p.m_eq r x)) := by
  intro r i w hm
  have he := R.equiv
  have J := R.splitInv
  have J' := SplitInv_Append he J t
  have A := DoAppend_raw p.m_eq { set := p.m_set, inv := p.m_inv, maxidx := p.m_maxidx } t
  rw [List.filter_append]
  rcases foldl_DoAppend_members he [t] _ (ClassInv_of_SplitInv he J) r i w hm
    with ⟨w0, hw0, hw⟩ | ⟨hnk, hw⟩
  · rw [hw]
    exact (M r i w0 hw0).append_right _
  · have hnil : h.filter (fun x => p.m_eq r x) = [] := by
      apply List.filter_eq_nil_iff.mpr
      intro x hx
      obtain ⟨r0, j, u, _, hu, hxu, _⟩ := R.class_of hx
      have hne : r0 ≠ r := by
        intro e
        rw [e] at hu
        exact hnk _ hu
      obtain ⟨u', hu', hgrow⟩ := A.keep r0 j u hu
      have hxu' : x ∈ u' := by
        rcases hgrow with e | e
        · rw [e]; exact hxu
        · rw [e]; simp [hxu]
      obtain ⟨tl, htl⟩ := J'.head r i w hm
      have := J'.sep r0 j u' r i w hu' hm hne x hxu' r (by rw [htl]; simp)
      have h2 : p.m_eq r x = false := he.symm_false this
      simp [h2]
    rw [hnil, hw]
    simp

/-- In a state reached under equivalence relations every class lists a
rearrangement of the appended items related to its key. -/
theorem ReachableEq.members_perm {h : List T} {p : Partition T} (R : ReachableEq h p) :
    ∀ r i v, (r, (i, v)) ∈ p.m_set → v.Perm (h.filter (fun x => p.m_eq r x)) := by
  induction R with
  | ctor eq _ =>
    intro r i v hm
    simp [Partition.ctor] at hm
  | Append t R ih => exact Members_Append R ih t
  | Split eq he hr R ih =>
    intro r i v hm
    rw [Split_m_eq]
    exact Members_Split he R.equiv hr R.splitInv ih r i v hm

theorem allEq_equiv : IsEquivRel allEq :=
  ⟨fun _ => rfl, fun _ _ _ => rfl, fun _ _ _ _ _ => rfl⟩

theorem allPartition_reachableEq : ReachableEq [1, 2, 3, 5] allPartition :=
  ReachableEq.Append 5 (ReachableEq.Append 3 (ReachableEq.Append 2 (ReachableEq.Append 1
    (ReachableEq.ctor allEq allEq_equiv))))

theorem allPartitionB_reachableEq : ReachableEq [1, 2, 4, 3] allPartitionB :=
  ReachableEq.Append 3 (ReachableEq.Append 4 (ReachableEq.Append 2 (ReachableEq.Append 1
    (ReachableEq.ctor allEq allEq_equiv))))

/-- C13 as stated fails: `std::partition` does not keep the relative order of the
elements.  After `Append(1); Append(2); Append(3); Append(5)` under the relation
that always holds, `Split(sameParity)` leaves the class of 1 with the members
`[1, 5, 3]`, although 3 was appended before 5; after `Append(1); Append(2);
Append(4); Append(3)` it founds the class `[4, 2]`, although 2 was appended before
4.  So it is not true that in every state reached under equivalence relations the
member sequences follow the order of the appends. -/
theorem C13_counterexample :
    allPartition.Klass 1 = .ok [1, 2, 3, 5] ∧
    (allPartition.Split sameParity).Klass 1 = .ok [1, 5, 3] ∧
    allPartitionB.Klass 1 = .ok [1, 2, 4, 3] ∧
    (allPartitionB.Split sameParity).Klass 2 = .ok [4, 2] ∧
    ¬ (∀ (h : List Nat) (p : Partition Nat), ReachableEq h p →
        ∀ r i v, (r, (i, v)) ∈ p.m_set → List.Sublist v h) := by
  refine ⟨rfl, rfl, rfl, rfl, ?_⟩
  intro hall
  have R := ReachableEq.Split sameParity sameParity_equiv
    (fun _ _ _ => rfl) allPartition_reachableEq
  have hm : ((1 : Nat), ((0 : Nat), [1, 5, 3])) ∈ (allPartition.Split sameParity).m_set := by
    decide
  have := hall _ _ R 1 0 [1, 5, 3] hm
  revert this
  decide

/-- C13 (amended): in every state reached under equivalence relations the member
sequence of every class begins with the representative and is a rearrangement of
the appended items related to the representative, each as often as it was appended;
and a run of `Append` calls puts the appended items behind the members of their
classes in the order of the calls, so that without `Split` the members of every
class stand in the order in which they were appended. -/
theorem C13_members_are_a_rearrangement_in_append_order_until_split
    {h : List T} {p : Partition T} (R : ReachableEq h p) :
    (∀ r i v, (r, (i, v)) ∈ p.m_set →
      v.head? = some r ∧ v.Perm (h.filter (fun x => p.m_eq r x))) ∧
    (∀ (l : List T) r i w, (r, (i, w)) ∈ (l.foldl Partition.Append p).m_set →
      (∃ v, (r, (i, v)) ∈ p.m_set ∧ w = v ++ l.filter (fun x => p.m_eq r x)) ∨
      ((∀ c, (r, c) ∉ p.m_set) ∧ w = l.filter (fun x => p.m_eq r x))) := by
  refine ⟨?_, ?_⟩
  · intro r i v hm
    obtain ⟨tl, htl⟩ := R.splitInv.head r i v hm
    exact ⟨by rw [htl]; rfl, R.members_perm r i v hm⟩
  · intro l r i w hm
    rw [foldl_Append_eq] at hm
    exact foldl_DoAppend_members R.equiv l _ (ClassInv_of_SplitInv R.equiv R.splitInv) r i w hm

theorem C13_witness :
    (∀ r i v, (r, (i, v)) ∈ (Partition.ctor sameParity).m_set →
      v.head? = some r ∧
      v.Perm (([] : List Nat).filter (fun x => (Partition.ctor sameParity).m_eq r x))) ∧
    (∀ (l : List Nat) r i w,
      (r, (i, w)) ∈ (l.foldl Partition.Append (Partition.ctor sameParity)).m_set →
      (∃ v, (r, (i, v)) ∈ (Partition.ctor sameParity).m_set ∧
        w = v ++ l.filter (fun x => (Partition.ctor sameParity).m_eq r x)) ∨
      ((∀ c, (r, c) ∉ (Partition.ctor sameParity).m_set) ∧
        w = l.filter (fun x => (Partition.ctor sameParity).m_eq r x))) :=
  C13_members_are_a_rearrangement_in_append_order_until_split
    (ReachableEq.ctor sameParity sameParity_equiv)

end Pire

namespace Pire

namespace ymap

variable {K V : Type} [LinearOrder K]

/-- Two ordered maps with the same entries are the same list. -/
theorem WF_ext {a b : List (K × V)} (ha : WF a) (hb : WF b)
    (h : ∀ x, x ∈ a ↔ x ∈ b) : a = b := by
  induction a generalizing b with
  | nil =>
    cases b with
    | nil => rfl
    | cons y b => exact absurd ((h y).mpr (by simp)) (by simp)
  | cons x a ih =>
    cases b with
    | nil => exact absurd ((h x).mp (by simp)) (by simp)
    | cons y b =>
      have hxy : x = y := by
        have hx : x ∈ y :: b := (h x).mp (by simp)
        have hy : y ∈ x :: a := (h y).mpr (by simp)
        rcases List.mem_cons.mp hx with e | hx'
        · exact e
        · rcases List.mem_cons.mp hy with e | hy'
          · exact e.symm
          · have h1 := WF_head_lt hb x hx'
            have h2 := WF_head_lt ha y hy'
            exact absurd h1 (not_lt.mpr (le_of_lt h2))
      subst hxy
      congr 1
      refine ih (WF_tail ha) (WF_tail hb) ?_
      intro z
      constructor
      · intro hz
        have h1 := WF_head_lt ha z hz
        rcases List.mem_cons.mp ((h z).mp (List.mem_cons_of_mem _ hz)) with e | hz'
        · rw [e] at h1; exact absurd h1 (lt_irrefl _)
        · exact hz'
      · intro hz
        have h1 := WF_head_lt hb z hz
        rcases List.mem_cons.mp ((h z).mpr (List.mem_cons_of_mem _ hz)) with e | hz'
        · rw [e] at h1; exact absurd h1 (lt_irrefl _)
        · exact hz'

/-- Assigning the value a key already has changes nothing. -/
theorem assign_of_find {m : List (K × V)} {k : K} {v : V} (h : find m k = some v) :
    assign m k v = m := by
  induction m with
  | nil => simp [find] at h
  | cons a m ih =>
    obtain ⟨k', v'⟩ := a
    simp only [find] at h
    simp only [assign]
    by_cases h1 : k' < k
    · rw [if_pos h1] at h ⊢
      rw [ih h]
    · rw [if_neg h1] at h ⊢
      by_cases h2 : k' = k
      · rw [if_pos h2] at h ⊢
        cases h
        rfl
      · rw [if_neg h2] at h
        cases h

theorem mem_update_iff {m : List (K × V)} (hw : WF m) {k : K} {c : V} (f : V → V)
    (h : find m k = some c) (x : K × V) :
    x ∈ update m k f ↔ (x ∈ m ∧ x.1 ≠ k) ∨ x = (k, f c) := by
  constructor
  · intro hx
    by_cases hk : x.1 = k
    · right
      have hs := mem_update_self f h
      obtain ⟨x1, x2⟩ := x
      simp only at hk
      subst hk
      rw [WF_key_unique (WF_update hw _ f) hx hs]
    · rcases mem_update f h hx with h1 | h1
      · exact Or.inl ⟨h1, hk⟩
      · exact Or.inr h1
  · rintro (⟨h1, h2⟩ | h1)
    · rcases mem_update_of_mem f h h1 with h3 | h3
      · exact h3
      · rw [h3] at h2
        exact absurd rfl h2
    · rw [h1]
      exact mem_update_self f h

/-- The entries behind the key `k` are not touched by an update at `k`. -/
theorem filter_update (m : List (K × V)) (k : K) (f : V → V) :
    (update m k f).filter (fun e => decide (k < e.1)) =
      m.filter (fun e => decide (k < e.1)) := by
  induction m with
  | nil => rfl
  | cons a m ih =>
    obtain ⟨k', v⟩ := a
    simp only [update]
    by_cases h1 : k' < k
    · rw [if_pos h1]
      simp [List.filter_cons, not_lt.mpr (le_of_lt h1), ih]
    · rw [if_neg h1]
      by_cases h2 : k' = k
      · rw [if_pos h2]
        subst h2
        simp [List.filter_cons]
      · rw [if_neg h2]

/-- The entries from the key `k` on are the entry of `k` and the entries behind. -/
theorem filter_le_eq_cons {m : List (K × V)} (hw : WF m) {e : K × V} (he : e ∈ m) :
    m.filter (fun x => decide (e.1 ≤ x.1)) = e :: m.filter (fun x => decide (e.1 < x.1)) := by
  induction m with
  | nil => simp at he
  | cons a m ih =>
    rcases List.mem_cons.mp he with h1 | h1
    · subst h1
      have hall : ∀ x ∈ m, e.1 < x.1 := WF_head_lt hw
      have h2 : m.filter (fun x => decide (e.1 ≤ x.1)) = m.filter (fun x => decide (e.1 < x.1)) := by
        apply List.filter_congr
        intro x hx
        simp [hall x hx, le_of_lt (hall x hx)]
      simp [List.filter_cons, h2]
    · have hlt : a.1 < e.1 := WF_head_lt hw e h1
      simp [List.filter_cons, not_le.mpr hlt, not_lt.mpr (le_of_lt hlt), ih (WF_tail hw) h1]

end ymap

variable {T : Type} [LinearOrder T]

/-- The reverse-map update of the specified merge changes nothing if the reverse
map already sends every item of a temporary class to the key of the class. -/
theorem SplitSpecInv_id (temp : Partition.Set T) : ∀ (inv : List (T × T)),
    (∀ e ∈ temp, ∀ x ∈ e.2.2, ymap.find inv x = some e.1) → SplitSpecInv inv temp = inv := by
  have inner : ∀ (w : List T) (r : T) (m : List (T × T)),
      (∀ x ∈ w, ymap.find m x = some r) →
      w.foldl (fun m x => ymap.assign m x r) m = m := by
    intro w r
    induction w with
    | nil => intro m _; rfl
    | cons x w ih =>
      intro m h
      simp only [List.foldl_cons]
      rw [ymap.assign_of_find (h x (by simp))]
      exact ih m (fun y hy => h y (List.mem_cons_of_mem _ hy))
  induction temp with
  | nil => intro inv _; rfl
  | cons e temp ih =>
    intro inv h
    simp only [SplitSpecInv, List.foldl_cons]
    rw [inner e.2.2 e.1 inv (h e (by simp))]
    exact ih inv (fun e' he' => h e' (List.mem_cons_of_mem _ he'))

theorem SplitTodo_begin {m : Partition.Set T} (hw : ymap.WF m) :
    SplitTodo m (ymap.beginKey m) = m := by
  cases m with
  | nil => rfl
  | cons e m =>
    show (e :: m).filter (fun x => decide (e.1 ≤ x.1)) = e :: m
    apply List.filter_eq_self.mpr
    intro x hx
    rcases List.mem_cons.mp hx with h | h
    · simp [h]
    · simp [le_of_lt (ymap.WF_head_lt hw x h)]

/-- The classes behind the iterator are the classes from the next iterator on. -/
theorem SplitTodo_next {M Q : Partition.Set T} (hQ : ymap.WF Q) (hsub : ∀ x ∈ M, ∃ c, (x.1, c) ∈ Q)
    (k : T) :
    M.filter (fun e => decide (k < e.1)) = SplitTodo M (ymap.nextKey Q k) := by
  rcases hn : ymap.nextKey Q k with _ | k'
  · show _ = []
    apply List.filter_eq_nil_iff.mpr
    intro x hx
    obtain ⟨c, hc⟩ := hsub x hx
    have := ymap.nextKey_none hn hc
    simpa using this
  · show _ = M.filter (fun e => decide (k' ≤ e.1))
    apply List.filter_congr
    intro x hx
    obtain ⟨c, hc⟩ := hsub x hx
    have hkk := (ymap.nextKey_some hn).1
    by_cases h1 : k' ≤ x.1
    · simp [h1, lt_of_lt_of_le hkk h1]
    · have := ymap.nextKey_some_between hQ hn hc (not_le.mp h1)
      simp only at this
      simp [h1, not_lt.mpr this]

/-- A key that is not a key of the main table is skipped. -/
theorem SplitTodo_skip {M Q : Partition.Set T} (hQ : ymap.WF Q)
    (hsub : ∀ x ∈ M, ∃ c, (x.1, c) ∈ Q) (k : T) (hk : ∀ x ∈ M, x.1 ≠ k) :
    SplitTodo M (some k) = SplitTodo M (ymap.nextKey Q k) := by
  rw [← SplitTodo_next hQ hsub k]
  show M.filter (fun e => decide (k ≤ e.1)) = _
  apply List.filter_congr
  intro x hx
  have := hk x hx
  by_cases h1 : k < x.1
  · simp [h1, le_of_lt h1]
  · have h2 : ¬ k ≤ x.1 := fun h => h1 (lt_of_le_of_ne h (Ne.symm this))
    simp [h1, h2]

end Pire

namespace Pire

variable {T : Type} [LinearOrder T]

/-- What `DoAppend` does to a class table under an equivalence relation, entry by
entry: the item joins the one class whose key is related to it, or a class is
founded for it. -/
theorem DoAppend_mem_cases {eq : T → T → Bool} (he : IsEquivRel eq) {s : AppendState T}
    (C : ClassInv eq s) (t : T) :
    (∃ r i v, (r, (i, v)) ∈ s.set ∧ eq r t = true ∧
        (DoAppend eq s t).inv = ymap.assign s.inv t r ∧
        (DoAppend eq s t).maxidx = s.maxidx ∧
        ∀ x, x ∈ (DoAppend eq s t).set ↔ (x ∈ s.set ∧ x.1 ≠ r) ∨ x = (r, (i, v ++ [t]))) ∨
    ((∀ e ∈ s.set, eq e.1 t = false) ∧
        (DoAppend eq s t).inv = ymap.assign s.inv t t ∧
        (DoAppend eq s t).maxidx = s.maxidx + 1 ∧
        ∀ x, x ∈ (DoAppend eq s t).set ↔ x ∈ s.set ∨ x = (t, (s.maxidx, [t]))) := by
  have C1 := (DoAppend_equiv he C t).1
  rcases DoAppend_cases eq s t with ⟨pre, r, i, v, post, h1, h2, h3, h4⟩ | ⟨h1, h4⟩
  · left
    have hmid : (r, (i, v ++ [t])) ∈ (DoAppend eq s t).set := by rw [h4]; simp
    refine ⟨r, i, v, by rw [h1]; simp, h3, by rw [h4], by rw [h4], ?_⟩
    intro x
    constructor
    · intro hx
      by_cases hk : x.1 = r
      · right
        obtain ⟨x1, x2⟩ := x
        simp only at hk
        subst hk
        rw [ymap.WF_key_unique C1.wf hx hmid]
      · left
        refine ⟨?_, hk⟩
        rw [h4] at hx
        simp only [List.mem_append, List.mem_cons] at hx
        rw [h1]
        rcases hx with h | h | h
        · simp [h]
        · rw [h] at hk
          exact absurd rfl hk
        · simp [h]
    · rintro (⟨hx, hk⟩ | hx)
      · rw [h1] at hx
        simp only [List.mem_append, List.mem_cons] at hx
        rw [h4]
        rcases hx with h | h | h
        · simp [h]
        · rw [h] at hk
          exact absurd rfl hk
        · simp [h]
      · rw [hx]
        exact hmid
  · right
    refine ⟨h1, by rw [h4], by rw [h4], ?_⟩
    intro x
    rw [h4]
    constructor
    · intro hx
      exact ymap.mem_insert hx
    · rintro (hx | hx)
      · exact ymap.mem_insert_of_mem hx
      · rw [hx]
        apply ymap.mem_insert_self
        intro c hc
        have := h1 _ hc
        simp only at this
        rw [he.refl t] at this
        cases this

/-- Classifying items against a table that holds, next to the classes of `s0`,
classes whose keys are related to none of the items gives what classifying them
against `s0` gives, next to those classes. -/
theorem foldl_DoAppend_frame {eq : T → T → Bool} (he : IsEquivRel eq)
    (temp : Partition.Set T) (l : List T) :
    ∀ (s s0 : AppendState T), ClassInv eq s → ClassInv eq s0 → s.inv = s0.inv →
      s.maxidx = s0.maxidx → (∀ x, x ∈ s.set ↔ x ∈ temp ∨ x ∈ s0.set) →
      (∀ e ∈ temp, ∀ t ∈ l, eq e.1 t = false) →
      (l.foldl (DoAppend eq) s).inv = (l.foldl (DoAppend eq) s0).inv ∧
      (l.foldl (DoAppend eq) s).maxidx = (l.foldl (DoAppend eq) s0).maxidx ∧
      (∀ x, x ∈ (l.foldl (DoAppend eq) s).set ↔
        x ∈ temp ∨ x ∈ (l.foldl (DoAppend eq) s0).set) := by
  induction l with
  | nil =>
    intro s s0 _ _ hi hn hS _
    exact ⟨hi, hn, hS⟩
  | cons t l ih =>
    intro s s0 C C0 hi hn hS htemp
    simp only [List.foldl_cons]
    have htt : ∀ e ∈ temp, eq e.1 t = false := fun e he' => htemp e he' t (by simp)
    refine ih (DoAppend eq s t) (DoAppend eq s0 t) (DoAppend_equiv he C t).1
      (DoAppend_equiv he C0 t).1 ?_ ?_ ?_
      (fun e he' x hx => htemp e he' x (List.mem_cons_of_mem _ hx))
    all_goals
      rcases DoAppend_mem_cases he C t with ⟨r, i, v, hm, hrt, hinv, hmax, hmem⟩ |
        ⟨hno, hinv, hmax, hmem⟩ <;>
      rcases DoAppend_mem_cases he C0 t with ⟨r0, i0, v0, hm0, hrt0, hinv0, hmax0, hmem0⟩ |
        ⟨hno0, hinv0, hmax0, hmem0⟩
    -- the reverse map
    · have hm0' : (r0, (i0, v0)) ∈ s.set := (hS _).mpr (Or.inr hm0)
      have hrr : r = r0 := by
        by_contra hne
        have h1 := C.sepR r _ r0 _ hm hm0' hne
        rw [he.trans _ _ _ hrt (he.symm _ _ hrt0)] at h1
        cases h1
      rw [hinv, hinv0, hi, hrr]
    · rcases (hS _).mp hm with h | h
      · have := htt _ h
        simp only at this
        rw [hrt] at this
        cases this
      · have := hno0 _ h
        simp only at this
        rw [hrt] at this
        cases this
    · have := hno _ ((hS _).mpr (Or.inr hm0))
      simp only at this
      rw [hrt0] at this
      cases this
    · rw [hinv, hinv0, hi]
    -- the counter
    · rw [hmax, hmax0, hn]
    · rcases (hS _).mp hm with h | h
      · have := htt _ h
        simp only at this
        rw [hrt] at this
        cases this
      · have := hno0 _ h
        simp only at this
        rw [hrt] at this
        cases this
    · have := hno _ ((hS _).mpr (Or.inr hm0))
      simp only at this
      rw [hrt0] at this
      cases this
    · rw [hmax, hmax0, hn]
    -- the class table
    · have hm0' : (r0, (i0, v0)) ∈ s.set := (hS _).mpr (Or.inr hm0)
      have hrr : r = r0 := by
        by_contra hne
        have h1 := C.sepR r _ r0 _ hm hm0' hne
        rw [he.trans _ _ _ hrt (he.symm _ _ hrt0)] at h1
        cases h1
      subst hrr
      have := ymap.WF_key_unique C.wf hm hm0'
      cases this
      intro x
      rw [hmem x, hmem0 x, hS x]
      constructor
      · rintro (⟨h1 | h1, h2⟩ | h1)
        · exact Or.inl h1
        · exact Or.inr (Or.inl ⟨h1, h2⟩)
        · exact Or.inr (Or.inr h1)
      · rintro (h1 | ⟨h1, h2⟩ | h1)
        · refine Or.inl ⟨Or.inl h1, ?_⟩
          intro e
          have := htt _ h1
          rw [e, hrt] at this
          cases this
        · exact Or.inl ⟨Or.inr h1, h2⟩
        · exact Or.inr h1
    · rcases (hS _).mp hm with h | h
      · have := htt _ h
        simp only at this
        rw [hrt] at this
        cases this
      · have := hno0 _ h
        simp only at this
        rw [hrt] at this
        cases this
    · have := hno _ ((hS _).mpr (Or.inr hm0))
      simp only at this
      rw [hrt0] at this
      cases this
    · intro x
      rw [hmem x, hmem0 x, hS x, hn]
      constructor
      · rintro ((h1 | h1) | h1)
        · exact Or.inl h1
        · exact Or.inr (Or.inl h1)
        · exact Or.inr (Or.inr h1)
      · rintro (h1 | h1 | h1)
        · exact Or.inl (Or.inl h1)
        · exact Or.inl (Or.inr h1)
        · exact Or.inr h1

end Pire

namespace Pire

variable {T : Type} [LinearOrder T]

/-- An iteration of the loop that changes nothing, at a key the specified pass
skips or treats without a change, keeps the simulation. -/
theorem SplitSim_noop {eq : T → T → Bool} {q : Partition T} {k : T} {σ : SplitSpecState T}
    (he : IsEquivRel eq) (S : SplitSim eq q (some k) σ) (hs : SplitStep q k = q)
    (hspec : (∀ x ∈ σ.main, x.1 ≠ k) ∨
      ∃ e ∈ σ.main, e.1 = k ∧ SplitSpecClass eq σ e = σ) :
    ∃ σ', SplitSim eq (SplitStep q k) (ymap.nextKey (SplitStep q k).m_set k) σ' ∧
      (SplitTodo σ.main (some k)).foldl (SplitSpecClass eq) σ =
        (SplitTodo σ'.main (ymap.nextKey (SplitStep q k).m_set k)).foldl
          (SplitSpecClass eq) σ' := by
  have heq : IsEquivRel q.m_eq := by rw [S.m_eq]; exact he
  have J' := SplitInv_SplitStep heq S.splitInv
  have hsub : ∀ x ∈ σ.main, ∃ c, (x.1, c) ∈ q.m_set :=
    fun x hx => ⟨x.2, (S.mem x).mpr (Or.inl hx)⟩
  rw [hs] at J' ⊢
  refine ⟨σ, ⟨S.m_eq, S.mem, S.inv, S.maxidx, J', S.wf_main, S.temp, S.disj⟩, ?_⟩
  rcases hspec with hk | ⟨e, hem, hek, hcl⟩
  · rw [SplitTodo_skip S.splitInv.wf hsub k hk]
  · rw [← SplitTodo_next S.splitInv.wf hsub k]
    show (σ.main.filter (fun x => decide (k ≤ x.1))).foldl (SplitSpecClass eq) σ = _
    have := ymap.filter_le_eq_cons S.wf_main hem
    rw [hek] at this
    rw [this, List.foldl_cons, hcl]

/-- Every iteration of the loop of `Split` is matched by the specified pass: it
is the specified treatment of a class of the main table, or it is at a class of
the temporary table and changes nothing. -/
theorem SplitSim_step {eq : T → T → Bool} (he : IsEquivRel eq) {q : Partition T} {k : T}
    {σ : SplitSpecState T} (S : SplitSim eq q (some k) σ) :
    ∃ σ', SplitSim eq (SplitStep q k) (ymap.nextKey (SplitStep q k).m_set k) σ' ∧
      (SplitTodo σ.main (some k)).foldl (SplitSpecClass eq) σ =
        (SplitTodo σ'.main (ymap.nextKey (SplitStep q k).m_set k)).foldl
          (SplitSpecClass eq) σ' := by
  have hqe := S.m_eq
  have heq : IsEquivRel q.m_eq := by rw [hqe]; exact he
  have J := S.splitInv
  have J' := SplitInv_SplitStep heq J
  by_cases hmain : ∃ c, (k, c) ∈ σ.main
  · obtain ⟨⟨i, v⟩, hkm⟩ := hmain
    have hk : (k, (i, v)) ∈ q.m_set := (S.mem _).mpr (Or.inl hkm)
    have hf : ymap.find q.m_set k = some (i, v) := ymap.find_of_mem J.wf hk
    have hfm : ymap.find σ.main k = some (i, v) := ymap.find_of_mem S.wf_main hkm
    obtain ⟨tl, htl⟩ := J.head k i v hk
    subst htl
    cases tl with
    | nil =>
      refine SplitSim_noop he S ?_ (Or.inr ⟨_, hkm, rfl, ?_⟩)
      · exact SplitStep_small q k (fun i' v0 v1 rest hf' => by rw [hf] at hf'; cases hf')
      · simp [SplitSpecClass]
    | cons v1 rest =>
      by_cases hb : (stdPartition (fun x => eq x k) (k :: v1 :: rest)).2 = []
      · refine SplitSim_noop he S ?_ (Or.inr ⟨_, hkm, rfl, ?_⟩)
        · apply SplitStep_noop
          intro i' v0 tl' hf' x hx
          rw [hf] at hf'
          cases hf'
          rw [hqe]
          rcases (stdPartition_mem (fun x => eq x k) (k :: v1 :: rest) x).mp hx with h | h
          · exact stdPartition_fst (fun x => eq x k) _ x h
          · rw [hb] at h
            simp at h
        · simp [SplitSpecClass, hb]
      · have hbig := SplitStep_big q k i k v1 rest hf
        rw [hqe] at hbig
        obtain ⟨D0, _, _⟩ := foldl_DoAppend_equiv he
          (stdPartition (fun x => eq x k) (k :: v1 :: rest)).2
          { set := [], inv := q.m_inv, maxidx := q.m_maxidx } (ClassInv_empty _ _ _)
        obtain ⟨D, _, _⟩ := foldl_DoAppend_equiv he
          (stdPartition (fun x => eq x k) (k :: v1 :: rest)).2
          { set := σ.temp, inv := σ.inv, maxidx := σ.maxidx } S.temp
        have hpull : ∀ x, x ∈ (stdPartition (fun x => eq x k) (k :: v1 :: rest)).2 ↔
            x ∈ k :: v1 :: rest ∧ q.m_eq x k = false := by
          intro x
          rw [hqe]
          exact stdPartition_mem_snd (fun x => eq x k) _ x
        have hF : FoldRaw { set := [], inv := q.m_inv, maxidx := q.m_maxidx }
            ((stdPartition (fun x => eq x k) (k :: v1 :: rest)).2.foldl (DoAppend eq)
              { set := [], inv := q.m_inv, maxidx := q.m_maxidx })
            (stdPartition (fun x => eq x k) (k :: v1 :: rest)).2 :=
          foldl_DoAppend_raw eq _ _
        have hn := merge_nocoll (stdPartition (fun x => eq x k) (k :: v1 :: rest)).1
          heq J hk hpull hF
        have htk : ∀ e ∈ σ.temp, e.1 ≠ k := by
          intro e he' hek
          apply S.disj e he' (i, k :: v1 :: rest)
          rw [hek]
          exact hkm
        have hfr := foldl_DoAppend_frame he σ.temp
          (stdPartition (fun x => eq x k) (k :: v1 :: rest)).2
          { set := σ.temp, inv := σ.inv, maxidx := σ.maxidx }
          { set := [], inv := q.m_inv, maxidx := q.m_maxidx }
          S.temp (ClassInv_empty _ _ _) S.inv.symm S.maxidx.symm (by intro x; simp)
          (by
            intro e he' t ht
            obtain ⟨er, ei, ev⟩ := e
            have hem : (er, (ei, ev)) ∈ q.m_set := (S.mem _).mpr (Or.inr he')
            obtain ⟨etl, hetl⟩ := J.head er ei ev hem
            have := J.sep er ei ev k i _ hem hk (htk _ he') er (by rw [hetl]; simp) t
              ((hpull t).mp ht).1
            rw [hqe] at this
            exact this)
        obtain ⟨hfi, hfn, hfm'⟩ := hfr
        have hmem : ∀ x, x ∈ (SplitStep q k).m_set ↔
            x ∈ ymap.update σ.main k
                (fun c => (c.1, (stdPartition (fun x => eq x k) (k :: v1 :: rest)).1)) ∨
            x ∈ ((stdPartition (fun x => eq x k) (k :: v1 :: rest)).2.foldl (DoAppend eq)
              { set := σ.temp, inv := σ.inv, maxidx := σ.maxidx }).set := by
          intro x
          rw [hbig, hfm' x, ymap.mem_update_iff S.wf_main _ hfm x]
          show x ∈ ymap.insertRange _ _ ↔ _
          constructor
          · intro hx
            rcases ymap.mem_insertRange hx with h | h
            · rcases (ymap.mem_update_iff J.wf _ hf x).mp h with ⟨h1, h2⟩ | h1
              · rcases (S.mem x).mp h1 with h3 | h3
                · exact Or.inl (Or.inl ⟨h3, h2⟩)
                · exact Or.inr (Or.inl h3)
              · exact Or.inl (Or.inr h1)
            · exact Or.inr (Or.inr h)
          · rintro ((⟨h1, h2⟩ | h1) | h1 | h1)
            · exact ymap.mem_insertRange_of_mem
                ((ymap.mem_update_iff J.wf _ hf x).mpr (Or.inl ⟨(S.mem x).mpr (Or.inl h1), h2⟩))
            · exact ymap.mem_insertRange_of_mem
                ((ymap.mem_update_iff J.wf _ hf x).mpr (Or.inr h1))
            · exact ymap.mem_insertRange_of_mem
                ((ymap.mem_update_iff J.wf _ hf x).mpr
                  (Or.inl ⟨(S.mem x).mpr (Or.inr h1), htk x h1⟩))
            · exact ymap.mem_insertRange_of_new D0.wf hn h1
        have S' : SplitSim eq (SplitStep q k) (ymap.nextKey (SplitStep q k).m_set k)
            { main := ymap.update σ.main k
                (fun c => (c.1, (stdPartition (fun x => eq x k) (k :: v1 :: rest)).1)),
              temp := ((stdPartition (fun x => eq x k) (k :: v1 :: rest)).2.foldl (DoAppend eq)
                { set := σ.temp, inv := σ.inv, maxidx := σ.maxidx }).set,
              inv := ((stdPartition (fun x => eq x k) (k :: v1 :: rest)).2.foldl (DoAppend eq)
                { set := σ.temp, inv := σ.inv, maxidx := σ.maxidx }).inv,
              maxidx := ((stdPartition (fun x => eq x k) (k :: v1 :: rest)).2.foldl
                (DoAppend eq) { set := σ.temp, inv := σ.inv, maxidx := σ.maxidx }).maxidx } := by
          refine ⟨(SplitStep_m_eq q k).trans hqe, hmem, ?_, ?_, J', ymap.WF_update S.wf_main _ _,
            D, ?_⟩
          · rw [hbig, hfi]
          · rw [hbig, hfn]
          · intro e he' c hc
            have hc' := (ymap.mem_update_iff S.wf_main _ hfm (e.1, c)).mp hc
            rcases (hfm' e).mp he' with h | h
            · rcases hc' with ⟨h1, _⟩ | h1
              · exact S.disj e h c h1
              · exact htk e h (by cases h1; rfl)
            · apply hn e h c
              apply (ymap.mem_update_iff J.wf _ hf (e.1, c)).mpr
              rcases hc' with ⟨h1, h2⟩ | h1
              · exact Or.inl ⟨(S.mem _).mpr (Or.inl h1), h2⟩
              · exact Or.inr h1
        refine ⟨_, S', ?_⟩
        have hsub : ∀ x ∈ ymap.update σ.main k
            (fun c => (c.1, (stdPartition (fun x => eq x k) (k :: v1 :: rest)).1)),
            ∃ c, (x.1, c) ∈ (SplitStep q k).m_set :=
          fun x hx => ⟨x.2, (hmem x).mpr (Or.inl hx)⟩
        rw [← SplitTodo_next J'.wf hsub k, ymap.filter_update]
        show (σ.main.filter (fun x => decide (k ≤ x.1))).foldl (SplitSpecClass eq) σ = _
        have hcons := ymap.filter_le_eq_cons S.wf_main hkm
        simp only at hcons
        rw [hcons, List.foldl_cons]
        congr 1
        simp [SplitSpecClass, hb]
  · have hk : ∀ x ∈ σ.main, x.1 ≠ k := by
      intro x hx e
      apply hmain
      exact ⟨x.2, by rw [← e]; exact hx⟩
    refine SplitSim_noop he S ?_ (Or.inl hk)
    apply SplitStep_noop
    intro i v0 tl hf x hx
    have hm := ymap.find_mem hf
    obtain ⟨tl', htl'⟩ := J.head k i _ hm
    have hv0 : v0 = k := by cases htl'; rfl
    subst hv0
    rcases (S.mem _).mp hm with h | h
    · exact absurd rfl (hk _ h)
    · rw [hqe]
      exact he.symm _ _ (S.temp.rel v0 i _ h x hx)

end Pire

namespace Pire

variable {T : Type} [LinearOrder T]

/-- At the end of the loop the class table of the implementation is the merge the
specification asks for. -/
theorem SplitSim_finish {eq : T → T → Bool} {q : Partition T} {σ : SplitSpecState T}
    (S : SplitSim eq q none σ) : q = SplitSpecFinish eq σ := by
  have hset : q.m_set = ymap.insertRange σ.main σ.temp := by
    refine ymap.WF_ext S.splitInv.wf (ymap.WF_insertRange S.wf_main) ?_
    intro x
    rw [S.mem x]
    constructor
    · rintro (h | h)
      · exact ymap.mem_insertRange_of_mem h
      · exact ymap.mem_insertRange_of_new S.temp.wf S.disj h
    · exact ymap.mem_insertRange
  have hinv : SplitSpecInv σ.inv σ.temp = σ.inv :=
    SplitSpecInv_id σ.temp σ.inv
      (fun e he x hx => S.temp.inv_of_mem e.1 x ⟨e.2.1, e.2.2, he, hx⟩)
  obtain ⟨qe, qs, qi, qm⟩ := q
  simp only [SplitSpecFinish, hinv]
  have h1 : qe = eq := S.m_eq
  have h2 : qs = ymap.insertRange σ.main σ.temp := hset
  have h3 : qi = σ.inv := S.inv
  have h4 : qm = σ.maxidx := S.maxidx
  rw [h1, h2, h3, h4]

/-- The loop of `Split`, from a state that simulates a state of the specified pass,
ends in the state the specified pass and merge end in. -/
theorem SplitLoop_sim {eq : T → T → Bool} (he : IsEquivRel eq) :
    ∀ (n : Nat) (q : Partition T) (cur : Option T) (σ : SplitSpecState T),
      SplitSim eq q cur σ → SplitMeasure q cur ≤ n →
      SplitLoop n q cur =
        SplitSpecFinish eq ((SplitTodo σ.main cur).foldl (SplitSpecClass eq) σ) := by
  intro n
  induction n with
  | zero =>
    intro q cur σ S hm
    cases cur with
    | none => exact SplitSim_finish S
    | some k => simp [SplitMeasure] at hm
  | succ n ih =>
    intro q cur σ S hm
    cases cur with
    | none => exact SplitSim_finish S
    | some k =>
      obtain ⟨σ', S', hfold⟩ := SplitSim_step he S
      rw [hfold]
      exact ih _ _ _ S' (SplitMeasure_step q k n hm)

/-- Under an equivalence relation that implies the active one, `Split` is the
specified one-pass procedure. -/
theorem Split_eq_SplitSpec {p : Partition T} {eq : T → T → Bool} (he : IsEquivRel eq)
    (hr : Refines eq p.m_eq) (J : SplitInv p none) : p.Split eq = SplitSpec p eq := by
  have S0 : SplitSim eq { p with m_eq := eq } (ymap.beginKey p.m_set)
      { main := p.m_set, temp := [], inv := p.m_inv, maxidx := p.m_maxidx } :=
    ⟨rfl, by intro x; simp, rfl, rfl, SplitInv_start hr J, J.wf, ClassInv_empty _ _ _,
      by intro e he'; simp at he'⟩
  have := SplitLoop_sim he _ _ _ _ S0 (SplitMeasure_begin { p with m_eq := eq })
  rw [SplitTodo_begin J.wf] at this
  exact this

theorem pairEq_equiv : IsEquivRel pairEq := by
  refine ⟨?_, ?_, ?_⟩
  · intro a; simp [pairEq]
  · intro a b h; simp [pairEq] at h ⊢; omega
  · intro a b c h1 h2; simp [pairEq] at h1 h2 ⊢; omega

/-- The two procedures are not the same in general: with the relation `pairEq`,
which does not imply `sameParity`, the implementation founds a class for 3 and a
class for 4, while the specified pass puts 4 into the temporary class of 3. -/
theorem SplitSpec_differs_without_refinement :
    (parityPartition.Split pairEq).m_set =
      [(1, 0, [1]), (2, 1, [2]), (3, 2, [3]), (4, 3, [4])] ∧
    (SplitSpec parityPartition pairEq).m_set =
      [(1, 0, [1]), (2, 1, [2]), (3, 2, [3, 4])] := by
  decide

/-- C17: for every state reached under equivalence relations and every equivalence
relation `eq` that implies the active one, `Split(eq)` as implemented (a fresh
`delta` per class, inserted into `m_set` while `m_set` is iterated) ends in the
state the specified one-pass procedure ends in (one temporary table for the pass,
merged into the main table after the pass): same class table, same reverse map,
same index counter, same relation. -/
theorem C17_split_is_the_specified_one_pass {h : List T} {p : Partition T}
    (R : ReachableEq h p) (eq : T → T → Bool) (he : IsEquivRel eq)
    (hr : Refines eq p.m_eq) :
    p.Split eq = SplitSpec p eq ∧
    (p.Split eq).m_set = (SplitSpec p eq).m_set ∧
    (p.Split eq).m_inv = (SplitSpec p eq).m_inv ∧
    (p.Split eq).m_maxidx = (SplitSpec p eq).m_maxidx := by
  have hS := Split_eq_SplitSpec he hr R.splitInv
  exact ⟨hS, by rw [hS], by rw [hS], by rw [hS]⟩

theorem C17_witness :
    IsEquivRel natEq ∧ Refines natEq parityPartition.m_eq ∧
    (SplitSpec parityPartition natEq).m_set =
      [(1, 0, [1]), (2, 1, [2]), (3, 2, [3]), (4, 3, [4])] ∧
    (parityPartition.Split natEq = SplitSpec parityPartition natEq ∧
      (parityPartition.Split natEq).m_set = (SplitSpec parityPartition natEq).m_set ∧
      (parityPartition.Split natEq).m_inv = (SplitSpec parityPartition natEq).m_inv ∧
      (parityPartition.Split natEq).m_maxidx = (SplitSpec parityPartition natEq).m_maxidx) :=
  ⟨natEq_equiv, natEq_refines_sameParity, by decide,
    C17_split_is_the_specified_one_pass parityPartition_reachableEq natEq natEq_equiv
      natEq_refines_sameParity⟩

end Pire
